import Mathlib

/-!
Verification development for the `AirCargoNet` analytics engine
(`services/networkAnalyzer.ts`).

The TypeScript class `NetworkAnalyzer` is shallowly embedded here:

* JS numbers are modelled as exact rationals (`ℚ`).  A JS division whose
  denominator is zero produces a non-finite value (`NaN` or `±Infinity`);
  where the source can actually perform such a division the embedding uses
  `Option ℚ` with `none` standing for the non-finite artifact.
* A JS `Map` whose keys may be absent is modelled as a function into
  `Option _`; a map that is fully initialised for every key it is ever read
  at is modelled as a total function with the default value `0` (this also
  matches the `get(k) || 0` read idiom of the source).
* A JS `Set` is modelled as a duplicate-free `List` in insertion order
  (`addSet` appends only when the element is new).
* The `while (queue.length > 0)` loops are modelled with an explicit fuel
  argument chosen large enough (and proved sufficient) for the loop to
  drain its queue.
-/

namespace AirCargoNet

/-- The `Node` record of `types.ts`: a unique string id plus display
attributes (name, city, coordinates) that the analytics engine never reads. -/
structure Node where
  id : String
  name : String := ""
  city : String := ""
  lat : ℚ := 0
  lng : ℚ := 0
deriving DecidableEq

/-- The `Edge` record of `types.ts`: an ordered pair of node ids plus a
numeric weight. -/
structure Edge where
  source : String
  target : String
  weight : ℚ
deriving DecidableEq

/-- The `CentralityMetrics` record of `types.ts`. -/
structure CentralityMetrics where
  degree : ℚ
  inDegree : ℚ
  outDegree : ℚ
  betweenness : ℚ
  closeness : ℚ
  pageRank : ℚ
  domiRank : ℚ
deriving DecidableEq

/-- The five removal strategies accepted by `simulateRobustness`
(a string union type in the source). -/
inductive Strategy where
  | random
  | degree
  | betweenness
  | pageRank
  | domiRank
deriving DecidableEq

/-- The `RobustnessPoint` record of `types.ts`. -/
structure RobustnessPoint where
  removalRatio : ℚ
  ngc : ℚ
  strategy : Strategy
deriving DecidableEq

/-- The `NetworkStats` record of `types.ts`.  `density` and `avgClustering`
are `Option ℚ` because their defining divisions in `getStats` are not
guarded: with a zero denominator the JS source produces `NaN`/`±Infinity`,
modelled as `none`. -/
structure NetworkStats where
  nodeCount : Nat
  edgeCount : Nat
  density : Option ℚ
  avgClustering : Option ℚ
  avgShortestPath : ℚ
  ngc : ℚ
deriving DecidableEq

/-- JS `map.set k v` on a map modelled as a function. -/
def upd {α : Type} (m : String → α) (k : String) (v : α) : String → α :=
  fun x => if x = k then v else m x

/-- JS `set.add x`: insertion-ordered, duplicate-free append. -/
def addSet {α : Type} [DecidableEq α] (l : List α) (x : α) : List α :=
  if x ∈ l then l else l ++ [x]

/-- Keys of a JS `Map`/`Set` in insertion order: first occurrences kept. -/
def firstDedup {α : Type} [DecidableEq α] (l : List α) : List α :=
  l.foldl addSet []

/-- One `adj.get(src)?.add(tgt)` step: a no-op when the key is absent. -/
def addEdgeAdj (m : String → Option (List String)) (src tgt : String) :
    String → Option (List String) :=
  match m src with
  | none => m
  | some l => upd m src (some (addSet l tgt))

/-- The private fields of the `NetworkAnalyzer` class. -/
structure NetworkAnalyzer where
  nodes : List Node
  edges : List Edge
  adj : String → Option (List String)
  revAdj : String → Option (List String)
  weights : String → Option ℚ

/-- An adjacency map holding an empty set for every node id
(the first `nodes.forEach` of the constructor). -/
def emptyAdj (nodes : List Node) : String → Option (List String) :=
  nodes.foldl (fun m n => upd m n.id (some [])) (fun _ => none)

/-- The `NetworkAnalyzer` constructor (lines 15-32): initialises empty
successor/predecessor sets for every node, then walks the edge list adding
`e.target` to `adj(e.source)`, `e.source` to `revAdj(e.target)` and
recording the weight under the key `src ++ "->" ++ tgt` (last write wins). -/
def mkAnalyzer (nodes : List Node) (edges : List Edge) : NetworkAnalyzer where
  nodes := nodes
  edges := edges
  adj := edges.foldl (fun m e => addEdgeAdj m e.source e.target) (emptyAdj nodes)
  revAdj := edges.foldl (fun m e => addEdgeAdj m e.target e.source) (emptyAdj nodes)
  weights := edges.foldl (fun m e => upd m (e.source ++ "->" ++ e.target) (some e.weight))
    (fun _ => none)

/-- The node-id list, in node-list order. -/
def NetworkAnalyzer.ids (na : NetworkAnalyzer) : List String :=
  na.nodes.map Node.id

/-- Successor list of `v` as read through `this.adj.get(v)` with a
missing key read as the empty collection. -/
def NetworkAnalyzer.adjL (na : NetworkAnalyzer) (v : String) : List String :=
  (na.adj v).getD []

/-- Predecessor list of `v`, analogous to `NetworkAnalyzer.adjL`. -/
def NetworkAnalyzer.revAdjL (na : NetworkAnalyzer) (v : String) : List String :=
  (na.revAdj v).getD []

/-- `calculateInDegrees` (lines 59-63): `revAdj.get(id)?.size || 0` per node. -/
def calculateInDegrees (na : NetworkAnalyzer) : String → ℚ :=
  na.nodes.foldl (fun m n => upd m n.id ((na.revAdjL n.id).length : ℚ)) (fun _ => 0)

/-- `calculateOutDegrees` (lines 65-69): `adj.get(id)?.size || 0` per node. -/
def calculateOutDegrees (na : NetworkAnalyzer) : String → ℚ :=
  na.nodes.foldl (fun m n => upd m n.id ((na.adjL n.id).length : ℚ)) (fun _ => 0)

/-- One damped-update iteration of `calculatePageRank` (lines 169-187).
`sinkPr` accumulates the rank of out-degree-0 nodes over `this.nodes`;
the new map assigns `(1-α)/n + α·(Σ_{nb ∈ revAdj(id)} pr(nb)/outdeg(nb) + sinkPr/n)`
to every node id. -/
def pageRankStep (na : NetworkAnalyzer) (alpha : ℚ) (pr : String → ℚ) : String → ℚ :=
  let n : ℚ := (na.nodes.length : ℚ)
  let sinkPr : ℚ :=
    na.nodes.foldl (fun acc node => if (na.adjL node.id).length = 0 then acc + pr node.id else acc) 0
  na.nodes.foldl (fun m node =>
    let s : ℚ := (na.revAdjL node.id).foldl
      (fun acc nb => acc + pr nb / ((na.adjL nb).length : ℚ)) 0
    upd m node.id ((1 - alpha) / n + alpha * (s + sinkPr / n))) (fun _ => 0)

/-- A map assigning `1/n` to every node id (the uniform initial vector of
`calculatePageRank` and `calculateDomiRank`). -/
def uniformMap (na : NetworkAnalyzer) : String → ℚ :=
  na.nodes.foldl (fun m node => upd m node.id (1 / (na.nodes.length : ℚ))) (fun _ => 0)

/-- `calculatePageRank` (lines 164-190) with the default `alpha = 0.85` and
exactly 50 iterations from the uniform start. -/
def calculatePageRank (na : NetworkAnalyzer) : String → ℚ :=
  (pageRankStep na (85 / 100))^[50] (uniformMap na)

/-- One iteration of `calculateDomiRank` (lines 203-222):
`next(id) = max 0 (γ(id) + α·(θ·k_id − Σ_{nbrs} γ) − β·γ(id))` where `k_id`
is out-degree plus in-degree and the neighbor sum runs over successors then
predecessors. -/
def domiRankStep (na : NetworkAnalyzer) (alpha beta theta : ℚ) (gamma : String → ℚ) :
    String → ℚ :=
  na.nodes.foldl (fun m node =>
    let ki : ℚ := (((na.adjL node.id).length + (na.revAdjL node.id).length : Nat) : ℚ)
    let s1 : ℚ := (na.adjL node.id).foldl (fun acc t => acc + gamma t) 0
    let s2 : ℚ := (na.revAdjL node.id).foldl (fun acc t => acc + gamma t) 0
    let current : ℚ := gamma node.id
    let delta : ℚ := alpha * (theta * ki - (s1 + s2)) - beta * current
    upd m node.id (max 0 (current + delta))) (fun _ => 0)

/-- The DomiRank vector before normalisation: 100 iterations with
`alpha = beta = 0.1`, `theta = 1.0`, uniform start (lines 192-222). -/
def domiGamma (na : NetworkAnalyzer) : String → ℚ :=
  (domiRankStep na (1 / 10) (1 / 10) 1)^[100] (uniformMap na)

/-- The `total` accumulated by `gamma.forEach` (lines 225-226): the map keys
are the node ids in first-occurrence order. -/
def domiTotal (na : NetworkAnalyzer) : ℚ :=
  (firstDedup na.ids).foldl (fun acc k => acc + domiGamma na k) 0

/-- `calculateDomiRank` (lines 192-232): normalise the accumulated vector to
sum 1, skipping normalisation when the total is not positive. -/
def calculateDomiRank (na : NetworkAnalyzer) : String → ℚ :=
  let gamma := domiGamma na
  let total := domiTotal na
  if 0 < total then
    na.nodes.foldl (fun m node => upd m node.id (m node.id / total)) gamma
  else gamma

/-- The undirected adjacency rebuilt by `calculateNGC` (lines 293-299):
every edge is inserted in both directions, each insertion a no-op when the
respective endpoint has no key. -/
def ngcAdj (nodes : List Node) (edges : List Edge) : String → Option (List String) :=
  edges.foldl (fun m e => addEdgeAdj (addEdgeAdj m e.source e.target) e.target e.source)
    (emptyAdj nodes)

/-- State of the component-collecting BFS of `calculateNGC`: the shared
`visited` set, the work `queue` and the dequeue counter `currentSize`. -/
structure FState where
  visited : List String
  queue : List String
  size : Nat
deriving DecidableEq

/-- Neighbor handling inside the `calculateNGC` BFS (lines 312-317):
an unvisited neighbor is marked visited and enqueued. -/
def floodVisit (st : FState) (w : String) : FState :=
  if w ∈ st.visited then st
  else { visited := st.visited ++ [w], queue := st.queue ++ [w], size := st.size }

/-- The `while (queue.length > 0)` loop of `calculateNGC` (lines 309-318):
dequeue `v`, count it, then process `adj.get(v)` (skipped when absent). -/
def floodLoop (adjm : String → Option (List String)) : Nat → FState → FState
  | 0, st => st
  | fuel + 1, st =>
    match st.queue with
    | [] => st
    | v :: rest =>
      floodLoop adjm fuel
        (((adjm v).getD []).foldl floodVisit
          { visited := st.visited, queue := rest, size := st.size + 1 })

/-- Fuel that provably drains the flood queue: every enqueued id is either a
node id or an endpoint of an edge, so `V + 2E + 1` steps suffice. -/
def floodFuel (nodes : List Node) (edges : List Edge) : Nat :=
  nodes.length + 2 * edges.length + 1

/-- One iteration of the outer component loop of `calculateNGC`: skip an
already visited node, otherwise flood from it and fold the component size
into the running maximum. -/
def ngcStep (adjm : String → Option (List String)) (fuel : Nat)
    (p : List String × Nat) (n : Node) : List String × Nat :=
  if n.id ∈ p.1 then p
  else
    let st := floodLoop adjm fuel { visited := p.1 ++ [n.id], queue := [n.id], size := 0 }
    (st.visited, max p.2 st.size)

/-- The outer component loop of `calculateNGC` (lines 301-321): flood from
every not-yet-visited node, tracking the largest dequeue count. -/
def ngcScan (nodes : List Node) (edges : List Edge) : List String × Nat :=
  let adjm := ngcAdj nodes edges
  nodes.foldl (fun (p : List String × Nat) n =>
    if n.id ∈ p.1 then p
    else
      let st := floodLoop adjm (floodFuel nodes edges)
        { visited := p.1 ++ [n.id], queue := [n.id], size := 0 }
      (st.visited, max p.2 st.size)) ([], 0)

/-- `calculateNGC` (lines 290-324): 0 for an empty node list, otherwise the
largest undirected component's dequeue count divided by the node count. -/
def calculateNGC (nodes : List Node) (edges : List Edge) : ℚ :=
  if nodes.length = 0 then 0
  else ((ngcScan nodes edges).2 : ℚ) / (nodes.length : ℚ)

/-- State of the distance BFS shared (verbatim, twice) by
`calculateCloseness` (lines 130-162) and the average-shortest-path part of
`getStats` (lines 259-278): the distance map (`-1` = initialised but not
reached, absent key = unknown id), the queue, and the running
distance-total / reached-count accumulators. -/
structure DState where
  d : String → Option Int
  queue : List String
  totalDist : ℚ
  count : Nat

/-- Distance map initialised to `-1` on every node id and `0` on the source. -/
def initD (na : NetworkAnalyzer) (s : String) : String → Option Int :=
  upd (na.nodes.foldl (fun m n => upd m n.id (some (-1))) (fun _ => none)) s (some 0)

/-- Neighbor handling inside the distance BFS: a neighbor whose stored
distance is exactly `-1` gets distance `d(v)+1`, is added to the running
total and count, and is enqueued; any other neighbor (including an unknown
id, whose lookup is `undefined`, not `-1`) is skipped. -/
def bfsDistVisit (st : DState) (v w : String) : DState :=
  if st.d w = some (-1) then
    let dw : Int := (st.d v).getD 0 + 1
    { d := upd st.d w (some dw)
      queue := st.queue ++ [w]
      totalDist := st.totalDist + (dw : ℚ)
      count := st.count + 1 }
  else st

/-- The `while (queue.length > 0)` loop of the distance BFS. -/
def bfsDistLoop (na : NetworkAnalyzer) : Nat → DState → DState
  | 0, st => st
  | fuel + 1, st =>
    match st.queue with
    | [] => st
    | v :: rest =>
      bfsDistLoop na fuel
        ((na.adjL v).foldl (fun s w => bfsDistVisit s v w)
          { st with queue := rest })

/-- The full distance BFS from source `s` with fuel `V + 1`, which is proved
sufficient (at most one enqueue per node id). -/
def bfsDist (na : NetworkAnalyzer) (s : String) : DState :=
  bfsDistLoop na (na.nodes.length + 1)
    { d := initD na s, queue := [s], totalDist := 0, count := 0 }

/-- `calculateCloseness` (lines 130-162): per source `s`,
`reachableCount / totalDist` when anything was reached, else 0. -/
def calculateCloseness (na : NetworkAnalyzer) : String → ℚ :=
  na.nodes.foldl (fun m n =>
    let st := bfsDist na n.id
    upd m n.id (if 0 < st.count then (st.count : ℚ) / st.totalDist else 0)) (fun _ => 0)

/-- State of one Brandes source sweep in `calculateBetweenness`
(lines 75-117): BFS distance map `d`, shortest-path counts `sigma`,
shortest-path-DAG predecessor lists `pred` (the source's `P`), the BFS
queue and the discovery-order stack. -/
structure BState where
  d : String → Option Int
  sigma : String → ℚ
  pred : String → List String
  queue : List String
  stack : List String

/-- Neighbor handling in the Brandes BFS (lines 94-103): first the
discovery test `d(w) === -1` (an unknown id reads as `undefined` and fails
it), then the shortest-path-DAG test `d(w) === d(v)+1` re-reading the
updated map. -/
def brandesVisit (st : BState) (v w : String) : BState :=
  let st1 :=
    if st.d w = some (-1) then
      { st with d := upd st.d w (some ((st.d v).getD 0 + 1)), queue := st.queue ++ [w] }
    else st
  if st1.d w = some ((st1.d v).getD 0 + 1) then
    { st1 with
      sigma := upd st1.sigma w (st1.sigma w + st1.sigma v)
      pred := upd st1.pred w (st1.pred w ++ [v]) }
  else st1

/-- The Brandes BFS loop (lines 91-104): dequeue `v`, push it on the stack,
process `adj.get(v)` (skipped when absent). -/
def brandesBFS (na : NetworkAnalyzer) : Nat → BState → BState
  | 0, st => st
  | fuel + 1, st =>
    match st.queue with
    | [] => st
    | v :: rest =>
      brandesBFS na fuel
        ((na.adjL v).foldl (fun s w => brandesVisit s v w)
          { st with queue := rest, stack := st.stack ++ [v] })

/-- The dependency back-propagation of Brandes (lines 106-117), processing
the stack from its top: bump `delta(v)` for every DAG predecessor `v` of the
popped `w` (reading the running `delta` map), then accumulate `delta(w)`
into `cb(w)` for non-source `w`.  The first list argument is the stack read
top-first (i.e. reversed). -/
def backprop (pred : String → List String) (sigma : String → ℚ) (s : String) :
    List String → (String → ℚ) → (String → ℚ) → (String → ℚ)
  | [], _, cb => cb
  | w :: ws, delta, cb =>
    let delta' := (pred w).foldl
      (fun dl v => upd dl v (dl v + sigma v / sigma w * (1 + dl w))) delta
    let cb' := if w ≠ s then upd cb w (cb w + delta' w) else cb
    backprop pred sigma s ws delta' cb'

/-- One source iteration of `calculateBetweenness` (lines 75-117): fresh
`P`/`sigma`/`d` maps over the node ids, `sigma(s)=1`, `d(s)=0`, BFS, then
back-propagation into the running `cb` map. -/
def brandesSource (na : NetworkAnalyzer) (cb : String → ℚ) (s : String) : String → ℚ :=
  let st0 : BState :=
    { d := initD na s
      sigma := upd (na.nodes.foldl (fun m n => upd m n.id 0) (fun _ => 0)) s 1
      pred := na.nodes.foldl (fun m n => upd m n.id []) (fun _ => [])
      queue := [s]
      stack := [] }
  let st := brandesBFS na (na.nodes.length + 1) st0
  backprop st.pred st.sigma s st.stack.reverse (fun _ => 0) cb

/-- `calculateBetweenness` (lines 71-128): accumulate over all sources, then
normalise by `(n-1)(n-2)` computed in JS arithmetic (so `Int`, not
truncated) and applied only when positive. -/
def calculateBetweenness (na : NetworkAnalyzer) : String → ℚ :=
  let cb0 : String → ℚ := na.nodes.foldl (fun m n => upd m n.id 0) (fun _ => 0)
  let cb := na.nodes.foldl (fun c n => brandesSource na c n.id) cb0
  let norm : Int := ((na.nodes.length : Int) - 1) * ((na.nodes.length : Int) - 2)
  if 0 < norm then na.nodes.foldl (fun c n => upd c n.id (c n.id / (norm : ℚ))) cb
  else cb

/-- A zero `CentralityMetrics` record, the value read for an id absent from
the metrics map (the source reads such entries with `!`/`|| 0`). -/
def zeroMetrics : CentralityMetrics :=
  { degree := 0, inDegree := 0, outDegree := 0, betweenness := 0,
    closeness := 0, pageRank := 0, domiRank := 0 }

/-- `calculateAllMetrics` (lines 34-57): compute every per-node metric map
and assemble one `CentralityMetrics` record per node id (missing entries
read as 0 via `|| 0`). -/
def calculateAllMetrics (na : NetworkAnalyzer) : String → Option CentralityMetrics :=
  let inD := calculateInDegrees na
  let outD := calculateOutDegrees na
  let btw := calculateBetweenness na
  let cls := calculateCloseness na
  let pr := calculatePageRank na
  let dr := calculateDomiRank na
  na.nodes.foldl (fun m node => upd m node.id (some
    { inDegree := inD node.id
      outDegree := outD node.id
      degree := inD node.id + outD node.id
      betweenness := btw node.id
      closeness := cls node.id
      pageRank := pr node.id
      domiRank := dr node.id })) (fun _ => none)

/-- The clustering contribution of one node in `getStats` (lines 241-257):
its undirected neighborhood is the set spread of successors then
predecessors; with fewer than two neighbors it contributes nothing, else the
number of ordered neighbor pairs `(a,b)`, `a ≠ b`, with `b ∈ adj(a)`
(`?.has` reads false on an absent key), divided by `k(k-1)`.  The source
compares positions `i ≠ j`, which over a duplicate-free set equals comparing
values. -/
def clusteringOf (na : NetworkAnalyzer) (nid : String) : ℚ :=
  let nb : List String := firstDedup (na.adjL nid ++ na.revAdjL nid)
  let k := nb.length
  if k < 2 then 0
  else
    let actualEdges : Nat :=
      (nb.map (fun a => (nb.filter (fun b => b ≠ a ∧ b ∈ na.adjL a)).length)).sum
    (actualEdges : ℚ) / ((k : ℚ) * ((k : ℚ) - 1))

/-- `getStats` (lines 234-288).  The two unguarded divisions
(`density = E / (V·(V-1))` and `avgClustering = total / V`) are recorded as
`none` when their JS denominator is zero (a `NaN`/`±Infinity` artifact);
the shortest-path average is guarded by the source itself and the
shared-accumulator BFS sweep is the per-source sum of the same BFS. -/
def getStats (na : NetworkAnalyzer) : NetworkStats :=
  let nodeCount := na.nodes.length
  let edgeCount := na.edges.length
  let denom : ℚ := (nodeCount : ℚ) * ((nodeCount : ℚ) - 1)
  let totalClustering : ℚ := (na.nodes.map (fun n => clusteringOf na n.id)).sum
  let totalPath : ℚ := (na.nodes.map (fun s => (bfsDist na s.id).totalDist)).sum
  let pathCount : Nat := (na.nodes.map (fun s => (bfsDist na s.id).count)).sum
  { nodeCount := nodeCount
    edgeCount := edgeCount
    density := if denom = 0 then none else some ((edgeCount : ℚ) / denom)
    avgClustering := if nodeCount = 0 then none else some (totalClustering / (nodeCount : ℚ))
    avgShortestPath := if 0 < pathCount then totalPath / (pathCount : ℚ) else 0
    ngc := calculateNGC na.nodes na.edges }

/-- The sort key of the targeted-attack comparator in `simulateRobustness`
(lines 336-344); the unreachable `random` branch mirrors the comparator's
final `return 0`. -/
def metricKey (strategy : Strategy) (m : CentralityMetrics) : ℚ :=
  match strategy with
  | .degree => m.degree
  | .betweenness => m.betweenness
  | .pageRank => m.pageRank
  | .domiRank => m.domiRank
  | .random => 0

/-- Stable insertion of `x` into a descending-ordered list: `x` is placed
before the first strictly smaller key, hence after earlier equal keys —
exactly the order produced by the stable JS `sort((a,b) => key b - key a)`. -/
def insertDesc (key : String → ℚ) (x : String) : List String → List String
  | [] => [x]
  | y :: ys => if key y < key x then x :: y :: ys else y :: insertDesc key x ys

/-- Stable descending sort by `key` (JS `Array.prototype.sort` is stable). -/
def sortDesc (key : String → ℚ) (l : List String) : List String :=
  l.foldl (fun acc x => insertDesc key x acc) []

/-- The removal ordering of `simulateRobustness` (lines 331-345): for the
`random` strategy the `Math.random()` shuffle is modelled by the
caller-supplied `shuffled` list; otherwise the node ids sorted descending by
the chosen metric (`metrics.get(id)!` reads through the metrics map). -/
def sortedNodeIds (na : NetworkAnalyzer) (strategy : Strategy) (shuffled : List String) :
    List String :=
  match strategy with
  | .random => shuffled
  | _ =>
    let metrics := calculateAllMetrics na
    sortDesc (fun a => metricKey strategy ((metrics a).getD zeroMetrics)) na.ids

/-- Remaining node records at sweep step `i` (lines 348-352):
`floor(i/20 · V)` ids are removed from the front of the ordering and the
node list is filtered to the remaining id set. -/
def remainingNodesAt (na : NetworkAnalyzer) (order : List String) (i : Nat) : List Node :=
  let toRemove : Nat := Int.toNat ⌊(i : ℚ) / 20 * (na.nodes.length : ℚ)⌋
  let rem := order.drop toRemove
  na.nodes.filter (fun n => n.id ∈ rem)

/-- Remaining edges at sweep step `i` (line 353): both endpoints must
survive. -/
def remainingEdgesAt (na : NetworkAnalyzer) (order : List String) (i : Nat) : List Edge :=
  let toRemove : Nat := Int.toNat ⌊(i : ℚ) / 20 * (na.nodes.length : ℚ)⌋
  let rem := order.drop toRemove
  na.edges.filter (fun e => e.source ∈ rem ∧ e.target ∈ rem)

/-- `simulateRobustness` (lines 326-363): 21 sweep points at ratios
`i/20`, each carrying the NGC of the induced remaining subgraph. -/
def simulateRobustness (na : NetworkAnalyzer) (strategy : Strategy)
    (shuffled : List String) : List RobustnessPoint :=
  let order := sortedNodeIds na strategy shuffled
  (List.range 21).map (fun (i : Nat) =>
    { removalRatio := (i : ℚ) / 20
      ngc := calculateNGC (remainingNodesAt na order i) (remainingEdgesAt na order i)
      strategy := strategy })

/-- The state-passing form of `calculateAllMetrics`: the method reads the
analyzer's fields and assigns none of them, so it returns the metrics map
together with the (unchanged) receiver state.  This threading makes the
absence of hidden field mutation explicit for the round-trip claim. -/
def calculateAllMetricsS (na : NetworkAnalyzer) :
    (String → Option CentralityMetrics) × NetworkAnalyzer :=
  (calculateAllMetrics na, na)

/-! ### Specification-side definitions

The definitions below are not part of the embedded source; they express the
graph-theoretic vocabulary of the specification (well-formed input, edge
pairs, reachability, shortest-path distance) against which the source
functions are compared. -/

/-- Spec §3 input invariant: every node id referenced by an edge appears in
the node list. -/
def ValidRefs (nodes : List Node) (edges : List Edge) : Prop :=
  ∀ e ∈ edges, e.source ∈ nodes.map Node.id ∧ e.target ∈ nodes.map Node.id

instance (nodes : List Node) (edges : List Edge) : Decidable (ValidRefs nodes edges) :=
  inferInstanceAs (Decidable (∀ e ∈ edges, _ ∧ _))

/-- The ordered (source, target) pairs of an edge list. -/
def edgePairs (edges : List Edge) : List (String × String) :=
  edges.map (fun e => (e.source, e.target))

/-- The distinct ordered (source, target) pairs, first occurrences kept. -/
def dedupPairs (edges : List Edge) : List (String × String) :=
  firstDedup (edgePairs edges)

/-- One step along an adjacency map (used for the undirected NGC adjacency). -/
def adjRel (adjm : String → Option (List String)) (a b : String) : Prop :=
  b ∈ (adjm a).getD []

/-- Reachability along an adjacency map. -/
def Reaches (adjm : String → Option (List String)) : String → String → Prop :=
  Relation.ReflTransGen (adjRel adjm)

/-- The ids reachable from `s` within `n` directed steps that stay on node
ids (the distance BFS only discovers ids carrying a distance entry), as a
duplicate-free list containing `s`. -/
def ball (na : NetworkAnalyzer) (s : String) : Nat → List String
  | 0 => [s]
  | n + 1 =>
    let b := ball na s n
    (b.flatMap (fun v => (na.adjL v).filter (fun w => na.ids.contains w))).foldl addSet b

/-- Spec-side shortest-path distance from `s` to `t` along outbound edges
through node ids: the least step count whose ball contains `t` (searched up
to the node count, which bounds every finite distance). -/
def sdist (na : NetworkAnalyzer) (s t : String) : Option Nat :=
  (List.range (na.nodes.length + 1)).find? (fun n => (ball na s n).contains t)

/-- The ids reachable from `s` other than `s` itself (spec side). -/
def reachL (na : NetworkAnalyzer) (s : String) : List String :=
  (ball na s na.nodes.length).filter (fun t => !(t == s))

/-- Spec-side sum of the shortest-path distances from `s` to each id it
reaches. -/
def distSum (na : NetworkAnalyzer) (s : String) : ℚ :=
  (reachL na s).foldl (fun a t => a + (((sdist na s t).getD 0 : Nat) : ℚ)) 0

/-! ### Concrete graphs used by witnesses and counterexamples -/

/-- A node with the given id and default display attributes. -/
def mkN (s : String) : Node :=
  { id := s }

/-- A weight-1 edge. -/
def mkE (s t : String) : Edge :=
  { source := s, target := t, weight := 1 }

/-- The directed 4-cycle A→B→C→D→A of the spec's concrete scenario. -/
def cycleGraph : NetworkAnalyzer :=
  mkAnalyzer [mkN "A", mkN "B", mkN "C", mkN "D"]
    [mkE "A" "B", mkE "B" "C", mkE "C" "D", mkE "D" "A"]

/-- Two nodes with a single edge A→B. -/
def pairGraph : NetworkAnalyzer :=
  mkAnalyzer [mkN "A", mkN "B"] [mkE "A" "B"]

/-- Three nodes, one edge A→B, C isolated. -/
def triGraph : NetworkAnalyzer :=
  mkAnalyzer [mkN "A", mkN "B", mkN "C"] [mkE "A" "B"]

/-- The empty graph. -/
def emptyGraph : NetworkAnalyzer :=
  mkAnalyzer [] []

/-- A duplicated edge A→B, A→B over two nodes. -/
def dupEdgeGraph : NetworkAnalyzer :=
  mkAnalyzer [mkN "A", mkN "B"] [mkE "A" "B", mkE "A" "B"]

/-- A single node A with an edge to the unknown id B. -/
def badEdgeGraph : NetworkAnalyzer :=
  mkAnalyzer [mkN "A"] [mkE "A" "B"]

/-- One pair insertion, the uncurried form of `addEdgeAdj`. -/
def addPair (m : String → Option (List String)) (p : String × String) :
    String → Option (List String) :=
  addEdgeAdj m p.1 p.2

/-- Invariant of the Brandes BFS phase on a graph with at most two node
ids: every stored distance is `-1`, `0` or `1`, only the source has
distance 0, queued ids carry distance 0 or 1, and each predecessor-list
entry `v ∈ P(w)` records one BFS step `d(w) = d(v) + 1` with `d(v) ≥ 0`. -/
def BInv2 (ids : List String) (s : String) (st : BState) : Prop :=
  st.d s = some 0 ∧
  (∀ x k, st.d x = some k → x ∈ ids) ∧
  (∀ x k, st.d x = some k → k = -1 ∨ k = 0 ∨ k = 1) ∧
  (∀ x, st.d x = some 0 → x = s) ∧
  (∀ x ∈ st.queue, ∃ k : Int, st.d x = some k ∧ (k = 0 ∨ k = 1)) ∧
  (∀ w v, v ∈ st.pred w → ∃ k : Int, st.d v = some k ∧ 0 ≤ k ∧ st.d w = some (k + 1))

/-- An adjacency map is symmetric (holds for the undirected NGC adjacency
of a well-formed graph). -/
def SymAdj (adjm : String → Option (List String)) : Prop :=
  ∀ a b, b ∈ (adjm a).getD [] → a ∈ (adjm b).getD []

/-- A visited set closed under adjacency. -/
def ClosedUnder (adjm : String → Option (List String)) (vis : List String) : Prop :=
  ∀ x ∈ vis, ∀ w ∈ (adjm x).getD [], w ∈ vis

/-- Loop invariant of the `calculateNGC` flood fill started at `u` on top of
the pre-visited closed set `V0`, inside the id universe `U`. -/
def FloodInv (adjm : String → Option (List String)) (U : List String) (u : String)
    (V0 : List String) (st : FState) : Prop :=
  st.visited.Nodup ∧ st.queue.Nodup ∧
  (∀ x ∈ st.queue, x ∈ st.visited) ∧
  (∀ x ∈ st.visited, x ∈ U) ∧
  (∀ x ∈ V0, x ∈ st.visited) ∧
  (V0.length + st.size + st.queue.length = st.visited.length) ∧
  (∀ x ∈ st.visited, x ∈ V0 ∨ Reaches adjm u x) ∧
  (∀ x ∈ st.queue, Reaches adjm u x) ∧
  (∀ x ∈ st.visited, x ∉ st.queue → ∀ w ∈ (adjm x).getD [], w ∈ st.visited)

/-- A duplicate-free list enumerating exactly the ids reachable from `u`. -/
def ReachEnum (adjm : String → Option (List String)) (u : String) (S : List String) : Prop :=
  S.Nodup ∧ ∀ y, y ∈ S ↔ Reaches adjm u y

/-- Invariant of the outer component loop of `calculateNGC`: the shared
visited set is closed, and the running maximum dominates the size of every
visited id's reach set and is witnessed by some node id's reach set. -/
def ScanInv (adjm : String → Option (List String)) (U ids : List String)
    (p : List String × Nat) : Prop :=
  p.1.Nodup ∧ (∀ x ∈ p.1, x ∈ U) ∧ ClosedUnder adjm p.1 ∧
  (∀ x ∈ p.1, ∀ S, ReachEnum adjm x S → S.length ≤ p.2) ∧
  (p.2 = 0 ∨ ∃ u ∈ ids, ∃ S, ReachEnum adjm u S ∧ p.2 = S.length)

/-- The finite universe of ids the NGC flood fill can ever enqueue: the node
ids plus every edge endpoint. -/
def ngcU (nodes : List Node) (edges : List Edge) : List String :=
  firstDedup (nodes.map Node.id ++ edges.flatMap (fun e => [e.source, e.target]))

/-- `n` is the exact spec-side BFS distance from `s` to `x`: `x` enters the
reachability ball at radius `n` and no earlier. -/
def DistIs (na : NetworkAnalyzer) (s x : String) (n : Nat) : Prop :=
  x ∈ ball na s n ∧ ∀ m < n, x ∉ ball na s m

/-- `x` has been discovered by the distance BFS: its stored distance is a
non-negative integer. -/
def Disc (st : DState) (x : String) : Prop :=
  ∃ n : Nat, st.d x = some (n : Int)

/-- Loop invariant of the distance BFS from source `s`: the queue splits
into a level-`lv` segment followed by a level-`lv+1` segment, every stored
non-negative distance is the exact spec-side distance, everything within
radius `lv` is already discovered, dequeued ids have all their eligible
neighbors discovered, and the ghost list `D` enumerates the discovered ids
while `count`/`totalDist` accumulate its size and distance total. -/
def DInv (na : NetworkAnalyzer) (s : String) (lv : Nat) (q1 q2 D : List String)
    (st : DState) : Prop :=
  st.queue = q1 ++ q2 ∧
  st.queue.Nodup ∧
  (∀ x ∈ st.queue, x ∈ na.ids) ∧
  (∀ x ∈ q1, st.d x = some (lv : Int)) ∧
  (∀ x ∈ q2, st.d x = some ((lv : Int) + 1)) ∧
  (∀ x ∈ na.ids, st.d x = some (-1) ∨ ∃ n : Nat, st.d x = some (n : Int) ∧ DistIs na s x n) ∧
  (∀ x, x ∉ na.ids → st.d x = none) ∧
  (∀ x ∈ ball na s lv, Disc st x) ∧
  (∀ x, Disc st x → x ∉ st.queue → ∀ w ∈ na.adjL x, w ∈ na.ids → Disc st w) ∧
  D.Nodup ∧
  (∀ x, x ∈ D ↔ Disc st x) ∧
  st.count + 1 = D.length ∧
  st.totalDist
    = ((D.filter (fun x => x ≠ s)).map (fun x => (((st.d x).getD 0 : Int) : ℚ))).sum

/-! ### Helper lemmas: maps, sets, folds -/

theorem upd_same {α : Type} (m : String → α) (k : String) (v : α) : upd m k v k = v := by
  simp [upd]

theorem upd_ne {α : Type} {m : String → α} {k x : String} {v : α} (h : x ≠ k) :
    upd m k v x = m x := by
  simp [upd, h]

theorem mem_addSet {α : Type} [DecidableEq α] {l : List α} {x y : α} :
    y ∈ addSet l x ↔ y ∈ l ∨ y = x := by
  unfold addSet
  split
  · rename_i hx
    constructor
    · exact Or.inl
    · rintro (h | rfl)
      · exact h
      · exact hx
  · simp

theorem nodup_addSet {α : Type} [DecidableEq α] {l : List α} (x : α) (h : l.Nodup) :
    (addSet l x).Nodup := by
  unfold addSet
  split
  · exact h
  · rename_i hx
    simpa [List.nodup_append, h] using hx

theorem mem_foldl_addSet {α : Type} [DecidableEq α] {l acc : List α} {x : α} :
    x ∈ l.foldl addSet acc ↔ x ∈ acc ∨ x ∈ l := by
  induction l generalizing acc with
  | nil => simp
  | cons a l ih =>
    rw [List.foldl_cons, ih, mem_addSet, List.mem_cons]
    tauto

theorem nodup_foldl_addSet {α : Type} [DecidableEq α] {l acc : List α} (h : acc.Nodup) :
    (l.foldl addSet acc).Nodup := by
  induction l generalizing acc with
  | nil => exact h
  | cons a l ih => exact ih (nodup_addSet a h)

theorem length_addSet_le {α : Type} [DecidableEq α] (l : List α) (x : α) :
    (addSet l x).length ≤ l.length + 1 := by
  unfold addSet
  split
  · omega
  · simp

theorem length_foldl_addSet_le {α : Type} [DecidableEq α] (l acc : List α) :
    (l.foldl addSet acc).length ≤ acc.length + l.length := by
  induction l generalizing acc with
  | nil => simp
  | cons a l ih =>
    calc ((a :: l).foldl addSet acc).length = (l.foldl addSet (addSet acc a)).length := rfl
      _ ≤ (addSet acc a).length + l.length := ih _
      _ ≤ acc.length + 1 + l.length := by have := length_addSet_le acc a; omega
      _ = acc.length + (a :: l).length := by simp; omega

theorem mem_firstDedup {α : Type} [DecidableEq α] {l : List α} {x : α} :
    x ∈ firstDedup l ↔ x ∈ l := by
  unfold firstDedup
  rw [mem_foldl_addSet]
  simp

theorem nodup_firstDedup {α : Type} [DecidableEq α] (l : List α) : (firstDedup l).Nodup :=
  nodup_foldl_addSet List.nodup_nil

theorem foldl_addSet_of_disjoint {α : Type} [DecidableEq α] :
    ∀ (l acc : List α), l.Nodup → (∀ x ∈ l, x ∉ acc) → l.foldl addSet acc = acc ++ l := by
  intro l
  induction l with
  | nil => simp
  | cons a l ih =>
    intro acc h hdisj
    have ha : a ∉ acc := hdisj a (by simp)
    have haset : addSet acc a = acc ++ [a] := by simp [addSet, ha]
    have hl : ∀ x ∈ l, x ∉ acc ++ [a] := by
      intro x hx
      simp only [List.mem_append, List.mem_singleton]
      rintro (hx' | rfl)
      · exact hdisj x (by simp [hx]) hx'
      · exact (List.nodup_cons.mp h).1 hx
    rw [List.foldl_cons, haset, ih (acc ++ [a]) (List.nodup_cons.mp h).2 hl]
    simp

theorem firstDedup_eq_self {α : Type} [DecidableEq α] {l : List α} (h : l.Nodup) :
    firstDedup l = l := by
  unfold firstDedup
  simpa using foldl_addSet_of_disjoint l [] h (by simp)

theorem length_le_of_nodup_subset {α : Type} [DecidableEq α] {l₁ l₂ : List α}
    (h₁ : l₁.Nodup) (h : l₁ ⊆ l₂) : l₁.length ≤ l₂.length :=
  (h₁.subperm h).length_le

theorem foldl_upd_eval {α : Type} (G : String → α) :
    ∀ (l : List Node) (m0 : String → α) (x : String),
      (l.foldl (fun m n => upd m n.id (G n.id)) m0) x
        = if x ∈ l.map Node.id then G x else m0 x := by
  intro l
  induction l with
  | nil => simp
  | cons n l ih =>
    intro m0 x
    rw [List.foldl_cons, ih]
    by_cases hmem : x ∈ l.map Node.id
    · simp [hmem]
    · by_cases hx : x = n.id
      · subst hx
        simp [hmem, upd_same]
      · simp [hmem, hx, upd_ne hx]

theorem foldl_upd_self_eval {α : Type} (f : α → α) :
    ∀ (l : List Node) (m0 : String → α) (x : String), (l.map Node.id).Nodup →
      (l.foldl (fun m n => upd m n.id (f (m n.id))) m0) x
        = if x ∈ l.map Node.id then f (m0 x) else m0 x := by
  intro l
  induction l with
  | nil => simp
  | cons n l ih =>
    intro m0 x hnd
    rw [List.map_cons] at hnd
    have hcons := List.nodup_cons.mp hnd
    have hn : n.id ∉ l.map Node.id := hcons.1
    rw [List.foldl_cons, ih _ _ hcons.2]
    by_cases hmem : x ∈ l.map Node.id
    · have hx : x ≠ n.id := fun h => hn (h ▸ hmem)
      simp [hmem, upd_ne hx]
    · by_cases hx : x = n.id
      · subst hx
        simp [hmem, upd_same]
      · simp [hmem, hx, upd_ne hx]

theorem foldl_add_eq {α : Type} (l : List α) (f : α → ℚ) (c : ℚ) :
    l.foldl (fun a x => a + f x) c = c + (l.map f).sum := by
  induction l generalizing c with
  | nil => simp
  | cons a l ih =>
    rw [List.foldl_cons, ih]
    simp [List.sum_cons]
    ring

theorem foldl_add_if_eq {α : Type} (l : List α) (c : α → Prop) [DecidablePred c]
    (f : α → ℚ) (a0 : ℚ) :
    l.foldl (fun a x => if c x then a + f x else a) a0
      = a0 + (l.map (fun x => if c x then f x else 0)).sum := by
  have : (fun (a : ℚ) x => if c x then a + f x else a)
      = fun (a : ℚ) x => a + (if c x then f x else 0) := by
    funext a x
    split <;> simp
  rw [this, foldl_add_eq]

theorem insertDesc_perm (key : String → ℚ) (x : String) (l : List String) :
    (insertDesc key x l).Perm (x :: l) := by
  induction l with
  | nil => simp [insertDesc]
  | cons y ys ih =>
    unfold insertDesc
    split
    · exact List.Perm.refl _
    · exact (List.Perm.cons y ih).trans (List.Perm.swap x y ys)

theorem sortDesc_perm (key : String → ℚ) (l : List String) :
    (sortDesc key l).Perm l := by
  unfold sortDesc
  suffices H : ∀ acc : List String, (l.foldl (fun acc x => insertDesc key x acc) acc).Perm (acc ++ l) by
    simpa using H []
  induction l with
  | nil => simp
  | cons a l ih =>
    intro acc
    rw [List.foldl_cons]
    refine (ih _).trans ?_
    refine (List.Perm.append_right l (insertDesc_perm key a acc)).trans ?_
    exact (List.perm_middle).symm

/-! ### Helper lemmas: adjacency characterisation -/

theorem addEdgeAdj_isSome (m : String → Option (List String)) (a b x : String) :
    ((addEdgeAdj m a b) x).isSome = (m x).isSome := by
  unfold addEdgeAdj
  cases h : m a with
  | none => rfl
  | some l =>
    by_cases hx : x = a
    · subst hx
      simp [upd_same, h]
    · simp [upd_ne hx]

theorem foldl_addPair_isSome (ps : List (String × String)) (m0 : String → Option (List String))
    (x : String) : ((ps.foldl addPair m0) x).isSome = (m0 x).isSome := by
  induction ps generalizing m0 with
  | nil => rfl
  | cons p ps ih => rw [List.foldl_cons, ih, addPair, addEdgeAdj_isSome]

theorem addEdgeAdj_getD_mem (m : String → Option (List String)) (a b v w : String) :
    (w ∈ ((addEdgeAdj m a b) v).getD [] ↔
      w ∈ (m v).getD [] ∨ ((m v).isSome ∧ v = a ∧ w = b)) := by
  unfold addEdgeAdj
  cases h : m a with
  | none =>
    constructor
    · exact Or.inl
    · rintro (hw | ⟨hs, rfl, rfl⟩)
      · exact hw
      · rw [h] at hs
        simp at hs
  | some l =>
    by_cases hv : v = a
    · subst hv
      simp only [upd_same, h, Option.getD_some, Option.isSome_some, mem_addSet]
      tauto
    · simp [upd_ne hv, hv]

theorem foldl_addPair_getD_mem (ps : List (String × String))
    (m0 : String → Option (List String)) (v w : String) :
    (w ∈ ((ps.foldl addPair m0) v).getD [] ↔
      w ∈ (m0 v).getD [] ∨ ((m0 v).isSome ∧ (v, w) ∈ ps)) := by
  induction ps generalizing m0 with
  | nil => simp
  | cons p ps ih =>
    rw [List.foldl_cons, ih, addPair, addEdgeAdj_getD_mem, addEdgeAdj_isSome]
    constructor
    · rintro ((hw | ⟨hs, rfl, rfl⟩) | ⟨hs, hmem⟩)
      · exact Or.inl hw
      · exact Or.inr ⟨hs, by simp⟩
      · exact Or.inr ⟨hs, by simp [hmem]⟩
    · rintro (hw | ⟨hs, hmem⟩)
      · exact Or.inl (Or.inl hw)
      · rcases List.mem_cons.mp hmem with h | h
        · exact Or.inl (Or.inr ⟨hs, congrArg Prod.fst h, congrArg Prod.snd h⟩)
        · exact Or.inr ⟨hs, h⟩

theorem addEdgeAdj_getD_nodup (m : String → Option (List String)) (a b v : String)
    (h : ∀ x, ((m x).getD []).Nodup) : (((addEdgeAdj m a b) v).getD []).Nodup := by
  unfold addEdgeAdj
  cases hma : m a with
  | none => exact h v
  | some l =>
    by_cases hv : v = a
    · subst hv
      have := h v
      rw [hma] at this
      simpa [upd_same] using nodup_addSet b this
    · simpa [upd_ne hv] using h v

theorem foldl_addPair_getD_nodup (ps : List (String × String))
    (m0 : String → Option (List String)) (v : String)
    (h : ∀ x, ((m0 x).getD []).Nodup) : (((ps.foldl addPair m0) v).getD []).Nodup := by
  induction ps generalizing m0 with
  | nil => exact h v
  | cons p ps ih =>
    rw [List.foldl_cons]
    exact ih _ (fun x => addEdgeAdj_getD_nodup m0 p.1 p.2 x h)

theorem emptyAdj_eval (nodes : List Node) (x : String) :
    emptyAdj nodes x = if x ∈ nodes.map Node.id then some [] else none := by
  unfold emptyAdj
  exact foldl_upd_eval (fun _ => some []) nodes (fun _ => none) x

theorem emptyAdj_isSome (nodes : List Node) (x : String) :
    (emptyAdj nodes x).isSome = (x ∈ nodes.map Node.id : Bool) := by
  rw [emptyAdj_eval]
  split <;> simp_all

theorem mkAnalyzer_adj_eq_pairs (nodes : List Node) (edges : List Edge) :
    (mkAnalyzer nodes edges).adj = (edgePairs edges).foldl addPair (emptyAdj nodes) := by
  show edges.foldl (fun m e => addEdgeAdj m e.source e.target) (emptyAdj nodes) = _
  rw [edgePairs, List.foldl_map]
  rfl

theorem mkAnalyzer_revAdj_eq_pairs (nodes : List Node) (edges : List Edge) :
    (mkAnalyzer nodes edges).revAdj
      = (edges.map (fun e => (e.target, e.source))).foldl addPair (emptyAdj nodes) := by
  show edges.foldl (fun m e => addEdgeAdj m e.target e.source) (emptyAdj nodes) = _
  rw [List.foldl_map]
  rfl

theorem adjL_mem_iff {nodes : List Node} {edges : List Edge} {v w : String} :
    w ∈ (mkAnalyzer nodes edges).adjL v
      ↔ v ∈ nodes.map Node.id ∧ (v, w) ∈ edgePairs edges := by
  unfold NetworkAnalyzer.adjL
  rw [mkAnalyzer_adj_eq_pairs, foldl_addPair_getD_mem, emptyAdj_eval]
  by_cases hv : v ∈ nodes.map Node.id <;> simp [hv]

theorem revAdjL_mem_iff {nodes : List Node} {edges : List Edge} {v u : String} :
    u ∈ (mkAnalyzer nodes edges).revAdjL v
      ↔ v ∈ nodes.map Node.id ∧ (u, v) ∈ edgePairs edges := by
  unfold NetworkAnalyzer.revAdjL
  rw [mkAnalyzer_revAdj_eq_pairs, foldl_addPair_getD_mem, emptyAdj_eval]
  have : ((v, u) ∈ edges.map (fun e => (e.target, e.source))) ↔ (u, v) ∈ edgePairs edges := by
    simp only [edgePairs, List.mem_map, Prod.mk.injEq]
    constructor
    · rintro ⟨e, he, rfl, rfl⟩
      exact ⟨e, he, rfl, rfl⟩
    · rintro ⟨e, he, rfl, rfl⟩
      exact ⟨e, he, rfl, rfl⟩
  rw [this]
  by_cases hv : v ∈ nodes.map Node.id <;> simp [hv]

theorem mkAnalyzer_adj_isSome (nodes : List Node) (edges : List Edge) (v : String) :
    ((mkAnalyzer nodes edges).adj v).isSome = (v ∈ nodes.map Node.id : Bool) := by
  rw [mkAnalyzer_adj_eq_pairs, foldl_addPair_isSome, emptyAdj_isSome]

theorem mkAnalyzer_revAdj_isSome (nodes : List Node) (edges : List Edge) (v : String) :
    ((mkAnalyzer nodes edges).revAdj v).isSome = (v ∈ nodes.map Node.id : Bool) := by
  rw [mkAnalyzer_revAdj_eq_pairs, foldl_addPair_isSome, emptyAdj_isSome]

theorem adjL_nodup (nodes : List Node) (edges : List Edge) (v : String) :
    ((mkAnalyzer nodes edges).adjL v).Nodup := by
  unfold NetworkAnalyzer.adjL
  rw [mkAnalyzer_adj_eq_pairs]
  refine foldl_addPair_getD_nodup _ _ _ (fun x => ?_)
  rw [emptyAdj_eval]
  split <;> simp

theorem revAdjL_nodup (nodes : List Node) (edges : List Edge) (v : String) :
    ((mkAnalyzer nodes edges).revAdjL v).Nodup := by
  unfold NetworkAnalyzer.revAdjL
  rw [mkAnalyzer_revAdj_eq_pairs]
  refine foldl_addPair_getD_nodup _ _ _ (fun x => ?_)
  rw [emptyAdj_eval]
  split <;> simp

theorem ngcAdj_eq_pairs (nodes : List Node) (edges : List Edge) :
    ngcAdj nodes edges
      = (edges.flatMap (fun e => [(e.source, e.target), (e.target, e.source)])).foldl
          addPair (emptyAdj nodes) := by
  unfold ngcAdj
  generalize emptyAdj nodes = m0
  induction edges generalizing m0 with
  | nil => rfl
  | cons e es ih =>
    rw [List.foldl_cons, List.flatMap_cons, List.foldl_append, ih]
    rfl

theorem ngcAdjL_mem_iff {nodes : List Node} {edges : List Edge} {v w : String} :
    w ∈ (ngcAdj nodes edges v).getD []
      ↔ v ∈ nodes.map Node.id ∧
        ∃ e ∈ edges, (e.source = v ∧ e.target = w) ∨ (e.target = v ∧ e.source = w) := by
  rw [ngcAdj_eq_pairs, foldl_addPair_getD_mem, emptyAdj_eval]
  have hmem : ((v, w) ∈ edges.flatMap (fun e => [(e.source, e.target), (e.target, e.source)]))
      ↔ ∃ e ∈ edges, (e.source = v ∧ e.target = w) ∨ (e.target = v ∧ e.source = w) := by
    simp only [List.mem_flatMap, List.mem_cons, List.mem_singleton, Prod.mk.injEq,
      List.not_mem_nil, or_false]
    constructor
    · rintro ⟨e, he, ⟨h1, h2⟩ | ⟨h1, h2⟩⟩
      · exact ⟨e, he, Or.inl ⟨h1.symm, h2.symm⟩⟩
      · exact ⟨e, he, Or.inr ⟨h1.symm, h2.symm⟩⟩
    · rintro ⟨e, he, ⟨h1, h2⟩ | ⟨h1, h2⟩⟩
      · exact ⟨e, he, Or.inl ⟨h1.symm, h2.symm⟩⟩
      · exact ⟨e, he, Or.inr ⟨h1.symm, h2.symm⟩⟩
  rw [hmem]
  by_cases hv : v ∈ nodes.map Node.id <;> simp [hv]

theorem ngcAdjL_nodup (nodes : List Node) (edges : List Edge) (v : String) :
    ((ngcAdj nodes edges v).getD []).Nodup := by
  rw [ngcAdj_eq_pairs]
  refine foldl_addPair_getD_nodup _ _ _ (fun x => ?_)
  rw [emptyAdj_eval]
  split <;> simp

theorem ngcAdj_isSome (nodes : List Node) (edges : List Edge) (v : String) :
    (ngcAdj nodes edges v).isSome = (v ∈ nodes.map Node.id : Bool) := by
  rw [ngcAdj_eq_pairs, foldl_addPair_isSome, emptyAdj_isSome]

/-! ### Claim C3 -/

/-- C3 counterexample: on the directed 4-cycle A→B→C→D→A with unit weights
the average shortest path reported by `getStats` is exactly 2 (per source
the directed distances are 1, 2, 3), not 3/2 as the claim states. -/
theorem C3_counterexample :
    (getStats cycleGraph).avgShortestPath = 2 ∧
      ¬ (getStats cycleGraph).avgShortestPath = 3 / 2 := by
  have h : (getStats cycleGraph).avgShortestPath = 2 := by with_unfolding_all rfl
  refine ⟨h, ?_⟩
  rw [h]
  norm_num

/-- C3 (amended): on the directed 4-cycle A→B→C→D→A with unit weights every
node has in-degree 1 and out-degree 1, `getStats` reports NGC = 1.0, and the
average shortest path equals exactly 2 (the traversal is directed, so the
per-source distances are 1+2+3 over 3 reachable pairs). -/
theorem C3_cycle_stats :
    (calculateInDegrees cycleGraph "A" = 1 ∧ calculateInDegrees cycleGraph "B" = 1 ∧
      calculateInDegrees cycleGraph "C" = 1 ∧ calculateInDegrees cycleGraph "D" = 1) ∧
    (calculateOutDegrees cycleGraph "A" = 1 ∧ calculateOutDegrees cycleGraph "B" = 1 ∧
      calculateOutDegrees cycleGraph "C" = 1 ∧ calculateOutDegrees cycleGraph "D" = 1) ∧
    (getStats cycleGraph).ngc = 1 ∧
    (getStats cycleGraph).avgShortestPath = 2 := by
  refine ⟨⟨?_, ?_, ?_, ?_⟩, ⟨?_, ?_, ?_, ?_⟩, ?_, ?_⟩ <;> with_unfolding_all rfl

/-! ### Claim C8 -/

/-- C8 counterexample: constructing from node list [A] and the edge A→B,
whose target id B is absent from the node list, stores the unknown id B in
A's successor set — the edge is not ignored and the stored id is not a node
id, contradicting the claim's corruption-freedom conjunct. -/
theorem C8_counterexample :
    "B" ∈ badEdgeGraph.adjL "A" ∧ "B" ∉ badEdgeGraph.nodes.map Node.id := by
  constructor
  · with_unfolding_all decide
  · with_unfolding_all decide

/-- C8 (amended): construction never fails (it is total) and stores exactly
the pairs present in the edge list: an id `w` lies in the successor set of
`v` iff `v` is a known node id and the edge (v, w) occurs, and symmetrically
`w` lies in the predecessor set of `v` iff `v` is known and the edge (w, v)
occurs.  An edge whose relevant endpoint is unknown is dropped for that
side, but an edge with exactly one known endpoint still records the unknown
opposite id in the known endpoint's set. -/
theorem C8_construction (nodes : List Node) (edges : List Edge) (v w : String) :
    (w ∈ (mkAnalyzer nodes edges).adjL v
      ↔ v ∈ nodes.map Node.id ∧ (v, w) ∈ edgePairs edges) ∧
    (w ∈ (mkAnalyzer nodes edges).revAdjL v
      ↔ v ∈ nodes.map Node.id ∧ (w, v) ∈ edgePairs edges) :=
  ⟨adjL_mem_iff, revAdjL_mem_iff⟩

/-! ### Claim C10 -/

theorem sortedNodeIds_perm (na : NetworkAnalyzer) (strategy : Strategy)
    (shuffled : List String) (hr : strategy = Strategy.random → shuffled.Perm na.ids) :
    (sortedNodeIds na strategy shuffled).Perm na.ids := by
  cases strategy with
  | random => exact hr rfl
  | degree => exact sortDesc_perm _ na.ids
  | betweenness => exact sortDesc_perm _ na.ids
  | pageRank => exact sortDesc_perm _ na.ids
  | domiRank => exact sortDesc_perm _ na.ids

theorem remainingNodesAt_final (na : NetworkAnalyzer) (order : List String)
    (h : order.length ≤ na.nodes.length) : remainingNodesAt na order 20 = [] := by
  simp only [remainingNodesAt]
  have h1 : ((20 : Nat) : ℚ) / 20 = 1 := by norm_num
  rw [h1, one_mul, Int.floor_natCast, Int.toNat_natCast, List.drop_eq_nil_of_le h]
  simp

/-- C10: for every graph and every strategy (the random shuffle modelled as
any permutation of the node ids), `simulateRobustness` produces 21 points
and its final point, at removal ratio `20/20 = 1`, removes
`floor(1.0·V) = V` nodes, leaving the empty node set, whose `calculateNGC`
is 0 — so the final point is exactly (1, 0, strategy). -/
theorem C10_final_point (nodes : List Node) (edges : List Edge) (strategy : Strategy)
    (shuffled : List String)
    (hr : strategy = Strategy.random → shuffled.Perm (nodes.map Node.id)) :
    (simulateRobustness (mkAnalyzer nodes edges) strategy shuffled).length = 21 ∧
    (simulateRobustness (mkAnalyzer nodes edges) strategy shuffled)[20]?
      = some { removalRatio := 1, ngc := 0, strategy := strategy } := by
  have hperm : (sortedNodeIds (mkAnalyzer nodes edges) strategy shuffled).Perm
      (mkAnalyzer nodes edges).ids :=
    sortedNodeIds_perm (mkAnalyzer nodes edges) strategy shuffled hr
  have hlen : (sortedNodeIds (mkAnalyzer nodes edges) strategy shuffled).length
      ≤ (mkAnalyzer nodes edges).nodes.length := by
    rw [hperm.length_eq]
    simp [NetworkAnalyzer.ids]
  have hrem : remainingNodesAt (mkAnalyzer nodes edges)
      (sortedNodeIds (mkAnalyzer nodes edges) strategy shuffled) 20 = [] :=
    remainingNodesAt_final _ _ hlen
  constructor
  · simp [simulateRobustness]
  · rw [simulateRobustness]
    rw [List.getElem?_map, List.getElem?_range]
    simp only [Option.map_some', Option.some.injEq]
    have hng : calculateNGC
        (remainingNodesAt (mkAnalyzer nodes edges)
          (sortedNodeIds (mkAnalyzer nodes edges) strategy shuffled) 20)
        (remainingEdgesAt (mkAnalyzer nodes edges)
          (sortedNodeIds (mkAnalyzer nodes edges) strategy shuffled) 20) = 0 := by
      rw [hrem, calculateNGC]
      simp
    rw [hng]
    have hr20 : ((20 : Nat) : ℚ) / 20 = 1 := by norm_num
    rw [hr20]
    norm_num

/-- C10 witness: the theorem applied to the three-node graph with the
random strategy and a concrete shuffle. -/
theorem C10_witness :
    (Strategy.random = Strategy.random →
      (["C", "A", "B"] : List String).Perm ([mkN "A", mkN "B", mkN "C"].map Node.id)) ∧
    ((simulateRobustness (mkAnalyzer [mkN "A", mkN "B", mkN "C"] [mkE "A" "B"])
        Strategy.random ["C", "A", "B"]).length = 21 ∧
      (simulateRobustness (mkAnalyzer [mkN "A", mkN "B", mkN "C"] [mkE "A" "B"])
        Strategy.random ["C", "A", "B"])[20]?
        = some { removalRatio := 1, ngc := 0, strategy := Strategy.random }) :=
  ⟨fun _ => by with_unfolding_all decide,
   C10_final_point [mkN "A", mkN "B", mkN "C"] [mkE "A" "B"] Strategy.random ["C", "A", "B"]
     (fun _ => by with_unfolding_all decide)⟩

/-! ### Claim C4 -/

theorem length_eq_of_nodup_equiv {α : Type} [DecidableEq α] {l₁ l₂ : List α}
    (h₁ : l₁.Nodup) (h₂ : l₂.Nodup) (h : ∀ x, x ∈ l₁ ↔ x ∈ l₂) : l₁.length = l₂.length :=
  le_antisymm (length_le_of_nodup_subset h₁ (fun x hx => (h x).mp hx))
    (length_le_of_nodup_subset h₂ (fun x hx => (h x).mpr hx))

theorem sum_map_add_nat {β : Type} (l : List β) (f g : β → Nat) :
    (l.map (fun x => f x + g x)).sum = (l.map f).sum + (l.map g).sum := by
  induction l with
  | nil => simp
  | cons a l ih =>
    simp only [List.map_cons, List.sum_cons, ih]
    omega

theorem sum_map_indicator (keys : List String) (a : String) :
    (keys.map (fun v => if a = v then 1 else 0)).sum = keys.count a := by
  induction keys with
  | nil => simp
  | cons k keys ih =>
    simp only [List.map_cons, List.sum_cons, ih]
    rw [List.count_cons]
    by_cases h : a = k
    · simp [h, Nat.add_comm]
    · have h2 : ¬ k = a := fun hh => h hh.symm
      simp [h, h2]

theorem sum_length_filter_eq {β : Type} (k : β → String) :
    ∀ (ps : List β) (keys : List String), keys.Nodup → (∀ p ∈ ps, k p ∈ keys) →
      (keys.map (fun v => (ps.filter (fun p => k p = v)).length)).sum = ps.length := by
  intro ps
  induction ps with
  | nil => simp
  | cons p ps ih =>
    intro keys hnd hall
    have hstep : (fun v => ((p :: ps).filter (fun q => k q = v)).length)
        = fun v => (if k p = v then 1 else 0) + (ps.filter (fun q => k q = v)).length := by
      funext v
      rw [List.filter_cons]
      by_cases h : k p = v
      · simp [h]
        omega
      · simp [h]
    rw [hstep, sum_map_add_nat, sum_map_indicator,
      ih keys hnd (fun q hq => hall q (by simp [hq])),
      List.count_eq_one_of_mem hnd (hall p (by simp))]
    simp
    omega

theorem adjL_length_eq (nodes : List Node) (edges : List Edge) {v : String}
    (hv : v ∈ nodes.map Node.id) :
    ((mkAnalyzer nodes edges).adjL v).length
      = ((dedupPairs edges).filter (fun p => p.1 = v)).length := by
  have hmapnd : (((dedupPairs edges).filter (fun p => p.1 = v)).map Prod.snd).Nodup := by
    refine List.Nodup.map_on ?_ ((nodup_firstDedup _).filter _)
    intro p hp q hq hsnd
    have hp1 : p.1 = v := by simpa using (List.mem_filter.mp hp).2
    have hq1 : q.1 = v := by simpa using (List.mem_filter.mp hq).2
    exact Prod.ext (hp1.trans hq1.symm) hsnd
  have hlen : ((dedupPairs edges).filter (fun p => p.1 = v)).length
      = (((dedupPairs edges).filter (fun p => p.1 = v)).map Prod.snd).length := by
    simp
  rw [hlen]
  have hiff : ∀ w, w ∈ ((dedupPairs edges).filter (fun p => p.1 = v)).map Prod.snd
      ↔ (v, w) ∈ edgePairs edges := by
    intro w
    simp only [List.mem_map, List.mem_filter, decide_eq_true_eq]
    constructor
    · rintro ⟨p, ⟨hp, hp1⟩, hp2⟩
      have hpvw : p = (v, w) := Prod.ext hp1 hp2
      subst hpvw
      exact (mem_firstDedup (l := edgePairs edges)).mp hp
    · intro hpair
      exact ⟨(v, w), ⟨(mem_firstDedup (l := edgePairs edges)).mpr hpair, rfl⟩, rfl⟩
  refine length_eq_of_nodup_equiv (adjL_nodup nodes edges v) hmapnd (fun w => ?_)
  rw [adjL_mem_iff, hiff]
  simp [hv]

theorem revAdjL_length_eq (nodes : List Node) (edges : List Edge) {v : String}
    (hv : v ∈ nodes.map Node.id) :
    ((mkAnalyzer nodes edges).revAdjL v).length
      = ((dedupPairs edges).filter (fun p => p.2 = v)).length := by
  have hmapnd : (((dedupPairs edges).filter (fun p => p.2 = v)).map Prod.fst).Nodup := by
    refine List.Nodup.map_on ?_ ((nodup_firstDedup _).filter _)
    intro p hp q hq hfst
    have hp1 : p.2 = v := by simpa using (List.mem_filter.mp hp).2
    have hq1 : q.2 = v := by simpa using (List.mem_filter.mp hq).2
    exact Prod.ext hfst (hp1.trans hq1.symm)
  have hlen : ((dedupPairs edges).filter (fun p => p.2 = v)).length
      = (((dedupPairs edges).filter (fun p => p.2 = v)).map Prod.fst).length := by
    simp
  rw [hlen]
  have hiff : ∀ w, w ∈ ((dedupPairs edges).filter (fun p => p.2 = v)).map Prod.fst
      ↔ (w, v) ∈ edgePairs edges := by
    intro w
    simp only [List.mem_map, List.mem_filter, decide_eq_true_eq]
    constructor
    · rintro ⟨p, ⟨hp, hp1⟩, hp2⟩
      have hpwv : p = (w, v) := Prod.ext hp2 hp1
      subst hpwv
      exact (mem_firstDedup (l := edgePairs edges)).mp hp
    · intro hpair
      exact ⟨(w, v), ⟨(mem_firstDedup (l := edgePairs edges)).mpr hpair, rfl⟩, rfl⟩
  refine length_eq_of_nodup_equiv (revAdjL_nodup nodes edges v) hmapnd (fun w => ?_)
  rw [revAdjL_mem_iff, hiff]
  simp [hv]

/-- C4 counterexample: with nodes [A, B] and the duplicated edge list
[A→B, A→B] both degree sums are 1 (adjacency `Set`s deduplicate the
repeated pair) while the edge list has length 2. -/
theorem C4_counterexample :
    (dupEdgeGraph.nodes.map (fun n => calculateInDegrees dupEdgeGraph n.id)).sum = 1 ∧
    (dupEdgeGraph.nodes.map (fun n => calculateOutDegrees dupEdgeGraph n.id)).sum = 1 ∧
    dupEdgeGraph.edges.length = 2 ∧
    ¬ (dupEdgeGraph.nodes.map (fun n => calculateOutDegrees dupEdgeGraph n.id)).sum
        = (dupEdgeGraph.edges.length : ℚ) := by
  refine ⟨?_, ?_, ?_, ?_⟩ <;> with_unfolding_all decide

/-- C4 (amended): for every graph with duplicate-free node ids whose edges
reference only known ids, the sum of in-degrees equals the sum of
out-degrees, and both equal the number of DISTINCT (source, target) pairs
in the edge list; this equals the edge-list length exactly when the edge
list has no duplicated ordered pair (the adjacency `Set`s silently
deduplicate repeats). -/
theorem C4_degree_sums (nodes : List Node) (edges : List Edge)
    (hnd : (nodes.map Node.id).Nodup) (hwf : ValidRefs nodes edges) :
    (nodes.map (fun n => calculateInDegrees (mkAnalyzer nodes edges) n.id)).sum
        = ((dedupPairs edges).length : ℚ) ∧
    (nodes.map (fun n => calculateOutDegrees (mkAnalyzer nodes edges) n.id)).sum
        = ((dedupPairs edges).length : ℚ) ∧
    ((edgePairs edges).Nodup → (dedupPairs edges).length = edges.length) := by
  have hpairs : ∀ p ∈ dedupPairs edges, p ∈ edgePairs edges :=
    fun p hp => (mem_firstDedup (l := edgePairs edges)).mp hp
  have hfst : ∀ p ∈ dedupPairs edges, p.1 ∈ nodes.map Node.id := by
    intro p hp
    obtain ⟨e, he, rfl⟩ := List.mem_map.mp (hpairs p hp)
    exact (hwf e he).1
  have hsnd : ∀ p ∈ dedupPairs edges, p.2 ∈ nodes.map Node.id := by
    intro p hp
    obtain ⟨e, he, rfl⟩ := List.mem_map.mp (hpairs p hp)
    exact (hwf e he).2
  refine ⟨?_, ?_, ?_⟩
  · have heval : ∀ n ∈ nodes, calculateInDegrees (mkAnalyzer nodes edges) n.id
        = (((mkAnalyzer nodes edges).revAdjL n.id).length : ℚ) := by
      intro n hn
      have h := foldl_upd_eval
        (fun id => (((mkAnalyzer nodes edges).revAdjL id).length : ℚ)) nodes
        (fun _ => 0) n.id
      rw [if_pos (List.mem_map.mpr ⟨n, hn, rfl⟩)] at h
      exact h
    have hsumNat : ((nodes.map Node.id).map
        (fun v => ((dedupPairs edges).filter (fun p => p.2 = v)).length)).sum
        = (dedupPairs edges).length :=
      sum_length_filter_eq Prod.snd (dedupPairs edges) _ hnd hsnd
    have hlist : nodes.map (fun n => calculateInDegrees (mkAnalyzer nodes edges) n.id)
        = (nodes.map Node.id).map
            (fun v => (((dedupPairs edges).filter (fun p => p.2 = v)).length : ℚ)) := by
      rw [List.map_map]
      refine List.map_congr_left (fun n hn => ?_)
      show calculateInDegrees (mkAnalyzer nodes edges) n.id = _
      rw [heval n hn, revAdjL_length_eq nodes edges (List.mem_map.mpr ⟨n, hn, rfl⟩)]
      rfl
    rw [hlist]
    rw [show ((nodes.map Node.id).map
          (fun v => (((dedupPairs edges).filter (fun p => p.2 = v)).length : ℚ)))
        = ((nodes.map Node.id).map
          (fun v => ((dedupPairs edges).filter (fun p => p.2 = v)).length)).map
            (fun k : Nat => (k : ℚ)) from (List.map_map _ _ _).symm]
    rw [← Nat.cast_list_sum, hsumNat]
  · have heval : ∀ n ∈ nodes, calculateOutDegrees (mkAnalyzer nodes edges) n.id
        = (((mkAnalyzer nodes edges).adjL n.id).length : ℚ) := by
      intro n hn
      have h := foldl_upd_eval
        (fun id => (((mkAnalyzer nodes edges).adjL id).length : ℚ)) nodes
        (fun _ => 0) n.id
      rw [if_pos (List.mem_map.mpr ⟨n, hn, rfl⟩)] at h
      exact h
    have hsumNat : ((nodes.map Node.id).map
        (fun v => ((dedupPairs edges).filter (fun p => p.1 = v)).length)).sum
        = (dedupPairs edges).length :=
      sum_length_filter_eq Prod.fst (dedupPairs edges) _ hnd hfst
    have hlist : nodes.map (fun n => calculateOutDegrees (mkAnalyzer nodes edges) n.id)
        = (nodes.map Node.id).map
            (fun v => (((dedupPairs edges).filter (fun p => p.1 = v)).length : ℚ)) := by
      rw [List.map_map]
      refine List.map_congr_left (fun n hn => ?_)
      show calculateOutDegrees (mkAnalyzer nodes edges) n.id = _
      rw [heval n hn, adjL_length_eq nodes edges (List.mem_map.mpr ⟨n, hn, rfl⟩)]
      rfl
    rw [hlist]
    rw [show ((nodes.map Node.id).map
          (fun v => (((dedupPairs edges).filter (fun p => p.1 = v)).length : ℚ)))
        = ((nodes.map Node.id).map
          (fun v => ((dedupPairs edges).filter (fun p => p.1 = v)).length)).map
            (fun k : Nat => (k : ℚ)) from (List.map_map _ _ _).symm]
    rw [← Nat.cast_list_sum, hsumNat]
  · intro hnodup
    rw [dedupPairs, firstDedup_eq_self hnodup, edgePairs]
    simp

/-- C4 witness: the amended theorem applied to the 4-cycle, whose edge
pairs are distinct, so both degree sums equal the edge count 4. -/
theorem C4_witness :
    (([mkN "A", mkN "B", mkN "C", mkN "D"].map Node.id).Nodup ∧
      ValidRefs [mkN "A", mkN "B", mkN "C", mkN "D"]
        [mkE "A" "B", mkE "B" "C", mkE "C" "D", mkE "D" "A"]) ∧
    ((([mkN "A", mkN "B", mkN "C", mkN "D"]).map
        (fun n => calculateInDegrees cycleGraph n.id)).sum
      = ((dedupPairs [mkE "A" "B", mkE "B" "C", mkE "C" "D", mkE "D" "A"]).length : ℚ) ∧
     (([mkN "A", mkN "B", mkN "C", mkN "D"]).map
        (fun n => calculateOutDegrees cycleGraph n.id)).sum
      = ((dedupPairs [mkE "A" "B", mkE "B" "C", mkE "C" "D", mkE "D" "A"]).length : ℚ) ∧
     ((edgePairs [mkE "A" "B", mkE "B" "C", mkE "C" "D", mkE "D" "A"]).Nodup →
      (dedupPairs [mkE "A" "B", mkE "B" "C", mkE "C" "D", mkE "D" "A"]).length
        = [mkE "A" "B", mkE "B" "C", mkE "C" "D", mkE "D" "A"].length)) :=
  ⟨⟨by with_unfolding_all decide, by with_unfolding_all decide⟩,
   C4_degree_sums [mkN "A", mkN "B", mkN "C", mkN "D"]
     [mkE "A" "B", mkE "B" "C", mkE "C" "D", mkE "D" "A"]
     (by with_unfolding_all decide) (by with_unfolding_all decide)⟩

/-! ### Claim C5 -/

theorem sum_map_add_q {β : Type} (l : List β) (f g : β → ℚ) :
    (l.map (fun x => f x + g x)).sum = (l.map f).sum + (l.map g).sum := by
  induction l with
  | nil => simp
  | cons a l ih =>
    simp only [List.map_cons, List.sum_cons, ih]
    ring

theorem sum_map_const_q {β : Type} (l : List β) (c : ℚ) :
    (l.map (fun _ => c)).sum = (l.length : ℚ) * c := by
  induction l with
  | nil => simp
  | cons a l ih =>
    simp only [List.map_cons, List.sum_cons, ih, List.length_cons]
    push_cast
    ring

theorem sum_map_mul_left_q {β : Type} (l : List β) (c : ℚ) (f : β → ℚ) :
    (l.map (fun x => c * f x)).sum = c * (l.map f).sum := by
  induction l with
  | nil => simp
  | cons a l ih =>
    simp only [List.map_cons, List.sum_cons, ih]
    ring

theorem pagerank_inbound_swap (nodes : List Node) (edges : List Edge)
    (hnd : (nodes.map Node.id).Nodup) (hwf : ValidRefs nodes edges) (pr : String → ℚ) :
    ((nodes.map Node.id).map (fun v =>
        (((mkAnalyzer nodes edges).revAdjL v).map
          (fun u => pr u / (((mkAnalyzer nodes edges).adjL u).length : ℚ))).sum)).sum
      = ((nodes.map Node.id).map (fun u =>
          if ((mkAnalyzer nodes edges).adjL u).length = 0 then 0 else pr u)).sum := by
  set na := mkAnalyzer nodes edges with hna
  set h : String → ℚ := fun u => pr u / ((na.adjL u).length : ℚ) with hh
  set I : Finset String := (nodes.map Node.id).toFinset with hI
  have hrev_sub : ∀ v u, u ∈ na.revAdjL v → u ∈ nodes.map Node.id := by
    intro v u hu
    obtain ⟨-, hp⟩ := revAdjL_mem_iff.mp hu
    obtain ⟨e, he, hpe⟩ := List.mem_map.mp hp
    have := (hwf e he).1
    rw [show e.source = u from congrArg Prod.fst hpe] at this
    exact this
  have hadj_sub : ∀ u w, w ∈ na.adjL u → w ∈ nodes.map Node.id := by
    intro u w hw
    obtain ⟨-, hp⟩ := adjL_mem_iff.mp hw
    obtain ⟨e, he, hpe⟩ := List.mem_map.mp hp
    have := (hwf e he).2
    rw [show e.target = w from congrArg Prod.snd hpe] at this
    exact this
  -- left side as a Finset double sum
  have lhs_eq : ((nodes.map Node.id).map (fun v => ((na.revAdjL v).map h).sum)).sum
      = I.sum (fun v => I.sum (fun u => if u ∈ na.revAdjL v then h u else 0)) := by
    rw [← List.sum_toFinset _ hnd]
    refine Finset.sum_congr rfl (fun v hv => ?_)
    rw [← List.sum_toFinset _ (revAdjL_nodup nodes edges v)]
    have hcond : (∑ u ∈ I, if u ∈ na.revAdjL v then h u else 0)
        = ∑ u ∈ I, if u ∈ (na.revAdjL v).toFinset then h u else 0 := by
      refine Finset.sum_congr rfl (fun u _ => ?_)
      refine if_congr ?_ rfl rfl
      rw [List.mem_toFinset]
    rw [hcond, Finset.sum_ite_mem]
    congr 1
    refine (Finset.inter_eq_right.mpr ?_).symm
    intro u hu
    rw [hI, List.mem_toFinset]
    exact hrev_sub v u (List.mem_toFinset.mp hu)
  rw [lhs_eq, Finset.sum_comm]
  rw [← List.sum_toFinset _ hnd]
  refine Finset.sum_congr rfl (fun u hu => ?_)
  have hu' : u ∈ nodes.map Node.id := List.mem_toFinset.mp hu
  have hstep1 : (I.sum fun v => if u ∈ na.revAdjL v then h u else 0)
      = I.sum fun v => if v ∈ (na.adjL u).toFinset then h u else 0 := by
    refine Finset.sum_congr rfl (fun v hv => ?_)
    have hvI : v ∈ nodes.map Node.id := by
      rw [hI] at hv
      exact List.mem_toFinset.mp hv
    refine if_congr ?_ rfl rfl
    rw [List.mem_toFinset]
    constructor
    · intro hrel
      exact adjL_mem_iff.mpr ⟨hu', (revAdjL_mem_iff.mp hrel).2⟩
    · intro hrel
      exact revAdjL_mem_iff.mpr ⟨hvI, (adjL_mem_iff.mp hrel).2⟩
  rw [hstep1, Finset.sum_ite_mem, Finset.sum_const]
  have hsub : (na.adjL u).toFinset ⊆ I := by
    intro w hw
    rw [hI, List.mem_toFinset]
    exact hadj_sub u w (List.mem_toFinset.mp hw)
  rw [Finset.inter_eq_right.mpr hsub]
  rw [List.toFinset_card_of_nodup (adjL_nodup nodes edges u)]
  by_cases hz : (na.adjL u).length = 0
  · simp [hz]
  · rw [if_neg hz, nsmul_eq_mul, hh]
    have hne : ((na.adjL u).length : ℚ) ≠ 0 := Nat.cast_ne_zero.mpr hz
    field_simp

theorem pageRankStep_eval (na : NetworkAnalyzer) (alpha : ℚ) (pr : String → ℚ) (x : String) :
    pageRankStep na alpha pr x
      = if x ∈ na.nodes.map Node.id then
          (1 - alpha) / (na.nodes.length : ℚ)
            + alpha * (((na.revAdjL x).foldl
                (fun acc nb => acc + pr nb / ((na.adjL nb).length : ℚ)) 0)
              + (na.nodes.foldl (fun acc node =>
                    if (na.adjL node.id).length = 0 then acc + pr node.id else acc) 0)
                / (na.nodes.length : ℚ))
        else 0 :=
  foldl_upd_eval (fun id => (1 - alpha) / (na.nodes.length : ℚ)
      + alpha * (((na.revAdjL id).foldl
          (fun acc nb => acc + pr nb / ((na.adjL nb).length : ℚ)) 0)
        + (na.nodes.foldl (fun acc node =>
              if (na.adjL node.id).length = 0 then acc + pr node.id else acc) 0)
          / (na.nodes.length : ℚ))) na.nodes (fun _ => 0) x

theorem uniformMap_eval (na : NetworkAnalyzer) (x : String) :
    uniformMap na x = if x ∈ na.nodes.map Node.id then 1 / (na.nodes.length : ℚ) else 0 :=
  foldl_upd_eval (fun _ => 1 / (na.nodes.length : ℚ)) na.nodes (fun _ => 0) x

theorem sum_uniformMap (nodes : List Node) (edges : List Edge) (hne : nodes ≠ []) :
    (nodes.map (fun n => uniformMap (mkAnalyzer nodes edges) n.id)).sum = 1 := by
  have heval : ∀ n ∈ nodes, uniformMap (mkAnalyzer nodes edges) n.id
      = 1 / (nodes.length : ℚ) := by
    intro n hn
    rw [uniformMap_eval]
    exact if_pos (show n.id ∈ (mkAnalyzer nodes edges).nodes.map Node.id from
      List.mem_map.mpr ⟨n, hn, rfl⟩)
  rw [List.map_congr_left heval, sum_map_const_q]
  have hlen : (nodes.length : ℚ) ≠ 0 :=
    Nat.cast_ne_zero.mpr (fun h => hne (List.length_eq_zero.mp h))
  field_simp

theorem sum_pageRankStep (nodes : List Node) (edges : List Edge)
    (hnd : (nodes.map Node.id).Nodup) (hwf : ValidRefs nodes edges) (hne : nodes ≠ [])
    (alpha : ℚ) (pr : String → ℚ) :
    (nodes.map (fun n => pageRankStep (mkAnalyzer nodes edges) alpha pr n.id)).sum
      = (1 - alpha) + alpha * (nodes.map (fun n => pr n.id)).sum := by
  set na := mkAnalyzer nodes edges with hna
  have hlen : (nodes.length : ℚ) ≠ 0 :=
    Nat.cast_ne_zero.mpr (fun h => hne (List.length_eq_zero.mp h))
  set S : ℚ := na.nodes.foldl (fun acc node =>
      if (na.adjL node.id).length = 0 then acc + pr node.id else acc) 0 with hS
  set inb : String → ℚ := fun v => ((na.revAdjL v).map
      (fun u => pr u / ((na.adjL u).length : ℚ))).sum with hinb
  have heval : ∀ n ∈ nodes, pageRankStep na alpha pr n.id
      = (1 - alpha) / (nodes.length : ℚ) + alpha * (inb n.id + S / (nodes.length : ℚ)) := by
    intro n hn
    rw [pageRankStep_eval]
    rw [if_pos (show n.id ∈ na.nodes.map Node.id from List.mem_map.mpr ⟨n, hn, rfl⟩)]
    rw [foldl_add_eq, zero_add]
    rfl
  rw [List.map_congr_left heval]
  rw [sum_map_add_q nodes (fun _ => (1 - alpha) / (nodes.length : ℚ))
    (fun n => alpha * (inb n.id + S / (nodes.length : ℚ))), sum_map_const_q,
    sum_map_mul_left_q nodes alpha (fun n => inb n.id + S / (nodes.length : ℚ)),
    sum_map_add_q nodes (fun n => inb n.id) (fun _ => S / (nodes.length : ℚ)),
    sum_map_const_q]
  have hA : (nodes.length : ℚ) * ((1 - alpha) / (nodes.length : ℚ)) = 1 - alpha := by
    field_simp
  have hSn : (nodes.length : ℚ) * (S / (nodes.length : ℚ)) = S := by
    field_simp
  rw [hA, hSn]
  have hinb_sum : (nodes.map (fun n => inb n.id)).sum
      = ((nodes.map Node.id).map (fun u =>
          if (na.adjL u).length = 0 then 0 else pr u)).sum := by
    have hmm : nodes.map (fun n => inb n.id) = (nodes.map Node.id).map inb := by
      rw [List.map_map]
      rfl
    rw [hmm, hinb]
    exact pagerank_inbound_swap nodes edges hnd hwf pr
  have hS_sum : S = ((nodes.map Node.id).map (fun u =>
      if (na.adjL u).length = 0 then pr u else 0)).sum := by
    rw [hS]
    show nodes.foldl _ 0 = _
    rw [foldl_add_if_eq nodes (fun node => (na.adjL node.id).length = 0)
      (fun node => pr node.id) 0, zero_add]
    rw [List.map_map]
    rfl
  rw [hinb_sum, hS_sum]
  have hsplit : (((nodes.map Node.id).map (fun u =>
        if (na.adjL u).length = 0 then 0 else pr u)).sum
      + ((nodes.map Node.id).map (fun u =>
        if (na.adjL u).length = 0 then pr u else 0)).sum)
      = ((nodes.map Node.id).map pr).sum := by
    rw [← sum_map_add_q]
    refine congrArg List.sum (List.map_congr_left (fun u _ => ?_))
    by_cases hz : (na.adjL u).length = 0 <;> simp [hz]
  have hpr : (nodes.map (fun n => pr n.id)).sum = ((nodes.map Node.id).map pr).sum := by
    rw [List.map_map]
    rfl
  rw [hpr, ← hsplit]

/-- C5: for every non-empty graph satisfying the spec's §3 data-model
invariants (duplicate-free node ids, edges referencing known ids), the
PageRank vector after the fixed 50 damped iterations sums to exactly 1 in
exact rational arithmetic. -/
theorem C5_pagerank_sum (nodes : List Node) (edges : List Edge)
    (hnd : (nodes.map Node.id).Nodup) (hwf : ValidRefs nodes edges) (hne : nodes ≠ []) :
    (nodes.map (fun n => calculatePageRank (mkAnalyzer nodes edges) n.id)).sum = 1 := by
  have key : ∀ k : Nat, (nodes.map (fun n =>
      ((pageRankStep (mkAnalyzer nodes edges) (85 / 100))^[k]
        (uniformMap (mkAnalyzer nodes edges))) n.id)).sum = 1 := by
    intro k
    induction k with
    | zero =>
      simpa using sum_uniformMap nodes edges hne
    | succ k ih =>
      have hit : (pageRankStep (mkAnalyzer nodes edges) (85 / 100))^[k + 1]
          (uniformMap (mkAnalyzer nodes edges))
          = pageRankStep (mkAnalyzer nodes edges) (85 / 100)
              ((pageRankStep (mkAnalyzer nodes edges) (85 / 100))^[k]
                (uniformMap (mkAnalyzer nodes edges))) :=
        Function.iterate_succ_apply' _ _ _
      rw [show (fun n : Node =>
          ((pageRankStep (mkAnalyzer nodes edges) (85 / 100))^[k + 1]
            (uniformMap (mkAnalyzer nodes edges))) n.id)
          = fun n : Node => (pageRankStep (mkAnalyzer nodes edges) (85 / 100)
              ((pageRankStep (mkAnalyzer nodes edges) (85 / 100))^[k]
                (uniformMap (mkAnalyzer nodes edges)))) n.id from by rw [hit]]
      rw [sum_pageRankStep nodes edges hnd hwf hne (85 / 100) _, ih]
      norm_num
  exact key 50

/-- C5 witness: the theorem applied to the 4-cycle. -/
theorem C5_witness :
    (([mkN "A", mkN "B", mkN "C", mkN "D"].map Node.id).Nodup ∧
      ValidRefs [mkN "A", mkN "B", mkN "C", mkN "D"]
        [mkE "A" "B", mkE "B" "C", mkE "C" "D", mkE "D" "A"] ∧
      [mkN "A", mkN "B", mkN "C", mkN "D"] ≠ []) ∧
    (([mkN "A", mkN "B", mkN "C", mkN "D"].map
        (fun n => calculatePageRank cycleGraph n.id)).sum = 1) :=
  ⟨⟨by with_unfolding_all decide, by with_unfolding_all decide, by simp⟩,
   C5_pagerank_sum [mkN "A", mkN "B", mkN "C", mkN "D"]
     [mkE "A" "B", mkE "B" "C", mkE "C" "D", mkE "D" "A"]
     (by with_unfolding_all decide) (by with_unfolding_all decide) (by simp)⟩

/-! ### Claim C6 -/

theorem sum_map_div_q {β : Type} (l : List β) (f : β → ℚ) (c : ℚ) :
    (l.map (fun x => f x / c)).sum = (l.map f).sum / c := by
  induction l with
  | nil => simp
  | cons a l ih =>
    simp only [List.map_cons, List.sum_cons, ih]
    rw [add_div]

theorem domiRankStep_eval (na : NetworkAnalyzer) (alpha beta theta : ℚ)
    (gamma : String → ℚ) (x : String) :
    domiRankStep na alpha beta theta gamma x
      = if x ∈ na.nodes.map Node.id then
          max 0 (gamma x
            + (alpha * (theta * ((((na.adjL x).length + (na.revAdjL x).length : Nat)) : ℚ)
                - ((na.adjL x).foldl (fun acc t => acc + gamma t) 0
                  + (na.revAdjL x).foldl (fun acc t => acc + gamma t) 0))
              - beta * gamma x))
        else 0 :=
  foldl_upd_eval (fun id =>
    max 0 (gamma id
      + (alpha * (theta * ((((na.adjL id).length + (na.revAdjL id).length : Nat)) : ℚ)
          - ((na.adjL id).foldl (fun acc t => acc + gamma t) 0
            + (na.revAdjL id).foldl (fun acc t => acc + gamma t) 0))
        - beta * gamma id))) na.nodes (fun _ => 0) x

theorem domiRankStep_nonneg (na : NetworkAnalyzer) (alpha beta theta : ℚ)
    (gamma : String → ℚ) (x : String) : 0 ≤ domiRankStep na alpha beta theta gamma x := by
  rw [domiRankStep_eval]
  split
  · exact le_max_left 0 _
  · exact le_refl 0

theorem uniformMap_nonneg (na : NetworkAnalyzer) (x : String) : 0 ≤ uniformMap na x := by
  rw [uniformMap_eval]
  split
  · positivity
  · exact le_refl 0

theorem domiGamma_nonneg (na : NetworkAnalyzer) (x : String) : 0 ≤ domiGamma na x := by
  unfold domiGamma
  rw [Function.iterate_succ_apply']
  exact domiRankStep_nonneg na _ _ _ _ x

theorem domiTotal_eq_sum (na : NetworkAnalyzer) (hnd : (na.nodes.map Node.id).Nodup) :
    domiTotal na = (na.nodes.map (fun n => domiGamma na n.id)).sum := by
  unfold domiTotal
  rw [foldl_add_eq, zero_add]
  rw [show na.ids = na.nodes.map Node.id from rfl, firstDedup_eq_self hnd]
  rw [List.map_map]
  rfl

theorem calculateDomiRank_eval (na : NetworkAnalyzer)
    (hnd : (na.nodes.map Node.id).Nodup) (x : String) :
    calculateDomiRank na x
      = if 0 < domiTotal na then
          (if x ∈ na.nodes.map Node.id then domiGamma na x / domiTotal na
            else domiGamma na x)
        else domiGamma na x := by
  unfold calculateDomiRank
  split
  · exact foldl_upd_self_eval (fun y => y / domiTotal na) na.nodes (domiGamma na) x hnd
  · rfl

/-- C6: for every graph satisfying the spec's §3 data-model invariants, the
DomiRank vector returned after the fixed 100 clamped iterations is
entrywise non-negative, and the sum of its entries over the nodes is 0 when
the pre-normalisation total mass is exactly 0 and 1 otherwise. -/
theorem C6_domirank (nodes : List Node) (edges : List Edge)
    (hnd : (nodes.map Node.id).Nodup) (hwf : ValidRefs nodes edges) :
    (∀ x, 0 ≤ calculateDomiRank (mkAnalyzer nodes edges) x) ∧
    (nodes.map (fun n => calculateDomiRank (mkAnalyzer nodes edges) n.id)).sum
      = (if domiTotal (mkAnalyzer nodes edges) = 0 then 0 else 1) := by
  set na := mkAnalyzer nodes edges with hna
  have hnd' : (na.nodes.map Node.id).Nodup := hnd
  have htot : domiTotal na = (na.nodes.map (fun n => domiGamma na n.id)).sum :=
    domiTotal_eq_sum na hnd'
  have htot_nonneg : 0 ≤ domiTotal na := by
    rw [htot]
    refine List.sum_nonneg ?_
    intro q hq
    obtain ⟨n, hn, rfl⟩ := List.mem_map.mp hq
    exact domiGamma_nonneg na n.id
  constructor
  · intro x
    rw [calculateDomiRank_eval na hnd']
    split
    · split
      · rename_i hpos hmem
        exact div_nonneg (domiGamma_nonneg na x) (le_of_lt hpos)
      · exact domiGamma_nonneg na x
    · exact domiGamma_nonneg na x
  · by_cases hz : domiTotal na = 0
    · rw [if_pos hz]
      have heval : ∀ n ∈ nodes, calculateDomiRank na n.id = domiGamma na n.id := by
        intro n hn
        rw [calculateDomiRank_eval na hnd', if_neg (by rw [hz]; exact lt_irrefl 0)]
      rw [List.map_congr_left heval]
      rw [show (nodes.map (fun n => domiGamma na n.id)).sum = domiTotal na from htot.symm]
      exact hz
    · rw [if_neg hz]
      have hpos : 0 < domiTotal na := lt_of_le_of_ne htot_nonneg (Ne.symm hz)
      have heval : ∀ n ∈ nodes, calculateDomiRank na n.id
          = domiGamma na n.id / domiTotal na := by
        intro n hn
        rw [calculateDomiRank_eval na hnd', if_pos hpos,
          if_pos (show n.id ∈ na.nodes.map Node.id from List.mem_map.mpr ⟨n, hn, rfl⟩)]
      rw [List.map_congr_left heval, sum_map_div_q]
      rw [show (nodes.map (fun n => domiGamma na n.id)).sum = domiTotal na from htot.symm]
      exact div_self hz

/-- C6 witness: the theorem applied to the 4-cycle. -/
theorem C6_witness :
    (([mkN "A", mkN "B", mkN "C", mkN "D"].map Node.id).Nodup ∧
      ValidRefs [mkN "A", mkN "B", mkN "C", mkN "D"]
        [mkE "A" "B", mkE "B" "C", mkE "C" "D", mkE "D" "A"]) ∧
    ((∀ x, 0 ≤ calculateDomiRank cycleGraph x) ∧
      ([mkN "A", mkN "B", mkN "C", mkN "D"].map
        (fun n => calculateDomiRank cycleGraph n.id)).sum
        = (if domiTotal cycleGraph = 0 then 0 else 1)) :=
  ⟨⟨by with_unfolding_all decide, by with_unfolding_all decide⟩,
   C6_domirank [mkN "A", mkN "B", mkN "C", mkN "D"]
     [mkE "A" "B", mkE "B" "C", mkE "C" "D", mkE "D" "A"]
     (by with_unfolding_all decide) (by with_unfolding_all decide)⟩

/-! ### Claim C9 -/

/-- C9: computing all metrics twice on the same analyzer state yields equal
metric maps, and the first call leaves the state unchanged.  The embedding
threads the receiver state through each call explicitly; the source methods
read the fields built by the constructor and assign none of them, which the
state-passing embedding records, so the round trip is an identity. -/
theorem C9_roundtrip (na : NetworkAnalyzer) :
    (calculateAllMetricsS na).2 = na ∧
    (calculateAllMetricsS ((calculateAllMetricsS na).2)).1 = (calculateAllMetricsS na).1 :=
  ⟨rfl, rfl⟩

/-! ### Claim C2: Brandes on at most two ids -/

theorem initD_eval (na : NetworkAnalyzer) (s x : String) :
    initD na s x
      = if x = s then some 0
        else if x ∈ na.nodes.map Node.id then some (-1) else none := by
  unfold initD
  by_cases hx : x = s
  · subst hx
    rw [upd_same, if_pos rfl]
  · rw [upd_ne hx, if_neg hx]
    exact foldl_upd_eval (fun _ => (some (-1) : Option Int)) na.nodes (fun _ => none) x

theorem pred0_eval (na : NetworkAnalyzer) (x : String) :
    (na.nodes.foldl (fun m n => upd m n.id ([] : List String)) (fun _ => [])) x = [] := by
  have h := foldl_upd_eval (fun _ => ([] : List String)) na.nodes (fun _ => []) x
  rw [h]
  split <;> rfl

theorem foldl_upd_outside {l : List String} (F : (String → ℚ) → String → ℚ)
    (m : String → ℚ) (y : String) (hy : y ∉ l) :
    (l.foldl (fun dl v => upd dl v (F dl v)) m) y = m y := by
  induction l generalizing m with
  | nil => rfl
  | cons a l ih =>
    rw [List.foldl_cons, ih _ (fun h => hy (by simp [h]))]
    exact upd_ne (fun h => hy (by simp [h]))

theorem backprop_eq (pred : String → List String) (sigma : String → ℚ) (s : String)
    (hpred : ∀ w v, v ∈ pred w → v = s) :
    ∀ (ws : List String) (delta cb : String → ℚ), (∀ y, y ≠ s → delta y = 0) →
      ∀ x, backprop pred sigma s ws delta cb x = cb x := by
  intro ws
  induction ws with
  | nil => intro delta cb hdelta x; rfl
  | cons w ws ih =>
    intro delta cb hdelta x
    show backprop pred sigma s ws _ _ x = cb x
    set delta' := (pred w).foldl
      (fun dl v => upd dl v (dl v + sigma v / sigma w * (1 + dl w))) delta with hd'
    have hdelta' : ∀ y, y ≠ s → delta' y = 0 := by
      intro y hy
      rw [hd', foldl_upd_outside _ _ _ (fun hmem => hy (hpred w y hmem))]
      exact hdelta y hy
    by_cases hw : w ≠ s
    · rw [if_pos hw]
      have hcb : ∀ z, upd cb w (cb w + delta' w) z = cb z := by
        intro z
        by_cases hz : z = w
        · subst hz
          rw [upd_same, hdelta' z hw, add_zero]
        · exact upd_ne hz
      rw [ih delta' _ hdelta' x, hcb x]
    · rw [if_neg hw]
      exact ih delta' cb hdelta' x

theorem BInv2_pred_eq_s {ids : List String} {s : String} {st : BState}
    (hinv : BInv2 ids s st) : ∀ w v, v ∈ st.pred w → v = s := by
  obtain ⟨h0, hdom, hval, hzero, hq, hpred⟩ := hinv
  intro w v hv
  obtain ⟨k, hdv, hk0, hdw⟩ := hpred w v hv
  have hk1 := hval w (k + 1) hdw
  have : k = 0 := by omega
  subst this
  exact hzero v hdv

theorem brandesVisit_inv {ids : List String} {s : String} (hlen : ids.length ≤ 2)
    {st : BState} {v : String} (w : String) {dv : Int}
    (hinv : BInv2 ids s st) (hv : st.d v = some dv) (hdv : 0 ≤ dv) :
    BInv2 ids s (brandesVisit st v w) ∧ (brandesVisit st v w).d v = some dv := by
  obtain ⟨h0, hdom, hval, hzero, hq, hpred⟩ := hinv
  have hvids : v ∈ ids := hdom v dv hv
  have hsids : s ∈ ids := hdom s 0 h0
  unfold brandesVisit
  by_cases hA : st.d w = some (-1)
  · -- discovery branch: w is fresh, so dv must be 0 on a graph with ≤ 2 ids
    have hws : w ≠ s := by
      intro h
      rw [h, h0] at hA
      exact absurd hA (by decide)
    have hwv : w ≠ v := by
      intro h
      rw [h, hv] at hA
      simp at hA
      omega
    have hwids : w ∈ ids := hdom w (-1) hA
    have hdv0 : dv = 0 := by
      rcases hval v dv hv with h | h | h
      · omega
      · exact h
      · exfalso
        have hvs : v ≠ s := by
          intro hvs
          rw [hvs, h0] at hv
          simp at hv
          omega
        have hnodup : ([s, v, w] : List String).Nodup := by
          refine List.nodup_cons.mpr ⟨?_, List.nodup_cons.mpr ⟨?_, List.nodup_singleton _⟩⟩
          · intro hmem
            rcases List.mem_cons.mp hmem with hh | hh
            · exact hvs hh.symm
            · rw [List.mem_singleton] at hh
              exact hws hh.symm
          · intro hmem
            rw [List.mem_singleton] at hmem
            exact hwv hmem.symm
        have hsub : ([s, v, w] : List String) ⊆ ids := by
          intro x hx
          simp at hx
          rcases hx with rfl | rfl | rfl <;> assumption
        have := length_le_of_nodup_subset hnodup hsub
        simp at this
        omega
    rw [if_pos hA]
    rw [hv]
    simp only [Option.getD_some]
    subst hdv0
    -- state after the discovery update
    set d1 := upd st.d w (some (0 + 1)) with hd1
    have hd1w : d1 w = some 1 := by rw [hd1, upd_same]; norm_num
    have hd1v : d1 v = some 0 := by rw [hd1, upd_ne hwv.symm]; exact hv
    have hd1s : d1 s = some 0 := by rw [hd1, upd_ne hws.symm]; exact h0
    have hd1other : ∀ x, x ≠ w → d1 x = st.d x := fun x hx => upd_ne hx
    -- the DAG test now reads the updated map and succeeds
    have hguard : d1 w = some ((d1 v).getD 0 + 1) := by
      rw [hd1w, hd1v]
      norm_num
    rw [if_pos (show (⟨d1, st.sigma, st.pred, st.queue ++ [w], st.stack⟩ : BState).d w
        = some (((⟨d1, st.sigma, st.pred, st.queue ++ [w], st.stack⟩ : BState).d v).getD 0 + 1)
      from hguard)]
    refine ⟨⟨hd1s, ?_, ?_, ?_, ?_, ?_⟩, hd1v⟩
    · intro x k hx
      have hx' : d1 x = some k := hx
      by_cases hxw : x = w
      · subst hxw; exact hwids
      · rw [hd1other x hxw] at hx'
        exact hdom x k hx'
    · intro x k hx
      have hx' : d1 x = some k := hx
      by_cases hxw : x = w
      · subst hxw
        rw [hd1w] at hx'
        simp at hx'
        omega
      · rw [hd1other x hxw] at hx'
        exact hval x k hx'
    · intro x hx
      have hx' : d1 x = some 0 := hx
      by_cases hxw : x = w
      · subst hxw
        rw [hd1w] at hx'
        exact absurd hx' (by decide)
      · rw [hd1other x hxw] at hx'
        exact hzero x hx'
    · intro x hx
      have hx' : x ∈ st.queue ++ [w] := hx
      simp only [List.mem_append, List.mem_singleton] at hx'
      rcases hx' with hx' | rfl
      · obtain ⟨k, hdx, hk⟩ := hq x hx'
        have hxw : x ≠ w := by
          intro h
          rw [h, hA] at hdx
          simp at hdx
          omega
        exact ⟨k, show d1 x = some k from by rw [hd1other x hxw]; exact hdx, hk⟩
      · exact ⟨1, hd1w, Or.inr rfl⟩
    · intro w2 v2 hv2a
      have hv2b : v2 ∈ upd st.pred w (st.pred w ++ [v]) w2 := hv2a
      by_cases hw2 : w2 = w
      · subst hw2
        rw [upd_same] at hv2b
        rcases List.mem_append.mp hv2b with hv2 | hv2
        · exfalso
          obtain ⟨k, hdv2, hk0, hdw2⟩ := hpred w2 v2 hv2
          rw [hA] at hdw2
          simp at hdw2
          omega
        · have hveq : v2 = v := by simpa using hv2
          subst hveq
          exact ⟨0, hd1v, le_refl 0, by simp [hd1w]⟩
      · rw [upd_ne hw2] at hv2b
        obtain ⟨k, hdv2, hk0, hdw2⟩ := hpred w2 v2 hv2b
        have hv2w : v2 ≠ w := by
          intro h
          rw [h, hA] at hdv2
          simp at hdv2
          omega
        exact ⟨k, show d1 v2 = some k from by rw [hd1other v2 hv2w]; exact hdv2,
          hk0, show d1 w2 = some (k + 1) from by rw [hd1other w2 hw2]; exact hdw2⟩
  · rw [if_neg hA]
    by_cases hB : st.d w = some ((st.d v).getD 0 + 1)
    · rw [if_pos hB]
      rw [hv] at hB
      simp only [Option.getD_some] at hB
      refine ⟨⟨h0, hdom, hval, hzero, hq, ?_⟩, hv⟩
      intro w2 v2 hv2a
      have hv2b : v2 ∈ upd st.pred w (st.pred w ++ [v]) w2 := hv2a
      by_cases hw2 : w2 = w
      · subst hw2
        rw [upd_same] at hv2b
        rcases List.mem_append.mp hv2b with hv2 | hv2
        · exact hpred w2 v2 hv2
        · have hveq : v2 = v := by simpa using hv2
          subst hveq
          exact ⟨dv, hv, hdv, hB⟩
      · rw [upd_ne hw2] at hv2b
        exact hpred w2 v2 hv2b
    · rw [if_neg hB]
      exact ⟨⟨h0, hdom, hval, hzero, hq, hpred⟩, hv⟩

theorem brandesFold_inv {ids : List String} {s : String} (hlen : ids.length ≤ 2)
    (v : String) (l : List String) :
    ∀ (st : BState) (dv : Int), BInv2 ids s st → st.d v = some dv → 0 ≤ dv →
      BInv2 ids s (l.foldl (fun acc w => brandesVisit acc v w) st) := by
  induction l with
  | nil => intro st dv hinv hv hdv; exact hinv
  | cons w l ih =>
    intro st dv hinv hv hdv
    obtain ⟨hinv', hv'⟩ := brandesVisit_inv hlen w hinv hv hdv
    exact ih _ dv hinv' hv' hdv

theorem brandesBFS_inv (na : NetworkAnalyzer) {s : String}
    (hlen : (na.nodes.map Node.id).length ≤ 2) :
    ∀ (fuel : Nat) (st : BState), BInv2 (na.nodes.map Node.id) s st →
      BInv2 (na.nodes.map Node.id) s (brandesBFS na fuel st) := by
  intro fuel
  induction fuel with
  | zero => intro st hinv; exact hinv
  | succ fuel ih =>
    intro st hinv
    show BInv2 _ s (brandesBFS na (fuel + 1) st)
    rw [brandesBFS]
    cases hqeq : st.queue with
    | nil => exact hinv
    | cons v rest =>
      obtain ⟨h0, hdom, hval, hzero, hq, hpred⟩ := hinv
      obtain ⟨dv, hdv, hk⟩ := hq v (by rw [hqeq]; simp)
      have hinv' : BInv2 (na.nodes.map Node.id) s
          { st with queue := rest, stack := st.stack ++ [v] } := by
        refine ⟨h0, hdom, hval, hzero, ?_, hpred⟩
        intro x hx
        exact hq x (by rw [hqeq]; simp; right; exact hx)
      exact ih _ (brandesFold_inv hlen v (na.adjL v) _ dv hinv' hdv (by omega))

theorem brandesSource_eq (na : NetworkAnalyzer) (cb : String → ℚ) (s : String)
    (hs : s ∈ na.nodes.map Node.id) (hlen : (na.nodes.map Node.id).length ≤ 2)
    (x : String) : brandesSource na cb s x = cb x := by
  have hinv0 : BInv2 (na.nodes.map Node.id) s
      { d := initD na s
        sigma := upd (na.nodes.foldl (fun m n => upd m n.id 0) (fun _ => 0)) s 1
        pred := na.nodes.foldl (fun m n => upd m n.id []) (fun _ => [])
        queue := [s]
        stack := [] } := by
    refine ⟨?_, ?_, ?_, ?_, ?_, ?_⟩
    · show initD na s s = some 0
      rw [initD_eval, if_pos rfl]
    · intro y k hy
      have hy' : initD na s y = some k := hy
      rw [initD_eval] at hy'
      by_cases hys : y = s
      · subst hys; exact hs
      · rw [if_neg hys] at hy'
        by_cases hyid : y ∈ na.nodes.map Node.id
        · exact hyid
        · rw [if_neg hyid] at hy'; simp at hy'
    · intro y k hy
      have hy' : initD na s y = some k := hy
      rw [initD_eval] at hy'
      by_cases hys : y = s
      · rw [if_pos hys] at hy'
        simp at hy'
        omega
      · rw [if_neg hys] at hy'
        by_cases hyid : y ∈ na.nodes.map Node.id
        · rw [if_pos hyid] at hy'
          simp at hy'
          omega
        · rw [if_neg hyid] at hy'; simp at hy'
    · intro y hy
      have hy' : initD na s y = some 0 := hy
      rw [initD_eval] at hy'
      by_cases hys : y = s
      · exact hys
      · rw [if_neg hys] at hy'
        by_cases hyid : y ∈ na.nodes.map Node.id
        · rw [if_pos hyid] at hy'
          simp at hy'
        · rw [if_neg hyid] at hy'; simp at hy'
    · intro y hy
      have hy' : y ∈ [s] := hy
      have hys : y = s := by simpa using hy'
      refine ⟨0, ?_, Or.inl rfl⟩
      show initD na s y = some 0
      rw [hys, initD_eval, if_pos rfl]
    · intro w v hv
      have hv' : v ∈ (na.nodes.foldl (fun m n => upd m n.id ([] : List String))
          (fun _ => [])) w := hv
      rw [pred0_eval] at hv'
      simp at hv'
  have hfinal := brandesBFS_inv na hlen (na.nodes.length + 1) _ hinv0
  unfold brandesSource
  exact backprop_eq _ _ s (BInv2_pred_eq_s hfinal) _ (fun _ => 0) cb (fun y hy => rfl) x

theorem calculateBetweenness_eq_zero_of_le_two (nodes : List Node) (edges : List Edge)
    (hV : nodes.length ≤ 2) (x : String) :
    calculateBetweenness (mkAnalyzer nodes edges) x = 0 := by
  set na := mkAnalyzer nodes edges with hna
  have hlen : (na.nodes.map Node.id).length ≤ 2 := by
    simpa using hV
  have hcb0 : ∀ y, (na.nodes.foldl (fun m n => upd m n.id (0 : ℚ)) (fun _ => 0)) y = 0 := by
    intro y
    have h := foldl_upd_eval (fun _ => (0 : ℚ)) na.nodes (fun _ => 0) y
    rw [h]
    split <;> rfl
  have hacc : ∀ (l : List Node), (∀ n ∈ l, n.id ∈ na.nodes.map Node.id) →
      ∀ (c : String → ℚ), (∀ y, c y = 0) →
        ∀ y, (l.foldl (fun c n => brandesSource na c n.id) c) y = 0 := by
    intro l
    induction l with
    | nil => intro _ c hc y; exact hc y
    | cons n l ih =>
      intro hmem c hc y
      rw [List.foldl_cons]
      refine ih (fun m hm => hmem m (by simp [hm])) _ ?_ y
      intro z
      rw [brandesSource_eq na c n.id (hmem n (by simp)) hlen z]
      exact hc z
  have hmain : ∀ y, (na.nodes.foldl (fun c n => brandesSource na c n.id)
      (na.nodes.foldl (fun m n => upd m n.id (0 : ℚ)) (fun _ => 0))) y = 0 :=
    hacc na.nodes (fun n hn => List.mem_map.mpr ⟨n, hn, rfl⟩) _ hcb0
  have hnorm : ∀ (l : List Node) (q : ℚ) (c : String → ℚ), (∀ y, c y = 0) →
      ∀ y, (l.foldl (fun c n => upd c n.id (c n.id / q)) c) y = 0 := by
    intro l q
    induction l with
    | nil => intro c hc y; exact hc y
    | cons n l ih =>
      intro c hc y
      rw [List.foldl_cons]
      refine ih _ ?_ y
      intro z
      by_cases hz : z = n.id
      · subst hz
        rw [upd_same, hc n.id]
        simp
      · rw [upd_ne hz]
        exact hc z
  unfold calculateBetweenness
  split
  · exact hnorm na.nodes _ _ hmain x
  · exact hmain x

theorem getStats_density (na : NetworkAnalyzer) :
    (getStats na).density
      = if ((na.nodes.length : ℚ) * ((na.nodes.length : ℚ) - 1)) = 0 then none
        else some ((na.edges.length : ℚ)
          / ((na.nodes.length : ℚ) * ((na.nodes.length : ℚ) - 1))) := rfl

theorem getStats_ngc (na : NetworkAnalyzer) :
    (getStats na).ngc = calculateNGC na.nodes na.edges := rfl

/-- C2 counterexample: the two-node graph A→B has `V ≤ 2` yet `getStats`
reports density `1/2`, not a short-circuited 0; and on the empty node set
the density is a division artifact (`0/0`, i.e. `NaN`), not a defined zero. -/
theorem C2_counterexample :
    pairGraph.nodes.length ≤ 2 ∧
    (getStats pairGraph).density = some (1 / 2) ∧
    (getStats pairGraph).density ≠ some 0 ∧
    (getStats emptyGraph).density = none := by
  refine ⟨by with_unfolding_all decide, by with_unfolding_all rfl,
    by with_unfolding_all decide, by with_unfolding_all rfl⟩

/-- C2 (amended): on a graph with at most two nodes every betweenness value
is 0 (the `(n-1)(n-2)` normalisation is skipped, and no shortest path has an
intermediate node).  Density, however, is NOT short-circuited: with `V = 2`
it is `E/2`, and with `V ≤ 1` its denominator is zero and the JS division
yields a non-finite artifact (`none`).  For the empty node set the
average shortest path and NGC are defined zeros, but density and average
clustering are `0/0` division artifacts, not zeros. -/
theorem C2_degenerate (nodes : List Node) (edges : List Edge) (hV : nodes.length ≤ 2) :
    (∀ x, calculateBetweenness (mkAnalyzer nodes edges) x = 0) ∧
    (nodes.length ≤ 1 → (getStats (mkAnalyzer nodes edges)).density = none) ∧
    (nodes.length = 2 → (getStats (mkAnalyzer nodes edges)).density
        = some ((edges.length : ℚ) / 2)) ∧
    (nodes = [] →
      (getStats (mkAnalyzer nodes edges)).avgShortestPath = 0 ∧
      (getStats (mkAnalyzer nodes edges)).ngc = 0 ∧
      (getStats (mkAnalyzer nodes edges)).avgClustering = none) := by
  refine ⟨fun x => calculateBetweenness_eq_zero_of_le_two nodes edges hV x, ?_, ?_, ?_⟩
  · intro h1
    rw [getStats_density]
    refine if_pos ?_
    have hl : (mkAnalyzer nodes edges).nodes.length = nodes.length := rfl
    rw [hl]
    rcases Nat.le_one_iff_eq_zero_or_eq_one.mp h1 with h | h <;> rw [h] <;> norm_num
  · intro h2
    rw [getStats_density]
    have hl : (mkAnalyzer nodes edges).nodes.length = nodes.length := rfl
    have hE : (mkAnalyzer nodes edges).edges.length = edges.length := rfl
    rw [hl, hE, h2]
    norm_num
  · intro h3
    subst h3
    exact ⟨rfl, rfl, rfl⟩

/-- C2 witness: the amended theorem applied to the two-node graph A→B. -/
theorem C2_witness :
    ([mkN "A", mkN "B"] : List Node).length ≤ 2 ∧
    ((∀ x, calculateBetweenness (mkAnalyzer [mkN "A", mkN "B"] [mkE "A" "B"]) x = 0) ∧
      (([mkN "A", mkN "B"] : List Node).length ≤ 1 →
        (getStats (mkAnalyzer [mkN "A", mkN "B"] [mkE "A" "B"])).density = none) ∧
      (([mkN "A", mkN "B"] : List Node).length = 2 →
        (getStats (mkAnalyzer [mkN "A", mkN "B"] [mkE "A" "B"])).density
          = some ((([mkE "A" "B"] : List Edge).length : ℚ) / 2)) ∧
      (([mkN "A", mkN "B"] : List Node) = [] →
        (getStats (mkAnalyzer [mkN "A", mkN "B"] [mkE "A" "B"])).avgShortestPath = 0 ∧
        (getStats (mkAnalyzer [mkN "A", mkN "B"] [mkE "A" "B"])).ngc = 0 ∧
        (getStats (mkAnalyzer [mkN "A", mkN "B"] [mkE "A" "B"])).avgClustering = none)) :=
  ⟨by decide, C2_degenerate [mkN "A", mkN "B"] [mkE "A" "B"] (by decide)⟩

/-! ### Claim C1: NGC flood-fill correctness -/

theorem reaches_refl (adjm : String → Option (List String)) (u : String) :
    Reaches adjm u u :=
  Relation.ReflTransGen.refl

theorem reaches_tail {adjm : String → Option (List String)} {u b c : String}
    (h : Reaches adjm u b) (hbc : c ∈ (adjm b).getD []) : Reaches adjm u c :=
  Relation.ReflTransGen.tail h hbc

theorem reaches_symm {adjm : String → Option (List String)} (hsym : SymAdj adjm)
    {u x : String} (h : Reaches adjm u x) : Reaches adjm x u := by
  induction h with
  | refl => exact Relation.ReflTransGen.refl
  | tail hab hbc ih => exact Relation.ReflTransGen.head (hsym _ _ hbc) ih

theorem reaches_congr {adjm : String → Option (List String)} (hsym : SymAdj adjm)
    {u x : String} (hux : Reaches adjm u x) (y : String) :
    Reaches adjm x y ↔ Reaches adjm u y :=
  ⟨fun h => Relation.ReflTransGen.trans hux h,
   fun h => Relation.ReflTransGen.trans (reaches_symm hsym hux) h⟩

theorem reaches_mono {adjm₁ adjm₂ : String → Option (List String)}
    (h : ∀ a b, b ∈ (adjm₂ a).getD [] → b ∈ (adjm₁ a).getD []) {u x : String}
    (hr : Reaches adjm₂ u x) : Reaches adjm₁ u x :=
  Relation.ReflTransGen.mono (fun a b hab => h a b hab) hr

theorem reaches_not_mem_closed {adjm : String → Option (List String)} (hsym : SymAdj adjm)
    {V0 : List String} (hcl : ClosedUnder adjm V0) {u : String} (hu : u ∉ V0) {x : String}
    (h : Reaches adjm u x) : x ∉ V0 := by
  induction h with
  | refl => exact hu
  | tail hab hbc ih =>
    rename_i b c
    intro hc
    exact ih (hcl c hc b (hsym b c hbc))

theorem reaches_mem_closed {adjm : String → Option (List String)} {vis : List String}
    (hcl : ClosedUnder adjm vis) {u : String} (hu : u ∈ vis) {x : String}
    (h : Reaches adjm u x) : x ∈ vis := by
  induction h with
  | refl => exact hu
  | tail hab hbc ih =>
    rename_i b c
    exact hcl b ih c hbc

theorem floodFold_eq :
    ∀ (ns : List String) (st : FState), ∃ ext : List String,
      ns.foldl floodVisit st
        = { visited := st.visited ++ ext, queue := st.queue ++ ext, size := st.size } ∧
      ext.Nodup ∧ (∀ w ∈ ext, w ∈ ns ∧ w ∉ st.visited) ∧
      (∀ w ∈ ns, w ∈ st.visited ++ ext) := by
  intro ns
  induction ns with
  | nil =>
    intro st
    exact ⟨[], by simp, List.nodup_nil, by simp, by simp⟩
  | cons w ns ih =>
    intro st
    rw [List.foldl_cons]
    by_cases hw : w ∈ st.visited
    · have hv : floodVisit st w = st := by
        unfold floodVisit
        rw [if_pos hw]
      rw [hv]
      obtain ⟨ext, h1, h2, h3, h4⟩ := ih st
      refine ⟨ext, h1, h2, fun w' hw' => ⟨by simp [(h3 w' hw').1], (h3 w' hw').2⟩, ?_⟩
      intro w' hw'
      rcases List.mem_cons.mp hw' with rfl | hw'
      · exact List.mem_append.mpr (Or.inl hw)
      · exact h4 w' hw'
    · have hv : floodVisit st w
          = { visited := st.visited ++ [w], queue := st.queue ++ [w], size := st.size } := by
        unfold floodVisit
        rw [if_neg hw]
      rw [hv]
      obtain ⟨ext, h1, h2, h3, h4⟩ := ih
        { visited := st.visited ++ [w], queue := st.queue ++ [w], size := st.size }
      have hwext : w ∉ ext := by
        intro hmem
        have := (h3 w hmem).2
        simp at this
      refine ⟨w :: ext, ?_, List.nodup_cons.mpr ⟨hwext, h2⟩, ?_, ?_⟩
      · rw [h1]
        simp
      · intro w' hw'
        rcases List.mem_cons.mp hw' with rfl | hw'
        · exact ⟨by simp, hw⟩
        · obtain ⟨hin, hnin⟩ := h3 w' hw'
          refine ⟨by simp [hin], fun hc => hnin (by simp [hc])⟩
      · intro w' hw'
        rcases List.mem_cons.mp hw' with rfl | hw'
        · simp
        · have h5 := h4 w' hw'
          rw [List.append_assoc, List.singleton_append] at h5
          exact h5

theorem floodLoop_ext (adjm : String → Option (List String)) :
    ∀ (fuel : Nat) (st : FState), ∃ ext,
      (floodLoop adjm fuel st).visited = st.visited ++ ext := by
  intro fuel
  induction fuel with
  | zero => intro st; exact ⟨[], by simp [floodLoop]⟩
  | succ fuel ih =>
    intro st
    cases hq : st.queue with
    | nil => exact ⟨[], by simp [floodLoop, hq]⟩
    | cons v rest =>
      obtain ⟨new, hfold, -, -, -⟩ :=
        floodFold_eq ((adjm v).getD []) { visited := st.visited, queue := rest, size := st.size + 1 }
      obtain ⟨ext2, hext2⟩ := ih (((adjm v).getD []).foldl floodVisit
        { visited := st.visited, queue := rest, size := st.size + 1 })
      refine ⟨new ++ ext2, ?_⟩
      show (floodLoop adjm (fuel + 1) st).visited = _
      rw [floodLoop, hq]
      rw [hext2, hfold]
      simp

theorem floodLoop_spec (adjm : String → Option (List String)) (U : List String)
    (u : String) (V0 : List String)
    (hUadj : ∀ a b, b ∈ (adjm a).getD [] → b ∈ U) :
    ∀ (fuel : Nat) (st : FState), FloodInv adjm U u V0 st →
      st.queue.length + U.length ≤ fuel + st.visited.length →
      (floodLoop adjm fuel st).queue = [] ∧
      FloodInv adjm U u V0 (floodLoop adjm fuel st) := by
  intro fuel
  induction fuel with
  | zero =>
    intro st hinv hfl
    have hinv' := hinv
    obtain ⟨hnd, hqnd, hqv, hvU, hV0m, hcnt, hsound, hqr, hcl⟩ := hinv'
    have hvle : st.visited.length ≤ U.length :=
      length_le_of_nodup_subset hnd (fun x hx => hvU x hx)
    have hq0 : st.queue.length = 0 := by omega
    exact ⟨List.length_eq_zero.mp hq0, hinv⟩
  | succ fuel ih =>
    intro st hinv hfl
    have hinv' := hinv
    obtain ⟨hnd, hqnd, hqv, hvU, hV0m, hcnt, hsound, hqr, hcl⟩ := hinv'
    cases hq : st.queue with
    | nil =>
      have hid : floodLoop adjm (fuel + 1) st = st := by
        simp [floodLoop, hq]
      rw [hid]
      exact ⟨hq, hinv⟩
    | cons v rest =>
      have hvq : v ∈ st.queue := by rw [hq]; simp
      have hvvis : v ∈ st.visited := hqv v hvq
      have hvreach : Reaches adjm u v := hqr v hvq
      obtain ⟨new, hfold, hnewnd, hnewmem, hnscov⟩ :=
        floodFold_eq ((adjm v).getD [])
          { visited := st.visited, queue := rest, size := st.size + 1 }
      have hnew_adj : ∀ w ∈ new, w ∈ (adjm v).getD [] := fun w hw => (hnewmem w hw).1
      have hnew_fresh : ∀ w ∈ new, w ∉ st.visited := fun w hw => (hnewmem w hw).2
      have hnew_U : ∀ w ∈ new, w ∈ U := fun w hw => hUadj v w (hnew_adj w hw)
      have hnew_reach : ∀ w ∈ new, Reaches adjm u w :=
        fun w hw => reaches_tail hvreach (hnew_adj w hw)
      have hrest_q : ∀ x ∈ rest, x ∈ st.queue := fun x hx => by rw [hq]; simp [hx]
      have hrestnd : rest.Nodup := by
        rw [hq] at hqnd
        exact (List.nodup_cons.mp hqnd).2
      have hinv₂ : FloodInv adjm U u V0
          { visited := st.visited ++ new, queue := rest ++ new, size := st.size + 1 } := by
        refine ⟨?_, ?_, ?_, ?_, ?_, ?_, ?_, ?_, ?_⟩
        · show (st.visited ++ new).Nodup
          refine List.Nodup.append hnd hnewnd ?_
          intro x hx1 hx2
          exact hnew_fresh x hx2 hx1
        · show (rest ++ new).Nodup
          refine List.Nodup.append hrestnd hnewnd ?_
          intro x hx1 hx2
          exact hnew_fresh x hx2 (hqv x (hrest_q x hx1))
        · intro x hx
          rcases List.mem_append.mp hx with hx | hx
          · exact List.mem_append.mpr (Or.inl (hqv x (hrest_q x hx)))
          · exact List.mem_append.mpr (Or.inr hx)
        · intro x hx
          rcases List.mem_append.mp hx with hx | hx
          · exact hvU x hx
          · exact hnew_U x hx
        · intro x hx
          exact List.mem_append.mpr (Or.inl (hV0m x hx))
        · show V0.length + (st.size + 1) + (rest ++ new).length
            = (st.visited ++ new).length
          rw [List.length_append, List.length_append]
          rw [hq] at hcnt
          simp only [List.length_cons] at hcnt
          omega
        · intro x hx
          rcases List.mem_append.mp hx with hx | hx
          · exact hsound x hx
          · exact Or.inr (hnew_reach x hx)
        · intro x hx
          rcases List.mem_append.mp hx with hx | hx
          · exact hqr x (hrest_q x hx)
          · exact hnew_reach x hx
        · intro x hx hxq w hw
          have hxnew : x ∉ new := fun hc => hxq (List.mem_append.mpr (Or.inr hc))
          have hxvis : x ∈ st.visited := by
            rcases List.mem_append.mp hx with h | h
            · exact h
            · exact absurd h hxnew
          by_cases hxv : x = v
          · subst hxv
            exact hnscov w hw
          · have hxq' : x ∉ st.queue := by
              rw [hq]
              intro hc
              rcases List.mem_cons.mp hc with h | h
              · exact hxv h
              · exact hxq (List.mem_append.mpr (Or.inl h))
            exact List.mem_append.mpr (Or.inl (hcl x hxvis hxq' w hw))
      have hm₂ : (rest ++ new).length + U.length ≤ fuel + (st.visited ++ new).length := by
        rw [List.length_append, List.length_append]
        rw [hq] at hfl
        simp only [List.length_cons] at hfl
        omega
      have hres := ih _ hinv₂ hm₂
      have hstep : floodLoop adjm (fuel + 1) st
          = floodLoop adjm fuel
              { visited := st.visited ++ new, queue := rest ++ new, size := st.size + 1 } := by
        have h1 : floodLoop adjm (fuel + 1) st
            = floodLoop adjm fuel (((adjm v).getD []).foldl floodVisit
                { visited := st.visited, queue := rest, size := st.size + 1 }) := by
          simp [floodLoop, hq]
        rw [h1, hfold]
      rw [hstep]
      exact hres

theorem flood_run (adjm : String → Option (List String)) (hsym : SymAdj adjm)
    (U : List String) (u : String) (V0 : List String)
    (hUadj : ∀ a b, b ∈ (adjm a).getD [] → b ∈ U)
    (hV0nd : V0.Nodup) (hV0cl : ClosedUnder adjm V0) (hV0U : ∀ x ∈ V0, x ∈ U)
    (huV0 : u ∉ V0) (huU : u ∈ U) (fuel : Nat) (hfuel : U.length ≤ fuel) :
    ∃ S, ReachEnum adjm u S ∧ u ∈ S ∧
      (floodLoop adjm fuel { visited := V0 ++ [u], queue := [u], size := 0 }).visited
        = V0 ++ S ∧
      (floodLoop adjm fuel { visited := V0 ++ [u], queue := [u], size := 0 }).size
        = S.length ∧
      (V0 ++ S).Nodup ∧ ClosedUnder adjm (V0 ++ S) ∧ (∀ x ∈ V0 ++ S, x ∈ U) := by
  have hinv0 : FloodInv adjm U u V0 { visited := V0 ++ [u], queue := [u], size := 0 } := by
    refine ⟨?_, ?_, ?_, ?_, ?_, ?_, ?_, ?_, ?_⟩
    · show (V0 ++ [u]).Nodup
      refine List.Nodup.append hV0nd (List.nodup_singleton u) ?_
      intro x hx1 hx2
      rw [List.mem_singleton] at hx2
      subst hx2
      exact huV0 hx1
    · exact List.nodup_singleton u
    · intro x hx
      rw [List.mem_singleton] at hx
      subst hx
      exact List.mem_append.mpr (Or.inr (List.mem_singleton.mpr rfl))
    · intro x hx
      rcases List.mem_append.mp hx with hx | hx
      · exact hV0U x hx
      · rw [List.mem_singleton] at hx
        subst hx
        exact huU
    · intro x hx
      exact List.mem_append.mpr (Or.inl hx)
    · show V0.length + 0 + 1 = (V0 ++ [u]).length
      simp
    · intro x hx
      rcases List.mem_append.mp hx with hx | hx
      · exact Or.inl hx
      · rw [List.mem_singleton] at hx
        rw [hx]
        exact Or.inr (reaches_refl adjm _)
    · intro x hx
      rw [List.mem_singleton] at hx
      rw [hx]
      exact reaches_refl adjm _
    · intro x hx hxq w hw
      have hxV0 : x ∈ V0 := by
        rcases List.mem_append.mp hx with h | h
        · exact h
        · rw [List.mem_singleton] at h
          exact absurd (List.mem_singleton.mpr h) hxq
      exact List.mem_append.mpr (Or.inl (hV0cl x hxV0 w hw))
  have hm0 : ([u] : List String).length + U.length ≤ fuel + (V0 ++ [u]).length := by
    simp
    omega
  obtain ⟨hqnil, hinvF⟩ := floodLoop_spec adjm U u V0 hUadj fuel _ hinv0 hm0
  obtain ⟨ext, hext⟩ := floodLoop_ext adjm fuel { visited := V0 ++ [u], queue := [u], size := 0 }
  obtain ⟨hnd, hqnd, hqv, hvU, hV0m, hcnt, hsound, hqr, hcl⟩ := hinvF
  rw [hext] at hnd hvU hcnt hsound hcl
  rw [hqnil] at hcnt hcl
  rw [List.append_assoc] at hnd hvU hcnt hsound hcl
  refine ⟨u :: ext, ⟨?_, ?_⟩, List.mem_cons_self u ext, ?_, ?_, ?_, ?_, ?_⟩
  · exact (List.nodup_append.mp hnd).2.1
  · intro y
    constructor
    · intro hy
      have hyv : y ∈ V0 ++ ([u] ++ ext) :=
        List.mem_append.mpr (Or.inr hy)
      rcases hsound y hyv with hyV0 | hr
      · exact absurd hy ((List.nodup_append.mp hnd).2.2 hyV0)
      · exact hr
    · intro hr
      have hcl' : ClosedUnder adjm (V0 ++ ([u] ++ ext)) := by
        intro x hx w hw
        exact hcl x hx (fun hc => (List.not_mem_nil x) hc) w hw
      have huv : u ∈ V0 ++ ([u] ++ ext) :=
        List.mem_append.mpr (Or.inr (List.mem_cons_self u ext))
      have hyv := reaches_mem_closed hcl' huv hr
      rcases List.mem_append.mp hyv with hyV0 | hy
      · exact absurd hyV0 (reaches_not_mem_closed hsym hV0cl huV0 hr)
      · exact hy
  · rw [hext, List.append_assoc, List.singleton_append]
  · have hlen : (V0 ++ ([u] ++ ext)).length = V0.length + (u :: ext).length := by
      simp
    rw [hlen] at hcnt
    simp only [List.length_nil] at hcnt
    omega
  · exact hnd
  · intro x hx w hw
    exact hcl x hx (fun hc => (List.not_mem_nil x) hc) w hw
  · exact hvU

theorem ngcScan_eq (nodes : List Node) (edges : List Edge) :
    ngcScan nodes edges
      = nodes.foldl (ngcStep (ngcAdj nodes edges) (floodFuel nodes edges)) ([], 0) :=
  rfl

theorem ngcAdj_sym {nodes : List Node} {edges : List Edge}
    (hvr : ValidRefs nodes edges) : SymAdj (ngcAdj nodes edges) := by
  intro a b hab
  rcases ngcAdjL_mem_iff.mp hab with ⟨ha, e, he, hp⟩
  refine ngcAdjL_mem_iff.mpr ⟨?_, e, he, ?_⟩
  · rcases hp with ⟨h1, h2⟩ | ⟨h1, h2⟩
    · exact h2 ▸ (hvr e he).2
    · exact h2 ▸ (hvr e he).1
  · rcases hp with ⟨h1, h2⟩ | ⟨h1, h2⟩
    · exact Or.inr ⟨h2, h1⟩
    · exact Or.inl ⟨h2, h1⟩

theorem ngcAdj_tgt {nodes : List Node} {edges : List Edge}
    (hvr : ValidRefs nodes edges) :
    ∀ a b, b ∈ (ngcAdj nodes edges a).getD [] → b ∈ nodes.map Node.id := by
  intro a b hab
  rcases ngcAdjL_mem_iff.mp hab with ⟨ha, e, he, hp⟩
  rcases hp with ⟨h1, h2⟩ | ⟨h1, h2⟩
  · exact h2 ▸ (hvr e he).2
  · exact h2 ▸ (hvr e he).1

theorem reachEnum_exists (adjm : String → Option (List String)) (hsym : SymAdj adjm)
    (U : List String) (hUadj : ∀ a b, b ∈ (adjm a).getD [] → b ∈ U)
    (u : String) (huU : u ∈ U) : ∃ S, ReachEnum adjm u S := by
  obtain ⟨S, hS, -⟩ := flood_run adjm hsym U u [] hUadj List.nodup_nil
    (fun x hx => absurd hx (List.not_mem_nil x))
    (fun x hx => absurd hx (List.not_mem_nil x))
    (List.not_mem_nil u) huU U.length le_rfl
  exact ⟨S, hS⟩

theorem ngcScan_fold_inv (adjm : String → Option (List String)) (hsym : SymAdj adjm)
    (U : List String) (hUadj : ∀ a b, b ∈ (adjm a).getD [] → b ∈ U)
    (fuel : Nat) (hfuel : U.length ≤ fuel) :
    ∀ (ns : List Node) (p : List String × Nat), (∀ n ∈ ns, n.id ∈ U) →
      ScanInv adjm U U p →
      ScanInv adjm U U (ns.foldl (ngcStep adjm fuel) p) ∧
      (∀ n ∈ ns, n.id ∈ (ns.foldl (ngcStep adjm fuel) p).1) ∧
      (∀ x ∈ p.1, x ∈ (ns.foldl (ngcStep adjm fuel) p).1) := by
  intro ns
  induction ns with
  | nil =>
    intro p hns hinv
    exact ⟨hinv, fun n hn => absurd hn (List.not_mem_nil n), fun x hx => hx⟩
  | cons n ns ih =>
    intro p hns hinv
    have hnU : n.id ∈ U := hns n (List.mem_cons_self n ns)
    have hnsU : ∀ m ∈ ns, m.id ∈ U := fun m hm => hns m (List.mem_cons_of_mem n hm)
    obtain ⟨hpnd, hpU, hpcl, hbound, hwit⟩ := hinv
    rw [List.foldl_cons]
    by_cases hmem : n.id ∈ p.1
    · have hstep : ngcStep adjm fuel p n = p := by
        unfold ngcStep
        rw [if_pos hmem]
      rw [hstep]
      obtain ⟨h1, h2, h3⟩ := ih p hnsU ⟨hpnd, hpU, hpcl, hbound, hwit⟩
      exact ⟨h1, fun m hm => by
        rcases List.mem_cons.mp hm with hm | hm
        · exact hm ▸ h3 n.id hmem
        · exact h2 m hm, h3⟩
    · obtain ⟨S, hRE, huS, hvis, hsize, hndS, hclS, hUS⟩ :=
        flood_run adjm hsym U n.id p.1 hUadj hpnd hpcl hpU hmem hnU fuel hfuel
      have hstep : ngcStep adjm fuel p n = (p.1 ++ S, max p.2 S.length) := by
        unfold ngcStep
        rw [if_neg hmem]
        show ((floodLoop adjm fuel _).visited, max p.2 (floodLoop adjm fuel _).size) = _
        rw [hvis, hsize]
      rw [hstep]
      have hinv' : ScanInv adjm U U (p.1 ++ S, max p.2 S.length) := by
        refine ⟨hndS, hUS, hclS, ?_, ?_⟩
        · intro x hx T hT
          rcases List.mem_append.mp hx with hx | hx
          · exact le_trans (hbound x hx T hT) (Nat.le_max_left _ _)
          · have hux : Reaches adjm n.id x := (hRE.2 x).mp hx
            have hTS : ∀ y, y ∈ T ↔ y ∈ S := by
              intro y
              rw [hT.2 y, hRE.2 y]
              exact reaches_congr hsym hux y
            have := length_eq_of_nodup_equiv hT.1 hRE.1 hTS
            rw [this]
            exact Nat.le_max_right _ _
        · rcases Nat.le_total p.2 S.length with hc | hc
          · refine Or.inr ⟨n.id, hnU, S, hRE, ?_⟩
            show max p.2 S.length = S.length
            exact Nat.max_eq_right hc
          · have hmax : max p.2 S.length = p.2 := Nat.max_eq_left hc
            rcases hwit with h0 | ⟨u0, hu0, S0, hS0, heq⟩
            · exact Or.inl (by rw [hmax, h0])
            · exact Or.inr ⟨u0, hu0, S0, hS0, by rw [hmax, heq]⟩
      obtain ⟨h1, h2, h3⟩ := ih (p.1 ++ S, max p.2 S.length) hnsU hinv'
      refine ⟨h1, ?_, ?_⟩
      · intro m hm
        rcases List.mem_cons.mp hm with hm | hm
        · exact hm ▸ h3 n.id (List.mem_append.mpr (Or.inr huS))
        · exact h2 m hm
      · intro x hx
        exact h3 x (List.mem_append.mpr (Or.inl hx))

theorem ngcScan_spec (nodes : List Node) (edges : List Edge)
    (hvr : ValidRefs nodes edges) :
    ScanInv (ngcAdj nodes edges) (nodes.map Node.id) (nodes.map Node.id)
      (ngcScan nodes edges) ∧
    ∀ n ∈ nodes, n.id ∈ (ngcScan nodes edges).1 := by
  have hfuel : (nodes.map Node.id).length ≤ floodFuel nodes edges := by
    rw [List.length_map]
    unfold floodFuel
    omega
  have hinit : ScanInv (ngcAdj nodes edges) (nodes.map Node.id) (nodes.map Node.id)
      (([] : List String), 0) := by
    refine ⟨List.nodup_nil, ?_, ?_, ?_, Or.inl rfl⟩
    · intro x hx
      exact absurd hx (List.not_mem_nil x)
    · intro x hx
      exact absurd hx (List.not_mem_nil x)
    · intro x hx
      exact absurd hx (List.not_mem_nil x)
  obtain ⟨h1, h2, -⟩ := ngcScan_fold_inv (ngcAdj nodes edges) (ngcAdj_sym hvr)
    (nodes.map Node.id) (ngcAdj_tgt hvr) (floodFuel nodes edges) hfuel nodes
    (([] : List String), 0) (fun n hn => List.mem_map_of_mem Node.id hn) hinit
  rw [ngcScan_eq]
  exact ⟨h1, h2⟩

theorem ngcScan_mono (nodes₁ : List Node) (edges₁ : List Edge)
    (nodes₂ : List Node) (edges₂ : List Edge)
    (hvr₁ : ValidRefs nodes₁ edges₁) (hvr₂ : ValidRefs nodes₂ edges₂)
    (hn : ∀ s ∈ nodes₂.map Node.id, s ∈ nodes₁.map Node.id)
    (he : ∀ e ∈ edges₂, e ∈ edges₁) :
    (ngcScan nodes₂ edges₂).2 ≤ (ngcScan nodes₁ edges₁).2 := by
  have hadj : ∀ a b, b ∈ (ngcAdj nodes₂ edges₂ a).getD []
      → b ∈ (ngcAdj nodes₁ edges₁ a).getD [] := by
    intro a b hab
    rcases ngcAdjL_mem_iff.mp hab with ⟨ha, e, hee, hp⟩
    exact ngcAdjL_mem_iff.mpr ⟨hn a ha, e, he e hee, hp⟩
  obtain ⟨⟨-, -, -, hbound₂, hwit₂⟩, -⟩ := ngcScan_spec nodes₂ edges₂ hvr₂
  obtain ⟨⟨-, -, -, hbound₁, -⟩, hcomp₁⟩ := ngcScan_spec nodes₁ edges₁ hvr₁
  rcases hwit₂ with h0 | ⟨u, huU, S₂, hS₂, heq⟩
  · rw [h0]
    exact Nat.zero_le _
  · rw [heq]
    have huU₁ : u ∈ nodes₁.map Node.id := hn u huU
    obtain ⟨S₁, hS₁⟩ := reachEnum_exists (ngcAdj nodes₁ edges₁) (ngcAdj_sym hvr₁)
      (nodes₁.map Node.id) (ngcAdj_tgt hvr₁) u huU₁
    have hsub : S₂ ⊆ S₁ := by
      intro x hx
      exact (hS₁.2 x).mpr (reaches_mono hadj ((hS₂.2 x).mp hx))
    have hle : S₂.length ≤ S₁.length := length_le_of_nodup_subset hS₂.1 hsub
    rcases List.mem_map.mp huU₁ with ⟨m, hm, hmid⟩
    have humem : u ∈ (ngcScan nodes₁ edges₁).1 := hmid ▸ hcomp₁ m hm
    exact le_trans hle (hbound₁ u humem S₁ hS₁)

theorem calculateNGC_mul (nodes : List Node) (edges : List Edge) :
    calculateNGC nodes edges * (nodes.length : ℚ) = ((ngcScan nodes edges).2 : ℚ) := by
  unfold calculateNGC
  by_cases h : nodes.length = 0
  · rw [if_pos h]
    have hnil : nodes = [] := List.length_eq_zero.mp h
    subst hnil
    rw [ngcScan_eq]
    simp
  · rw [if_neg h]
    have hne : (nodes.length : ℚ) ≠ 0 := Nat.cast_ne_zero.mpr h
    field_simp

theorem toRemove_mono (V : Nat) {i j : Nat} (hij : i ≤ j) :
    Int.toNat ⌊(i : ℚ) / 20 * (V : ℚ)⌋ ≤ Int.toNat ⌊(j : ℚ) / 20 * (V : ℚ)⌋ := by
  refine Int.toNat_le_toNat (Int.floor_mono ?_)
  have h1 : ((i : Nat) : ℚ) ≤ ((j : Nat) : ℚ) := Nat.cast_le.mpr hij
  have h2 : (0 : ℚ) ≤ (V : ℚ) := Nat.cast_nonneg V
  have h3 : (i : ℚ) / 20 ≤ (j : ℚ) / 20 := by linarith
  exact mul_le_mul_of_nonneg_right h3 h2

theorem remaining_subset (na : NetworkAnalyzer) (order : List String) {i j : Nat}
    (hij : i ≤ j) :
    (∀ s ∈ (remainingNodesAt na order j).map Node.id,
      s ∈ (remainingNodesAt na order i).map Node.id) ∧
    (∀ e ∈ remainingEdgesAt na order j, e ∈ remainingEdgesAt na order i) := by
  have ht := toRemove_mono na.nodes.length hij
  have hrem : ∀ x ∈ order.drop (Int.toNat ⌊(j : ℚ) / 20 * (na.nodes.length : ℚ)⌋),
      x ∈ order.drop (Int.toNat ⌊(i : ℚ) / 20 * (na.nodes.length : ℚ)⌋) := by
    intro x hx
    have hd : order.drop (Int.toNat ⌊(j : ℚ) / 20 * (na.nodes.length : ℚ)⌋)
        = (order.drop (Int.toNat ⌊(i : ℚ) / 20 * (na.nodes.length : ℚ)⌋)).drop
            (Int.toNat ⌊(j : ℚ) / 20 * (na.nodes.length : ℚ)⌋
              - Int.toNat ⌊(i : ℚ) / 20 * (na.nodes.length : ℚ)⌋) := by
      rw [List.drop_drop]
      congr 1
      omega
    rw [hd] at hx
    exact List.drop_subset _ _ hx
  constructor
  · intro s hs
    rcases List.mem_map.mp hs with ⟨n, hn, hnid⟩
    simp only [remainingNodesAt, List.mem_filter, decide_eq_true_eq] at hn
    refine List.mem_map.mpr ⟨n, ?_, hnid⟩
    simp only [remainingNodesAt, List.mem_filter, decide_eq_true_eq]
    exact ⟨hn.1, hrem n.id hn.2⟩
  · intro e he
    simp only [remainingEdgesAt, List.mem_filter, decide_eq_true_eq] at he ⊢
    exact ⟨he.1, hrem e.source he.2.1, hrem e.target he.2.2⟩

theorem remaining_validRefs (na : NetworkAnalyzer) (order : List String)
    (hvr : ValidRefs na.nodes na.edges) (i : Nat) :
    ValidRefs (remainingNodesAt na order i) (remainingEdgesAt na order i) := by
  intro e he
  simp only [remainingEdgesAt, List.mem_filter, decide_eq_true_eq] at he
  obtain ⟨hee, hs, ht⟩ := he
  constructor
  · rcases List.mem_map.mp (hvr e hee).1 with ⟨n, hn, hnid⟩
    refine List.mem_map.mpr ⟨n, ?_, hnid⟩
    simp only [remainingNodesAt, List.mem_filter, decide_eq_true_eq]
    exact ⟨hn, hnid ▸ hs⟩
  · rcases List.mem_map.mp (hvr e hee).2 with ⟨n, hn, hnid⟩
    refine List.mem_map.mpr ⟨n, ?_, hnid⟩
    simp only [remainingNodesAt, List.mem_filter, decide_eq_true_eq]
    exact ⟨hn, hnid ▸ ht⟩

theorem simulateRobustness_ngc (na : NetworkAnalyzer) (strategy : Strategy)
    (shuffled : List String) (i : Nat) (hi : i ≤ 20) (d : RobustnessPoint) :
    ((simulateRobustness na strategy shuffled).getD i d).ngc
      = calculateNGC (remainingNodesAt na (sortedNodeIds na strategy shuffled) i)
          (remainingEdgesAt na (sortedNodeIds na strategy shuffled) i) := by
  have hi' : i < 21 := by omega
  simp [simulateRobustness, List.getD_eq_getElem?_getD, List.getElem?_map,
    List.getElem?_range, hi']

/-- C1 counterexample: on the 3-node graph A→B (C isolated) under the
deterministic `degree` strategy, the sweep's point 13 removes one node
(the highest-degree node A), leaving two singleton components and
NGC = 1/2, while point 14 removes two nodes, leaving the single node C
and NGC = 1; the ngc sequence therefore strictly increases between
consecutive points and is not monotonically non-increasing. -/
theorem C1_counterexample :
    ¬ (((simulateRobustness triGraph Strategy.degree []).getD 14
          { removalRatio := 0, ngc := 0, strategy := Strategy.degree }).ngc
        ≤ ((simulateRobustness triGraph Strategy.degree []).getD 13
          { removalRatio := 0, ngc := 0, strategy := Strategy.degree }).ngc) := by
  with_unfolding_all decide

/-- C1 (corrected): along the `simulateRobustness` sweep the *unnormalised*
giant-component size (the reported ngc times the surviving node count) is
monotonically non-increasing in the removal step, for every strategy and
every fixed removal order, on graphs satisfying the spec §3 data model
(edge endpoints drawn from the node list).  The normalised ngc itself is
not monotone (see the counterexample): its denominator shrinks with each
step. -/
theorem C1_monotone (na : NetworkAnalyzer) (strategy : Strategy) (shuffled : List String)
    (hvr : ValidRefs na.nodes na.edges) (i j : Nat) (hij : i ≤ j) (hj : j ≤ 20) :
    ((simulateRobustness na strategy shuffled).getD j
        { removalRatio := 0, ngc := 0, strategy := strategy }).ngc
      * ((remainingNodesAt na (sortedNodeIds na strategy shuffled) j).length : ℚ)
    ≤ ((simulateRobustness na strategy shuffled).getD i
        { removalRatio := 0, ngc := 0, strategy := strategy }).ngc
      * ((remainingNodesAt na (sortedNodeIds na strategy shuffled) i).length : ℚ) := by
  have hi : i ≤ 20 := le_trans hij hj
  rw [simulateRobustness_ngc na strategy shuffled j hj,
    simulateRobustness_ngc na strategy shuffled i hi,
    calculateNGC_mul, calculateNGC_mul]
  have hsub := remaining_subset na (sortedNodeIds na strategy shuffled) hij
  have h1 := remaining_validRefs na (sortedNodeIds na strategy shuffled) hvr i
  have h2 := remaining_validRefs na (sortedNodeIds na strategy shuffled) hvr j
  exact_mod_cast ngcScan_mono _ _ _ _ h1 h2 hsub.1 hsub.2

/-- C1 witness: the monotonicity theorem applied to the concrete 4-cycle
under the `degree` strategy at steps 5 ≤ 7. -/
theorem C1_witness :
    ValidRefs cycleGraph.nodes cycleGraph.edges ∧
    ((simulateRobustness cycleGraph Strategy.degree []).getD 7
        { removalRatio := 0, ngc := 0, strategy := Strategy.degree }).ngc
      * ((remainingNodesAt cycleGraph
            (sortedNodeIds cycleGraph Strategy.degree []) 7).length : ℚ)
    ≤ ((simulateRobustness cycleGraph Strategy.degree []).getD 5
        { removalRatio := 0, ngc := 0, strategy := Strategy.degree }).ngc
      * ((remainingNodesAt cycleGraph
            (sortedNodeIds cycleGraph Strategy.degree []) 5).length : ℚ) :=
  ⟨by decide, C1_monotone cycleGraph Strategy.degree [] (by decide) 5 7
    (by decide) (by decide)⟩

theorem contains_iff_mem {l : List String} {x : String} : l.contains x = true ↔ x ∈ l := by
  induction l with
  | nil => simp
  | cons a l ih =>
    rw [List.contains_cons]
    simp only [Bool.or_eq_true, beq_iff_eq, ih, List.mem_cons]

theorem ball_succ (na : NetworkAnalyzer) (s : String) (n : Nat) :
    ball na s (n + 1)
      = ((ball na s n).flatMap
            (fun v => (na.adjL v).filter (fun w => na.ids.contains w))).foldl
          addSet (ball na s n) :=
  rfl

theorem mem_ball_succ {na : NetworkAnalyzer} {s : String} {n : Nat} {x : String} :
    x ∈ ball na s (n + 1)
      ↔ x ∈ ball na s n ∨ ∃ v ∈ ball na s n, x ∈ na.adjL v ∧ x ∈ na.ids := by
  rw [ball_succ, mem_foldl_addSet]
  constructor
  · rintro (h | h)
    · exact Or.inl h
    · rcases List.mem_flatMap.mp h with ⟨v, hv, hx⟩
      rcases List.mem_filter.mp hx with ⟨hx1, hx2⟩
      exact Or.inr ⟨v, hv, hx1, contains_iff_mem.mp hx2⟩
  · rintro (h | ⟨v, hv, hx1, hx2⟩)
    · exact Or.inl h
    · exact Or.inr (List.mem_flatMap.mpr
        ⟨v, hv, List.mem_filter.mpr ⟨hx1, contains_iff_mem.mpr hx2⟩⟩)

theorem ball_subset_succ {na : NetworkAnalyzer} {s : String} {n : Nat} {x : String}
    (h : x ∈ ball na s n) : x ∈ ball na s (n + 1) :=
  mem_ball_succ.mpr (Or.inl h)

theorem ball_mono {na : NetworkAnalyzer} {s : String} {m n : Nat} (hmn : m ≤ n)
    {x : String} (h : x ∈ ball na s m) : x ∈ ball na s n := by
  induction hmn with
  | refl => exact h
  | step hmn ih => exact ball_subset_succ ih

theorem ball_nodup (na : NetworkAnalyzer) (s : String) (n : Nat) :
    (ball na s n).Nodup := by
  induction n with
  | zero => exact List.nodup_singleton s
  | succ n ih =>
    rw [ball_succ]
    exact nodup_foldl_addSet ih

theorem ball_subset_ids {na : NetworkAnalyzer} {s : String} (hs : s ∈ na.ids) (n : Nat) :
    ∀ x ∈ ball na s n, x ∈ na.ids := by
  induction n with
  | zero =>
    intro x hx
    rw [List.mem_singleton.mp hx]
    exact hs
  | succ n ih =>
    intro x hx
    rcases mem_ball_succ.mp hx with h | ⟨v, hv, h1, h2⟩
    · exact ih x h
    · exact h2

theorem foldl_addSet_append {α : Type} [DecidableEq α] :
    ∀ (l b : List α), ∃ ext, l.foldl addSet b = b ++ ext := by
  intro l
  induction l with
  | nil => exact fun b => ⟨[], by simp⟩
  | cons a l ih =>
    intro b
    rw [List.foldl_cons]
    by_cases h : a ∈ b
    · have ha : addSet b a = b := by
        unfold addSet
        rw [if_pos h]
      rw [ha]
      exact ih b
    · have ha : addSet b a = b ++ [a] := by
        unfold addSet
        rw [if_neg h]
      rw [ha]
      obtain ⟨ext, hext⟩ := ih (b ++ [a])
      exact ⟨a :: ext, by rw [hext, List.append_assoc, List.singleton_append]⟩

theorem ball_stab (na : NetworkAnalyzer) (s : String) (m : Nat)
    (h : ball na s m = ball na s (m + 1)) :
    ∀ j, ball na s (m + j) = ball na s m := by
  intro j
  induction j with
  | zero => rfl
  | succ j ih =>
    have h1 : ball na s (m + (j + 1)) = ball na s ((m + j) + 1) := by
      rw [Nat.add_succ]
    rw [h1, ball_succ, ih, ← ball_succ, ← h]

theorem ball_length_lb (na : NetworkAnalyzer) (s x : String) (k : Nat)
    (hx : DistIs na s x k) : k + 1 ≤ (ball na s k).length := by
  have key : ∀ m, m ≤ k → m + 1 ≤ (ball na s m).length := by
    intro m
    induction m with
    | zero =>
      intro h
      simp [ball]
    | succ m ih =>
      intro hm
      have h1 := ih (Nat.le_of_succ_le hm)
      have hne : ball na s m ≠ ball na s (m + 1) := by
        intro he
        have hst := ball_stab na s m he (k - m)
        have hk : m + (k - m) = k := Nat.add_sub_cancel' (Nat.le_of_succ_le hm)
        rw [hk] at hst
        exact hx.2 m (Nat.lt_of_succ_le hm) (hst ▸ hx.1)
      obtain ⟨ext, hext⟩ := foldl_addSet_append
        ((ball na s m).flatMap (fun v => (na.adjL v).filter (fun w => na.ids.contains w)))
        (ball na s m)
      have hb : ball na s (m + 1) = ball na s m ++ ext := (ball_succ na s m).trans hext
      cases ext with
      | nil =>
        rw [List.append_nil] at hb
        exact absurd hb.symm hne
      | cons e ext =>
        rw [hb, List.length_append]
        simp only [List.length_cons]
        omega
  exact key k le_rfl

theorem distIs_lt {na : NetworkAnalyzer} {s x : String} {k : Nat} (hs : s ∈ na.ids)
    (hx : DistIs na s x k) : k < na.nodes.length := by
  have h1 := ball_length_lb na s x k hx
  have h2 : (ball na s k).length ≤ na.ids.length :=
    length_le_of_nodup_subset (ball_nodup na s k) (fun y hy => ball_subset_ids hs k y hy)
  have h3 : na.ids.length = na.nodes.length := List.length_map _ _
  omega

theorem find?_append_of_some {α : Type} (p : α → Bool) :
    ∀ (l₁ l₂ : List α) (a : α), l₁.find? p = some a → (l₁ ++ l₂).find? p = some a := by
  intro l₁
  induction l₁ with
  | nil =>
    intro l₂ a h
    exact absurd h (by simp)
  | cons b l ih =>
    intro l₂ a h
    rw [List.cons_append]
    by_cases hb : p b
    · rw [List.find?_cons_of_pos _ hb] at h ⊢
      exact h
    · rw [List.find?_cons_of_neg _ hb] at h ⊢
      exact ih l₂ a h

theorem find?_append_of_none {α : Type} (p : α → Bool) :
    ∀ (l₁ l₂ : List α), l₁.find? p = none → (l₁ ++ l₂).find? p = l₂.find? p := by
  intro l₁
  induction l₁ with
  | nil =>
    intro l₂ h
    rfl
  | cons b l ih =>
    intro l₂ h
    by_cases hb : p b
    · rw [List.find?_cons_of_pos _ hb] at h
      exact absurd h (by simp)
    · rw [List.find?_cons_of_neg _ hb] at h
      rw [List.cons_append, List.find?_cons_of_neg _ hb]
      exact ih l₂ h

theorem find_range_least (P : Nat → Bool) (k : Nat) (hP : P k = true)
    (hmin : ∀ m, m < k → P m = false) :
    ∀ n, k < n → (List.range n).find? P = some k := by
  intro n
  induction n with
  | zero => omega
  | succ n ih =>
    intro hk
    rw [List.range_succ]
    by_cases h : k < n
    · exact find?_append_of_some P _ _ k (ih h)
    · have hkn : k = n := by omega
      have hnone : (List.range n).find? P = none := by
        rw [List.find?_eq_none]
        intro m hm
        rw [List.mem_range] at hm
        rw [hmin m (hkn ▸ hm)]
        exact Bool.false_ne_true
      rw [find?_append_of_none P _ _ hnone, hkn]
      exact List.find?_cons_of_pos _ (hkn ▸ hP)

theorem filter_length_split {α : Type} (p : α → Bool) :
    ∀ l : List α,
      (l.filter p).length + (l.filter (fun a => !(p a))).length = l.length := by
  intro l
  induction l with
  | nil => rfl
  | cons a l ih =>
    cases hpa : p a <;> simp [List.filter_cons, hpa] <;> omega

theorem natCast_ne_negOne (n : Nat) : ((n : Nat) : Int) ≠ -1 := by
  omega

theorem disc_ne_negOne {st : DState} {x : String} (h : Disc st x) :
    st.d x ≠ some (-1) := by
  obtain ⟨n, hn⟩ := h
  rw [hn]
  intro hc
  exact natCast_ne_negOne n (Option.some.inj hc)

theorem bfsFold_eq (v : String) (lv : Int) (hlv : 0 ≤ lv) :
    ∀ (ns : List String) (st : DState), st.d v = some lv →
      ∃ new : List String,
        (ns.foldl (fun t w => bfsDistVisit t v w) st).d
            = (fun x => if x ∈ new then some (lv + 1) else st.d x) ∧
        (ns.foldl (fun t w => bfsDistVisit t v w) st).queue = st.queue ++ new ∧
        (ns.foldl (fun t w => bfsDistVisit t v w) st).count = st.count + new.length ∧
        (ns.foldl (fun t w => bfsDistVisit t v w) st).totalDist
            = st.totalDist + (new.length : ℚ) * ((lv + 1 : Int) : ℚ) ∧
        new.Nodup ∧
        (∀ w ∈ new, w ∈ ns ∧ st.d w = some (-1)) ∧
        (∀ w ∈ ns, st.d w = some (-1) → w ∈ new) := by
  intro ns
  induction ns with
  | nil =>
    intro st hv
    refine ⟨[], ?_, by simp, by simp, by simp, List.nodup_nil, by simp, by simp⟩
    funext x
    simp
  | cons w ns ih =>
    intro st hv
    rw [List.foldl_cons]
    by_cases hw : st.d w = some (-1)
    · have hvw : v ≠ w := by
        intro hc
        rw [hc, hw] at hv
        have := Option.some.inj hv.symm
        omega
      have hvisit : bfsDistVisit st v w
          = { d := upd st.d w (some (lv + 1))
              queue := st.queue ++ [w]
              totalDist := st.totalDist + ((lv + 1 : Int) : ℚ)
              count := st.count + 1 } := by
        unfold bfsDistVisit
        rw [if_pos hw, hv]
        rfl
      rw [hvisit]
      have hv' : (upd st.d w (some (lv + 1))) v = some lv := by
        rw [upd_ne hvw]
        exact hv
      obtain ⟨new, hd, hq, hc, ht, hnd, hmem, hcov⟩ := ih
        { d := upd st.d w (some (lv + 1))
          queue := st.queue ++ [w]
          totalDist := st.totalDist + ((lv + 1 : Int) : ℚ)
          count := st.count + 1 } hv'
      have hwnew : w ∉ new := by
        intro hc2
        have h2 : upd st.d w (some (lv + 1)) w = some (-1) := (hmem w hc2).2
        rw [upd_same] at h2
        have h3 := Option.some.inj h2
        omega
      refine ⟨w :: new, ?_, ?_, ?_, ?_, List.nodup_cons.mpr ⟨hwnew, hnd⟩, ?_, ?_⟩
      · rw [hd]
        funext x
        by_cases hx : x = w
        · subst hx
          simp [upd_same, hwnew]
        · by_cases hx2 : x ∈ new
          · simp [hx2, hx]
          · have : x ∈ w :: new ↔ False := by simp [hx, hx2]
            simp [hx2, hx, upd_ne hx]
      · rw [hq]
        show st.queue ++ [w] ++ new = st.queue ++ w :: new
        rw [List.append_assoc, List.singleton_append]
      · rw [hc]
        show st.count + 1 + new.length = st.count + (w :: new).length
        simp only [List.length_cons]
        omega
      · rw [ht]
        show st.totalDist + ((lv + 1 : Int) : ℚ) + (new.length : ℚ) * ((lv + 1 : Int) : ℚ)
            = st.totalDist + ((w :: new).length : ℚ) * ((lv + 1 : Int) : ℚ)
        simp only [List.length_cons]
        push_cast
        ring
      · intro w' hw'
        rcases List.mem_cons.mp hw' with rfl | hw'
        · exact ⟨List.mem_cons_self w' ns, hw⟩
        · obtain ⟨h1, h2⟩ := hmem w' hw'
          have h2' : upd st.d w (some (lv + 1)) w' = some (-1) := h2
          have hw'w : w' ≠ w := by
            intro hc2
            rw [hc2, upd_same] at h2'
            have := Option.some.inj h2'
            omega
          rw [upd_ne hw'w] at h2'
          exact ⟨List.mem_cons_of_mem w h1, h2'⟩
      · intro w' hw' hdw'
        rcases List.mem_cons.mp hw' with rfl | hw'
        · exact List.mem_cons_self w' new
        · by_cases hw'w : w' = w
          · subst hw'w
            exact List.mem_cons_self w' new
          · refine List.mem_cons_of_mem w (hcov w' hw' ?_)
            show upd st.d w (some (lv + 1)) w' = some (-1)
            rw [upd_ne hw'w]
            exact hdw'
    · have hvisit : bfsDistVisit st v w = st := by
        unfold bfsDistVisit
        rw [if_neg hw]
      rw [hvisit]
      obtain ⟨new, hd, hq, hc, ht, hnd, hmem, hcov⟩ := ih st hv
      refine ⟨new, hd, hq, hc, ht, hnd, ?_, ?_⟩
      · intro w' hw'
        obtain ⟨h1, h2⟩ := hmem w' hw'
        exact ⟨List.mem_cons_of_mem w h1, h2⟩
      · intro w' hw' hdw'
        rcases List.mem_cons.mp hw' with rfl | hw'
        · exact absurd hdw' hw
        · exact hcov w' hw' hdw'

theorem dinv_init (na : NetworkAnalyzer) (s : String) (hs : s ∈ na.ids) :
    DInv na s 0 [s] [] [s]
      { d := initD na s, queue := [s], totalDist := 0, count := 0 } := by
  have hds : initD na s s = some 0 := by
    rw [initD_eval]
    simp
  have hdisc : ∀ x, Disc { d := initD na s, queue := [s], totalDist := 0, count := 0 } x
      → x = s := by
    intro x ⟨n, hn⟩
    by_contra hx
    have hn' : initD na s x = some (n : Int) := hn
    rw [initD_eval, if_neg hx] at hn'
    by_cases hxid : x ∈ na.nodes.map Node.id
    · rw [if_pos hxid] at hn'
      exact natCast_ne_negOne n (Option.some.inj hn').symm
    · rw [if_neg hxid] at hn'
      exact Option.noConfusion hn'
  refine ⟨by simp, List.nodup_singleton s, ?_, ?_, ?_, ?_, ?_, ?_, ?_,
    List.nodup_singleton s, ?_, rfl, ?_⟩
  · intro x hx
    rw [List.mem_singleton.mp hx]
    exact hs
  · intro x hx
    rw [List.mem_singleton.mp hx]
    show initD na s s = some ((0 : Nat) : Int)
    rw [hds]
    rfl
  · intro x hx
    exact absurd hx (List.not_mem_nil x)
  · intro x hx
    by_cases hxs : x = s
    · subst hxs
      refine Or.inr ⟨0, hds, List.mem_singleton.mpr rfl, ?_⟩
      intro m hm
      omega
    · refine Or.inl ?_
      have hx' : x ∈ List.map Node.id na.nodes := hx
      show initD na s x = some (-1)
      rw [initD_eval, if_neg hxs, if_pos hx']
  · intro x hx
    have hxs : x ≠ s := fun hc => hx (hc ▸ hs)
    have hx' : x ∉ List.map Node.id na.nodes := hx
    show initD na s x = none
    rw [initD_eval, if_neg hxs, if_neg hx']
  · intro x hx
    rw [List.mem_singleton.mp hx]
    exact ⟨0, hds⟩
  · intro x hx hxq w hw hwid
    exact absurd (List.mem_singleton.mpr (hdisc x hx)) hxq
  · intro x
    constructor
    · intro hx
      rw [List.mem_singleton.mp hx]
      exact ⟨0, hds⟩
    · intro hx
      exact List.mem_singleton.mpr (hdisc x hx)
  · show (0 : ℚ) = (([s].filter (fun x => x ≠ s)).map _).sum
    simp

theorem dinv_switch {na : NetworkAnalyzer} {s : String} {lv : Nat} {q2 D : List String}
    {st : DState} (hs : s ∈ na.ids) (hinv : DInv na s lv [] q2 D st) :
    DInv na s (lv + 1) q2 [] D st := by
  obtain ⟨hq, hqnd, hqid, hq1, hq2, hdom, hout, hball, hcl, hDnd, hDdisc, hcnt, htot⟩ := hinv
  rw [List.nil_append] at hq
  refine ⟨by rw [hq, List.append_nil], hqnd, hqid, ?_, ?_, hdom, hout, ?_, hcl, hDnd,
    hDdisc, hcnt, htot⟩
  · intro x hx
    have := hq2 x hx
    rw [this]
    congr 1
  · intro x hx
    exact absurd hx (List.not_mem_nil x)
  · intro x hx
    rcases mem_ball_succ.mp hx with hx | ⟨v, hv, hadj, hid⟩
    · exact hball x hx
    · have hvdisc : Disc st v := hball v hv
      have hvid : v ∈ na.ids := ball_subset_ids hs lv v hv
      have hvq : v ∉ st.queue := by
        intro hvq
        rw [hq] at hvq
        have hdv := hq2 v hvq
        rcases hdom v hvid with hneg | ⟨n, hn, hdist⟩
        · exact disc_ne_negOne hvdisc hneg
        · rw [hdv] at hn
          have : (lv : Int) + 1 = (n : Int) := Option.some.inj hn
          have hnlv : n = lv + 1 := by omega
          exact hdist.2 lv (by omega) hv
      exact hcl v hvdisc hvq x hadj hid

theorem dinv_step (na : NetworkAnalyzer) (s : String) (hs : s ∈ na.ids)
    (lv : Nat) (v : String) (q1 q2 D : List String) (st st' : DState)
    (hinv : DInv na s lv (v :: q1) q2 D st)
    (hst' : st' = (na.adjL v).foldl (fun t w => bfsDistVisit t v w)
      { st with queue := q1 ++ q2 }) :
    ∃ new,
      DInv na s lv q1 (q2 ++ new) (D ++ new) st' ∧
      st'.queue.length + (na.ids.filter (fun x => st'.d x = some (-1))).length + 1
        ≤ st.queue.length + (na.ids.filter (fun x => st.d x = some (-1))).length := by
  obtain ⟨hq, hqnd, hqid, hq1lv, hq2lv, hdom, hout, hball, hcl, hDnd, hDdisc, hcnt, htot⟩ :=
    hinv
  have hq' : st.queue = v :: (q1 ++ q2) := hq
  have hcast : (((lv + 1 : Nat)) : Int) = (lv : Int) + 1 := by omega
  have hvq : v ∈ st.queue := by
    rw [hq']
    exact List.mem_cons_self v _
  have hdv : st.d v = some (lv : Int) := hq1lv v (List.mem_cons_self v q1)
  have hvid : v ∈ na.ids := hqid v hvq
  have hvball : v ∈ ball na s lv := by
    rcases hdom v hvid with hneg | ⟨n, hn, hdist⟩
    · rw [hdv] at hneg
      exact absurd (Option.some.inj hneg) (natCast_ne_negOne lv)
    · rw [hdv] at hn
      have h1 : (lv : Int) = (n : Int) := Option.some.inj hn
      have h2 : n = lv := by omega
      exact h2 ▸ hdist.1
  obtain ⟨new, hd, hqf, hcf, htf, hnewnd, hnewmem, hnewcov⟩ :=
    bfsFold_eq v (lv : Int) (by omega) (na.adjL v) { st with queue := q1 ++ q2 }
      (show ({ st with queue := q1 ++ q2 } : DState).d v = some (lv : Int) from hdv)
  have hd2 : st'.d = fun x => if x ∈ new then some ((lv : Int) + 1) else st.d x := by
    rw [hst']
    exact hd
  have hq2f : st'.queue = (q1 ++ q2) ++ new := by
    rw [hst']
    exact hqf
  have hc2 : st'.count = st.count + new.length := by
    rw [hst']
    exact hcf
  have ht2 : st'.totalDist
      = st.totalDist + (new.length : ℚ) * (((lv : Int) + 1 : Int) : ℚ) := by
    rw [hst']
    exact htf
  have hnewneg : ∀ w ∈ new, st.d w = some (-1) := fun w hw => (hnewmem w hw).2
  have hnewadj : ∀ w ∈ new, w ∈ na.adjL v := fun w hw => (hnewmem w hw).1
  have hnew_ids : ∀ w ∈ new, w ∈ na.ids := by
    intro w hw
    by_contra hc
    have h1 := hout w hc
    have h2 := hnewneg w hw
    rw [h1] at h2
    exact Option.noConfusion h2
  have hnew_undisc : ∀ w ∈ new, ¬ Disc st w := by
    intro w hw hdisc
    obtain ⟨n, hn⟩ := hdisc
    have h2 := hnewneg w hw
    rw [hn] at h2
    exact natCast_ne_negOne n (Option.some.inj h2)
  have hd_eq : ∀ x, x ∉ new → st'.d x = st.d x := by
    intro x hx
    simp only [hd2, if_neg hx]
  have hd_new : ∀ x ∈ new, st'.d x = some ((lv : Int) + 1) := by
    intro x hx
    simp only [hd2, if_pos hx]
  have hDisc' : ∀ x, Disc st x → Disc st' x := by
    intro x hx
    obtain ⟨n, hn⟩ := hx
    by_cases hxn : x ∈ new
    · refine ⟨lv + 1, ?_⟩
      rw [hd_new x hxn, hcast]
    · exact ⟨n, by rw [hd_eq x hxn]; exact hn⟩
  have hnewDisc' : ∀ x ∈ new, Disc st' x := by
    intro x hx
    refine ⟨lv + 1, ?_⟩
    rw [hd_new x hx, hcast]
  have hqueue_disc : ∀ x ∈ st.queue, Disc st x := by
    intro x hx
    rw [hq'] at hx
    rcases List.mem_cons.mp hx with rfl | hx
    · exact ⟨lv, hdv⟩
    · rcases List.mem_append.mp hx with hx | hx
      · exact ⟨lv, hq1lv x (List.mem_cons_of_mem v hx)⟩
      · exact ⟨lv + 1, by rw [hq2lv x hx, hcast]⟩
  have hsball0 : s ∈ ball na s 0 := List.mem_singleton.mpr rfl
  have hsdisc : Disc st s := hball s (ball_mono (Nat.zero_le lv) hsball0)
  have hsnew : s ∉ new := fun hc => hnew_undisc s hc hsdisc
  have htail_nd : (q1 ++ q2).Nodup := by
    rw [hq'] at hqnd
    exact (List.nodup_cons.mp hqnd).2
  refine ⟨new, ⟨?_, ?_, ?_, ?_, ?_, ?_, ?_, ?_, ?_, ?_, ?_, ?_, ?_⟩, ?_⟩
  · rw [hq2f, List.append_assoc]
  · rw [hq2f]
    refine List.Nodup.append htail_nd hnewnd ?_
    intro x hx1 hx2
    have hxq : x ∈ st.queue := by
      rw [hq']
      exact List.mem_cons_of_mem v hx1
    exact hnew_undisc x hx2 (hqueue_disc x hxq)
  · intro x hx
    rw [hq2f] at hx
    rcases List.mem_append.mp hx with hx | hx
    · exact hqid x (by rw [hq']; exact List.mem_cons_of_mem v hx)
    · exact hnew_ids x hx
  · intro x hx
    have hxq : x ∈ st.queue := by
      rw [hq']
      exact List.mem_cons_of_mem v (List.mem_append.mpr (Or.inl hx))
    have hxnew : x ∉ new := fun hc => hnew_undisc x hc (hqueue_disc x hxq)
    rw [hd_eq x hxnew]
    exact hq1lv x (List.mem_cons_of_mem v hx)
  · intro x hx
    rcases List.mem_append.mp hx with hx | hx
    · have hxq : x ∈ st.queue := by
        rw [hq']
        exact List.mem_cons_of_mem v (List.mem_append.mpr (Or.inr hx))
      have hxnew : x ∉ new := fun hc => hnew_undisc x hc (hqueue_disc x hxq)
      rw [hd_eq x hxnew]
      exact hq2lv x hx
    · exact hd_new x hx
  · intro x hxid
    by_cases hxn : x ∈ new
    · refine Or.inr ⟨lv + 1, by rw [hd_new x hxn, hcast], ?_, ?_⟩
      · exact mem_ball_succ.mpr (Or.inr ⟨v, hvball, hnewadj x hxn, hxid⟩)
      · intro m hm hmem
        have hxlv : x ∈ ball na s lv := ball_mono (by omega) hmem
        exact hnew_undisc x hxn (hball x hxlv)
    · rw [hd_eq x hxn]
      exact hdom x hxid
  · intro x hx
    have hxn : x ∉ new := fun hc => hx (hnew_ids x hc)
    rw [hd_eq x hxn]
    exact hout x hx
  · intro x hx
    exact hDisc' x (hball x hx)
  · intro x hx hxq w hw hwid
    by_cases hxv : x = v
    · subst hxv
      rcases hdom w hwid with hneg | ⟨n, hn, hdist⟩
      · exact hnewDisc' w (hnewcov w hw hneg)
      · exact hDisc' w ⟨n, hn⟩
    · have hxnew : x ∉ new := fun hc => hxq (by
        rw [hq2f]
        exact List.mem_append.mpr (Or.inr hc))
      have hxdisc : Disc st x := by
        obtain ⟨n, hn⟩ := hx
        exact ⟨n, by rw [← hd_eq x hxnew]; exact hn⟩
      have hxq' : x ∉ st.queue := by
        rw [hq']
        intro hc
        rcases List.mem_cons.mp hc with h | h
        · exact hxv h
        · exact hxq (by
            rw [hq2f]
            exact List.mem_append.mpr (Or.inl h))
      exact hDisc' w (hcl x hxdisc hxq' w hw hwid)
  · refine List.Nodup.append hDnd hnewnd ?_
    intro x hx1 hx2
    exact hnew_undisc x hx2 ((hDdisc x).mp hx1)
  · intro x
    constructor
    · intro hx
      rcases List.mem_append.mp hx with hx | hx
      · exact hDisc' x ((hDdisc x).mp hx)
      · exact hnewDisc' x hx
    · intro hx
      by_cases hxn : x ∈ new
      · exact List.mem_append.mpr (Or.inr hxn)
      · obtain ⟨n, hn⟩ := hx
        rw [hd_eq x hxn] at hn
        exact List.mem_append.mpr (Or.inl ((hDdisc x).mpr ⟨n, hn⟩))
  · rw [hc2, List.length_append]
    omega
  · rw [ht2, List.filter_append, List.map_append, List.sum_append]
    have hpiece1 : (D.filter (fun x => x ≠ s)).map
          (fun x => (((st'.d x).getD 0 : Int) : ℚ))
        = (D.filter (fun x => x ≠ s)).map
          (fun x => (((st.d x).getD 0 : Int) : ℚ)) := by
      refine List.map_congr_left ?_
      intro x hx
      have hxD : x ∈ D := (List.mem_filter.mp hx).1
      have hxnew : x ∉ new := fun hc => hnew_undisc x hc ((hDdisc x).mp hxD)
      rw [hd_eq x hxnew]
    have hfnew : new.filter (fun x => x ≠ s) = new := by
      refine List.filter_eq_self.mpr ?_
      intro x hx
      simp only [ne_eq, decide_not, Bool.not_eq_true', decide_eq_false_iff_not]
      intro hc
      exact hsnew (hc ▸ hx)
    have hpiece2 : (new.filter (fun x => x ≠ s)).map
          (fun x => (((st'.d x).getD 0 : Int) : ℚ))
        = new.map (fun _ => ((((lv : Int) + 1 : Int)) : ℚ)) := by
      rw [hfnew]
      refine List.map_congr_left ?_
      intro x hx
      rw [hd_new x hx]
      rfl
    rw [hpiece1, hpiece2, ← htot, sum_map_const_q]
  · have hqlen : st'.queue.length = q1.length + q2.length + new.length := by
      rw [hq2f]
      simp [List.length_append]
      omega
    have hstqlen : st.queue.length = q1.length + q2.length + 1 := by
      rw [hq']
      simp
    have hF : na.ids.filter (fun x => st'.d x = some (-1))
        = (na.ids.filter (fun x => st.d x = some (-1))).filter
            (fun x => !(decide (x ∈ new))) := by
      rw [List.filter_filter]
      refine List.filter_congr ?_
      intro x hx
      by_cases hxn : x ∈ new
      · have h1 : st'.d x = some ((lv : Int) + 1) := hd_new x hxn
        have h2 : ((lv : Int) + 1) ≠ -1 := by omega
        simp [h1, hxn, h2]
      · have h1 : st'.d x = st.d x := hd_eq x hxn
        simp [h1, hxn]
    have hsplit := filter_length_split (fun x => decide (x ∈ new))
      (na.ids.filter (fun x => st.d x = some (-1)))
    have hsub : ∀ w ∈ new,
        w ∈ (na.ids.filter (fun x => st.d x = some (-1))).filter
          (fun x => decide (x ∈ new)) := by
      intro w hw
      refine List.mem_filter.mpr ⟨List.mem_filter.mpr ⟨hnew_ids w hw, ?_⟩, by simpa using hw⟩
      simp [hnewneg w hw]
    have hlen : new.length
        ≤ ((na.ids.filter (fun x => st.d x = some (-1))).filter
            (fun x => decide (x ∈ new))).length :=
      length_le_of_nodup_subset hnewnd hsub
    rw [hF, hqlen, hstqlen]
    omega

theorem bfsDistLoop_spec (na : NetworkAnalyzer) (s : String) (hs : s ∈ na.ids) :
    ∀ (fuel : Nat) (st : DState) (lv : Nat) (q1 q2 D : List String),
      DInv na s lv q1 q2 D st →
      st.queue.length + (na.ids.filter (fun x => st.d x = some (-1))).length ≤ fuel →
      ∃ lv' D', DInv na s lv' [] [] D' (bfsDistLoop na fuel st) := by
  intro fuel
  induction fuel with
  | zero =>
    intro st lv q1 q2 D hinv hm
    have hq0 : st.queue = [] := List.length_eq_zero.mp (by omega)
    have hq12 : q1 ++ q2 = [] := by rw [← hinv.1, hq0]
    obtain ⟨h1, h2⟩ := List.append_eq_nil.mp hq12
    rw [h1, h2] at hinv
    exact ⟨lv, D, hinv⟩
  | succ fuel ih =>
    intro st lv q1 q2 D hinv hm
    cases hqe : st.queue with
    | nil =>
      have hloop : bfsDistLoop na (fuel + 1) st = st := by
        simp [bfsDistLoop, hqe]
      rw [hloop]
      have hq12 : q1 ++ q2 = [] := by rw [← hinv.1, hqe]
      obtain ⟨h1, h2⟩ := List.append_eq_nil.mp hq12
      rw [h1, h2] at hinv
      exact ⟨lv, D, hinv⟩
    | cons v rest =>
      have hloop : bfsDistLoop na (fuel + 1) st
          = bfsDistLoop na fuel
              ((na.adjL v).foldl (fun t w => bfsDistVisit t v w)
                { st with queue := rest }) := by
        simp [bfsDistLoop, hqe]
      have hq := hinv.1
      rw [hqe] at hq
      obtain ⟨lv₂, p1, p2, hinv', hrest⟩ :
          ∃ lv₂ p1 p2, DInv na s lv₂ (v :: p1) p2 D st ∧ rest = p1 ++ p2 := by
        cases q1 with
        | nil =>
          have hinv2 := dinv_switch hs hinv
          rw [List.nil_append] at hq
          cases q2 with
          | nil => exact absurd hq (List.cons_ne_nil v rest)
          | cons v0 q2' =>
            have hv0 : v0 = v := (List.cons.inj hq.symm).1
            have hr : q2' = rest := (List.cons.inj hq.symm).2
            subst hv0
            subst hr
            exact ⟨lv + 1, q2', [], hinv2, (List.append_nil q2').symm⟩
        | cons v0 q1' =>
          rw [List.cons_append] at hq
          have hv0 : v0 = v := (List.cons.inj hq.symm).1
          have hr : q1' ++ q2 = rest := (List.cons.inj hq.symm).2
          subst hv0
          exact ⟨lv, q1', q2, hinv, hr.symm⟩
      obtain ⟨new, hinv3, hmeas⟩ := dinv_step na s hs lv₂ v p1 p2 D st
        ((na.adjL v).foldl (fun t w => bfsDistVisit t v w)
          { st with queue := p1 ++ p2 })
        hinv' rfl
      rw [hloop, hrest]
      refine ih _ lv₂ p1 (p2 ++ new) (D ++ new) hinv3 ?_
      rw [hqe] at hm hmeas
      simp only [List.length_cons] at hm hmeas
      omega

theorem bfsDist_spec (na : NetworkAnalyzer) (s : String) (hs : s ∈ na.ids) :
    ∃ lv D, DInv na s lv [] [] D (bfsDist na s) := by
  have hinit := dinv_init na s hs
  have hm : (({ d := initD na s, queue := [s], totalDist := 0, count := 0 } : DState)).queue.length
      + (na.ids.filter (fun x =>
          ({ d := initD na s, queue := [s], totalDist := 0, count := 0 } : DState).d x
            = some (-1))).length
      ≤ na.nodes.length + 1 := by
    have h1 : (na.ids.filter (fun x =>
        ({ d := initD na s, queue := [s], totalDist := 0, count := 0 } : DState).d x
          = some (-1))).length ≤ na.ids.length := List.length_filter_le _ _
    have h2 : na.ids.length = na.nodes.length := List.length_map _ _
    have h3 : (({ d := initD na s, queue := [s], totalDist := 0, count := 0 } : DState)).queue.length
        = 1 := rfl
    omega
  obtain ⟨lv, D, h⟩ := bfsDistLoop_spec na s hs (na.nodes.length + 1)
    { d := initD na s, queue := [s], totalDist := 0, count := 0 } 0 [s] [] [s] hinit hm
  exact ⟨lv, D, h⟩

theorem bfsDist_char (na : NetworkAnalyzer) (s : String) (hs : s ∈ na.ids) :
    (bfsDist na s).count = (reachL na s).length ∧
    (bfsDist na s).totalDist = distSum na s := by
  obtain ⟨lv, D, hinv⟩ := bfsDist_spec na s hs
  obtain ⟨hq, hqnd, hqid, hq1, hq2, hdom, hout, hball, hcl, hDnd, hDdisc, hcnt, htot⟩ := hinv
  have hqnil : (bfsDist na s).queue = [] := hq
  have hcl' : ∀ x, Disc (bfsDist na s) x →
      ∀ w ∈ na.adjL x, w ∈ na.ids → Disc (bfsDist na s) w := by
    intro x hx w hw hwid
    refine hcl x hx ?_ w hw hwid
    rw [hqnil]
    exact List.not_mem_nil x
  have hsball0 : s ∈ ball na s 0 := List.mem_singleton.mpr rfl
  have hsdisc : Disc (bfsDist na s) s := hball s (ball_mono (Nat.zero_le lv) hsball0)
  have hballall : ∀ n, ∀ x ∈ ball na s n, Disc (bfsDist na s) x := by
    intro n
    induction n with
    | zero =>
      intro x hx
      rw [List.mem_singleton.mp hx]
      exact hsdisc
    | succ n ih =>
      intro x hx
      rcases mem_ball_succ.mp hx with hx | ⟨v, hv, hadj, hid⟩
      · exact ih x hx
      · exact hcl' v (ih v hv) x hadj hid
  have hdisc_iff : ∀ x, Disc (bfsDist na s) x
      ↔ ∃ n, DistIs na s x n ∧ (bfsDist na s).d x = some (n : Int) := by
    intro x
    constructor
    · intro hx
      obtain ⟨m, hm⟩ := hx
      have hxid : x ∈ na.ids := by
        by_contra hc
        rw [hout x hc] at hm
        exact Option.noConfusion hm
      rcases hdom x hxid with hneg | ⟨n, hn, hdist⟩
      · rw [hm] at hneg
        exact absurd (Option.some.inj hneg) (natCast_ne_negOne m)
      · exact ⟨n, hdist, hn⟩
    · intro ⟨n, hdist, hn⟩
      exact ⟨n, hn⟩
  have hKey : ∀ x, x ∈ ball na s na.nodes.length ↔ Disc (bfsDist na s) x := by
    intro x
    constructor
    · intro hx
      exact hballall _ x hx
    · intro hx
      obtain ⟨n, hdist, hn⟩ := (hdisc_iff x).mp hx
      exact ball_mono (le_of_lt (distIs_lt hs hdist)) hdist.1
  have hsdist : ∀ x n, DistIs na s x n → sdist na s x = some n := by
    intro x n hdist
    unfold sdist
    refine find_range_least _ n ?_ ?_ _ (by have := distIs_lt hs hdist; omega)
    · exact contains_iff_mem.mpr hdist.1
    · intro m hm
      cases hcc : (ball na s m).contains x with
      | false => rfl
      | true => exact absurd (contains_iff_mem.mp hcc) (hdist.2 m hm)
  have hreach_mem : ∀ x, x ∈ reachL na s ↔ Disc (bfsDist na s) x ∧ x ≠ s := by
    intro x
    unfold reachL
    rw [List.mem_filter]
    constructor
    · intro ⟨h1, h2⟩
      refine ⟨(hKey x).mp h1, ?_⟩
      simpa using h2
    · intro ⟨h1, h2⟩
      refine ⟨(hKey x).mpr h1, ?_⟩
      simpa using h2
  have hDfilter_mem : ∀ x, x ∈ D.filter (fun x => x ≠ s)
      ↔ Disc (bfsDist na s) x ∧ x ≠ s := by
    intro x
    rw [List.mem_filter]
    constructor
    · intro ⟨h1, h2⟩
      refine ⟨(hDdisc x).mp h1, ?_⟩
      simpa using h2
    · intro ⟨h1, h2⟩
      refine ⟨(hDdisc x).mpr h1, ?_⟩
      simpa using h2
  have hperm : (D.filter (fun x => x ≠ s)).Perm (reachL na s) := by
    refine (List.perm_ext_iff_of_nodup (List.Nodup.filter _ hDnd)
      (show (reachL na s).Nodup from List.Nodup.filter _ (ball_nodup na s _))).mpr ?_
    intro a
    rw [hDfilter_mem a, hreach_mem a]
  have hsD : s ∈ D := (hDdisc s).mpr hsdisc
  have hDperm : D.Perm (s :: D.filter (fun x => x ≠ s)) := by
    refine (List.perm_ext_iff_of_nodup hDnd
      (List.nodup_cons.mpr ⟨by simp, List.Nodup.filter _ hDnd⟩)).mpr ?_
    intro a
    rw [List.mem_cons, List.mem_filter]
    constructor
    · intro ha
      by_cases has : a = s
      · exact Or.inl has
      · exact Or.inr ⟨ha, by simpa using has⟩
    · rintro (rfl | ⟨ha, h2⟩)
      · exact hsD
      · exact ha
  constructor
  · have h1 : D.length = 1 + (D.filter (fun x => x ≠ s)).length := by
      rw [hDperm.length_eq]
      simp
      omega
    have h2 : (D.filter (fun x => x ≠ s)).length = (reachL na s).length :=
      hperm.length_eq
    omega
  · rw [htot]
    unfold distSum
    rw [foldl_add_eq, zero_add]
    have hcongr : (D.filter (fun x => x ≠ s)).map
          (fun x => ((((bfsDist na s).d x).getD 0 : Int) : ℚ))
        = (D.filter (fun x => x ≠ s)).map
          (fun t => (((sdist na s t).getD 0 : Nat) : ℚ)) := by
      refine List.map_congr_left ?_
      intro x hx
      have hxdisc : Disc (bfsDist na s) x := ((hDfilter_mem x).mp hx).1
      obtain ⟨n, hdist, hn⟩ := (hdisc_iff x).mp hxdisc
      rw [hn, hsdist x n hdist]
      simp
    rw [hcongr]
    exact (hperm.map _).sum_eq

theorem calculateCloseness_eval (na : NetworkAnalyzer) (x : String) :
    calculateCloseness na x
      = if x ∈ na.nodes.map Node.id
        then (if 0 < (bfsDist na x).count
              then ((bfsDist na x).count : ℚ) / (bfsDist na x).totalDist else 0)
        else 0 := by
  unfold calculateCloseness
  exact foldl_upd_eval
    (fun y => if 0 < (bfsDist na y).count
      then ((bfsDist na y).count : ℚ) / (bfsDist na y).totalDist else 0)
    na.nodes (fun _ => 0) x

theorem brandesVisit_stack (st : BState) (v w : String) :
    (brandesVisit st v w).stack = st.stack := by
  simp only [brandesVisit]
  split <;> split <;> rfl

theorem brandesVisit_queue (st : BState) (v w : String) :
    (brandesVisit st v w).queue = st.queue
      ∨ (brandesVisit st v w).queue = st.queue ++ [w] := by
  simp only [brandesVisit]
  split <;> split
  · exact Or.inr rfl
  · exact Or.inr rfl
  · exact Or.inl rfl
  · exact Or.inl rfl

theorem brandesFold_avoid (v : String) :
    ∀ (ns : List String) (st : BState) (x : String), x ∉ st.queue → x ∉ ns →
      x ∉ (ns.foldl (fun t w => brandesVisit t v w) st).queue ∧
      (ns.foldl (fun t w => brandesVisit t v w) st).stack = st.stack := by
  intro ns
  induction ns with
  | nil =>
    intro st x hq hns
    exact ⟨hq, rfl⟩
  | cons w ns ih =>
    intro st x hq hns
    rw [List.foldl_cons]
    have hxw : x ≠ w := fun hc => hns (hc ▸ List.mem_cons_self w ns)
    have hq' : x ∉ (brandesVisit st v w).queue := by
      rcases brandesVisit_queue st v w with h | h
      · rw [h]
        exact hq
      · rw [h]
        intro hc
        rcases List.mem_append.mp hc with hc | hc
        · exact hq hc
        · exact hxw (List.mem_singleton.mp hc)
    obtain ⟨h1, h2⟩ := ih (brandesVisit st v w) x hq'
      (fun hc => hns (List.mem_cons_of_mem w hc))
    exact ⟨h1, h2.trans (brandesVisit_stack st v w)⟩

theorem brandesBFS_avoid (na : NetworkAnalyzer) (x : String)
    (hin : ∀ v, x ∉ na.adjL v) :
    ∀ (fuel : Nat) (st : BState), x ∉ st.queue → x ∉ st.stack →
      x ∉ (brandesBFS na fuel st).stack := by
  intro fuel
  induction fuel with
  | zero =>
    intro st hq hstk
    exact hstk
  | succ fuel ih =>
    intro st hq hstk
    cases hqe : st.queue with
    | nil =>
      have : brandesBFS na (fuel + 1) st = st := by
        simp [brandesBFS, hqe]
      rw [this]
      exact hstk
    | cons v rest =>
      have hloop : brandesBFS na (fuel + 1) st
          = brandesBFS na fuel
              ((na.adjL v).foldl (fun t w => brandesVisit t v w)
                { st with queue := rest, stack := st.stack ++ [v] }) := by
        simp [brandesBFS, hqe]
      rw [hloop]
      have hxv : x ≠ v := by
        intro hc
        rw [hqe] at hq
        exact hq (hc ▸ List.mem_cons_self v rest)
      have hxrest : x ∉ rest := by
        intro hc
        rw [hqe] at hq
        exact hq (List.mem_cons_of_mem v hc)
      have hxstk : x ∉ st.stack ++ [v] := by
        intro hc
        rcases List.mem_append.mp hc with hc | hc
        · exact hstk hc
        · exact hxv (List.mem_singleton.mp hc)
      obtain ⟨h1, h2⟩ := brandesFold_avoid v (na.adjL v)
        { st with queue := rest, stack := st.stack ++ [v] } x hxrest (hin v)
      refine ih _ h1 ?_
      rw [h2]
      exact hxstk

theorem backprop_cb_avoid (pred : String → List String) (sigma : String → ℚ)
    (s x : String) :
    ∀ (ws : List String) (delta cb : String → ℚ), (∀ w ∈ ws, w ≠ s → w ≠ x) →
      backprop pred sigma s ws delta cb x = cb x := by
  intro ws
  induction ws with
  | nil =>
    intro delta cb h
    rfl
  | cons w ws ih =>
    intro delta cb h
    simp only [backprop]
    rw [ih _ _ (fun w' hw' => h w' (List.mem_cons_of_mem w hw'))]
    by_cases hws : w = s
    · rw [if_neg (by simp [hws])]
    · rw [if_pos hws]
      exact upd_ne (fun hc => h w (List.mem_cons_self w ws) hws hc.symm)

theorem brandesSource_avoid (na : NetworkAnalyzer) (cb : String → ℚ) (t x : String)
    (hin : ∀ v, x ∉ na.adjL v) :
    brandesSource na cb t x = cb x := by
  unfold brandesSource
  apply backprop_cb_avoid
  intro w hw hwt
  by_cases htx : t = x
  · exact htx ▸ hwt
  · intro hc
    subst hc
    have hxq : w ∉ ([t] : List String) := by
      intro hc2
      exact htx (List.mem_singleton.mp hc2).symm
    have := brandesBFS_avoid na w hin (na.nodes.length + 1)
      { d := initD na t
        sigma := upd (na.nodes.foldl (fun m n => upd m n.id 0) (fun _ => 0)) t 1
        pred := na.nodes.foldl (fun m n => upd m n.id []) (fun _ => [])
        queue := [t]
        stack := [] }
      hxq (List.not_mem_nil w)
    exact this (List.mem_reverse.mp hw)

theorem foldl_brandes_preserve (na : NetworkAnalyzer) (x : String)
    (hin : ∀ v, x ∉ na.adjL v) :
    ∀ (ns : List Node) (c : String → ℚ), c x = 0 →
      (ns.foldl (fun c n => brandesSource na c n.id) c) x = 0 := by
  intro ns
  induction ns with
  | nil =>
    intro c hc
    exact hc
  | cons n ns ih =>
    intro c hc
    rw [List.foldl_cons]
    refine ih _ ?_
    rw [brandesSource_avoid na c n.id x hin]
    exact hc

theorem foldl_norm_preserve (q : ℚ) (x : String) :
    ∀ (ns : List Node) (c : String → ℚ), c x = 0 →
      (ns.foldl (fun c n => upd c n.id (c n.id / q)) c) x = 0 := by
  intro ns
  induction ns with
  | nil =>
    intro c hc
    exact hc
  | cons n ns ih =>
    intro c hc
    rw [List.foldl_cons]
    refine ih _ ?_
    by_cases hx : x = n.id
    · subst hx
      rw [upd_same, hc, zero_div]
    · rw [upd_ne hx]
      exact hc

theorem calculateBetweenness_zero_of_no_inedges (na : NetworkAnalyzer) (x : String)
    (hin : ∀ v, x ∉ na.adjL v) :
    calculateBetweenness na x = 0 := by
  unfold calculateBetweenness
  have hcb0 : (na.nodes.foldl (fun m n => upd m n.id 0) (fun _ => (0 : ℚ))) x = 0 := by
    have h := foldl_upd_eval (fun _ => (0 : ℚ)) na.nodes (fun _ => 0) x
    rw [h]
    split <;> rfl
  have hcb := foldl_brandes_preserve na x hin na.nodes _ hcb0
  split
  · exact foldl_norm_preserve _ x na.nodes _ hcb
  · exact hcb

theorem no_inedges {nodes : List Node} {edges : List Edge} {x : String}
    (hx : x ∈ nodes.map Node.id)
    (hrev : (mkAnalyzer nodes edges).revAdjL x = []) :
    ∀ v, x ∉ (mkAnalyzer nodes edges).adjL v := by
  intro v hc
  rcases adjL_mem_iff.mp hc with ⟨hv, hpair⟩
  have hmem : v ∈ (mkAnalyzer nodes edges).revAdjL x := revAdjL_mem_iff.mpr ⟨hx, hpair⟩
  rw [hrev] at hmem
  exact List.not_mem_nil v hmem

/-- C7: per source `s`, `calculateCloseness` returns the number of ids the
directed BFS reaches from `s` divided by the sum of their exact BFS
distances, and 0 when nothing is reachable (the spec-side `reachL` and
`distSum` are defined from the reachability balls of the adjacency, not
from the BFS loop); in particular an isolated node — empty successor and
predecessor sets — has closeness 0 and betweenness 0. -/
theorem C7_closeness (nodes : List Node) (edges : List Edge) (s : String)
    (hs : s ∈ nodes.map Node.id) :
    (calculateCloseness (mkAnalyzer nodes edges) s
        = if reachL (mkAnalyzer nodes edges) s = [] then 0
          else ((reachL (mkAnalyzer nodes edges) s).length : ℚ)
            / distSum (mkAnalyzer nodes edges) s) ∧
    ((mkAnalyzer nodes edges).adjL s = [] ∧ (mkAnalyzer nodes edges).revAdjL s = [] →
      calculateCloseness (mkAnalyzer nodes edges) s = 0 ∧
      calculateBetweenness (mkAnalyzer nodes edges) s = 0) := by
  have hsid : s ∈ (mkAnalyzer nodes edges).ids := hs
  have hs' : s ∈ (mkAnalyzer nodes edges).nodes.map Node.id := hs
  obtain ⟨hcount, htotal⟩ := bfsDist_char (mkAnalyzer nodes edges) s hsid
  have hformula : calculateCloseness (mkAnalyzer nodes edges) s
      = if reachL (mkAnalyzer nodes edges) s = [] then 0
        else ((reachL (mkAnalyzer nodes edges) s).length : ℚ)
          / distSum (mkAnalyzer nodes edges) s := by
    rw [calculateCloseness_eval, if_pos hs', hcount, htotal]
    by_cases hre : reachL (mkAnalyzer nodes edges) s = []
    · rw [if_pos hre, hre]
      simp
    · rw [if_neg hre, if_pos (List.length_pos.mpr hre)]
  refine ⟨hformula, ?_⟩
  intro ⟨hadj, hrev⟩
  constructor
  · have h01 : ball (mkAnalyzer nodes edges) s 0 = ball (mkAnalyzer nodes edges) s 1 := by
      rw [ball_succ]
      have hb0 : ball (mkAnalyzer nodes edges) s 0 = [s] := rfl
      rw [hb0]
      rw [show ([s].flatMap fun v => ((mkAnalyzer nodes edges).adjL v).filter
            fun w => (mkAnalyzer nodes edges).ids.contains w) = [] from by simp [hadj]]
      rfl
    have hstab := ball_stab (mkAnalyzer nodes edges) s 0 h01
      (mkAnalyzer nodes edges).nodes.length
    rw [Nat.zero_add] at hstab
    have hre : reachL (mkAnalyzer nodes edges) s = [] := by
      unfold reachL
      rw [hstab]
      show List.filter (fun t => !(t == s)) [s] = []
      simp
    rw [hformula, if_pos hre]
  · exact calculateBetweenness_zero_of_no_inedges (mkAnalyzer nodes edges) s
      (no_inedges hs hrev)

/-- C7 witness: the closeness characterisation applied to the node id C of
the concrete graph with nodes A, B, C and the single edge A→B, where C is
isolated. -/
theorem C7_witness :
    "C" ∈ [mkN "A", mkN "B", mkN "C"].map Node.id ∧
    ((calculateCloseness (mkAnalyzer [mkN "A", mkN "B", mkN "C"] [mkE "A" "B"]) "C"
        = if reachL (mkAnalyzer [mkN "A", mkN "B", mkN "C"] [mkE "A" "B"]) "C" = [] then 0
          else ((reachL (mkAnalyzer [mkN "A", mkN "B", mkN "C"] [mkE "A" "B"]) "C").length : ℚ)
            / distSum (mkAnalyzer [mkN "A", mkN "B", mkN "C"] [mkE "A" "B"]) "C") ∧
    ((mkAnalyzer [mkN "A", mkN "B", mkN "C"] [mkE "A" "B"]).adjL "C" = [] ∧
      (mkAnalyzer [mkN "A", mkN "B", mkN "C"] [mkE "A" "B"]).revAdjL "C" = [] →
      calculateCloseness (mkAnalyzer [mkN "A", mkN "B", mkN "C"] [mkE "A" "B"]) "C" = 0 ∧
      calculateBetweenness (mkAnalyzer [mkN "A", mkN "B", mkN "C"] [mkE "A" "B"]) "C" = 0)) :=
  ⟨by decide, C7_closeness [mkN "A", mkN "B", mkN "C"] [mkE "A" "B"] "C" (by decide)⟩

end AirCargoNet
